import Mathlib

/-!
# xv6 lock lab: sharded buffer cache (`kernel/bio.c`) and per-CPU page
allocator (`kernel/kalloc.c`)

Shallow embedding of the two C files and proofs about them.

* C pointers into `bcache.buf` are `Option Nat`: `none` is the null pointer,
  `some k` is `&bcache.buf[k]`.
* `uint` arithmetic is arithmetic on `Nat` reduced modulo `2 ^ 32`;
  `uint64` arithmetic is reduced modulo `2 ^ 64`.
* A `while` loop over a linked list is a recursive function with a step
  budget; running out of budget is reported as `diverged`.
* `panic` is an outcome of its own and carries the machine state at the
  moment of the call.
* The calls a routine makes on locks are given as the list of its lock events, in
  program order.
-/

/-- The messages of the `panic` calls found in `bio.c` and `kalloc.c`. -/
inductive PanicMsg where
  | bget_no_buffers
  | bwrite
  | brelse
  | kfree
  | kfree_index
  deriving DecidableEq, Repr

/-- Result of running a kernel routine on a machine state of type `σ`:
it returns `r` in state `s`, or it stops in `panic`, or it never leaves one
of its loops. -/
inductive Outcome (σ : Type) (α : Type) where
  | ok (r : α) (s : σ)
  | panicked (msg : PanicMsg) (s : σ)
  | diverged

namespace Outcome

/-- The routine returned (it neither stopped in `panic` nor looped). -/
def returns {σ α : Type} : Outcome σ α → Bool
  | ok _ _ => true
  | _ => false

/-- The routine stopped in `panic` with message `m`. -/
def panics {σ α : Type} (m : PanicMsg) : Outcome σ α → Bool
  | panicked m' _ => decide (m' = m)
  | _ => false

/-- Return value, when there is one. -/
def ret? {σ α : Type} : Outcome σ α → Option α
  | ok r _ => some r
  | _ => none

/-- Machine state in which the routine returned or stopped;
`s0` when it looped. -/
def stateD {σ α : Type} (s0 : σ) : Outcome σ α → σ
  | ok _ s => s
  | panicked _ s => s
  | diverged => s0

end Outcome

namespace Locks

/-- Calls on locks made by a kernel routine: `acquire` and `release` of the spinlock of
shard `i` (`bucket.bucket_locks[i]` in `bio.c`, `kmem[i].lock` in `kalloc.c`), and
`acquiresleep` and `releasesleep` of the sleep lock of buffer `b`. -/
inductive Event where
  | acquire (i : Nat)
  | release (i : Nat)
  | acquiresleep (b : Nat)
  | releasesleep (b : Nat)
  deriving DecidableEq, Repr

/-- The shard spinlocks held after one more event, `held` being those held before it. -/
def step (held : List Nat) : Event → List Nat
  | Event.acquire i => i :: held
  | Event.release i => held.erase i
  | Event.acquiresleep _ => held
  | Event.releasesleep _ => held

/-- The shard spinlocks held after the events `tr`, starting with `held`. -/
def heldFrom (held : List Nat) (tr : List Event) : List Nat := tr.foldl step held

/-- The shard spinlocks held after the events `tr` of a call that starts with none. -/
def heldAfter (tr : List Event) : List Nat := heldFrom [] tr

/-- Lock discipline of the events `tr` of one call, from its start to its return or
`panic`: at no point are two shard spinlocks held, none is held at the end, and
`acquiresleep` is called only while none is held. -/
structure Discipline (tr : List Event) : Prop where
  one : ∀ p q, tr = p ++ q → (heldAfter p).length ≤ 1
  released : heldAfter tr = []
  sleep : ∀ p b q, tr = p ++ Event.acquiresleep b :: q → heldAfter p = []

/-- Executable test of the discipline on the events `tr` of a call that starts with the
spinlocks `held`. -/
def check : List Nat → List Event → Bool
  | held, [] => held.isEmpty
  | held, e :: es =>
    decide ((step held e).length ≤ 1) &&
      (match e with
        | Event.acquiresleep _ => held.isEmpty
        | _ => true) &&
      check (step held e) es

end Locks

namespace Bio

/-- Modelled from the spec: `NBUF` of `param.h` (not part of the sources at
hand); the spec and the comment on `bcache.buf` give 30. -/
def NBUF : Nat := 30

/-- `#define NBUCKETS 13`. -/
def NBUCKETS : Nat := 13

/-- Contents of one disk block, byte offset to byte value. -/
abbrev Block := Nat → Nat

/-- `struct buf` of `buf.h`, without the sleep lock. -/
structure Buf where
  valid : Int
  disk : Int
  dev : Nat
  blockno : Nat
  refcnt : Nat
  next : Option Nat
  data : Block

/-- One transfer performed by the block-device driver. -/
structure Transfer where
  write : Bool
  dev : Nat
  blockno : Nat
  deriving DecidableEq, Repr

/-- The memory owned by `bio.c` together with the disk behind it.
`buf k` is `bcache.buf[k]`, `heads i` is `bucket.heads[i].next`,
`disk dev blockno` is the content of a disk block and `io` lists the
driver transfers done so far, most recent first. -/
structure State where
  buf : Nat → Buf
  heads : Nat → Option Nat
  disk : Nat → Nat → Block
  io : List Transfer

/-- Reduction of a value to `uint`. -/
def u32 (n : Nat) : Nat := n % 2 ^ 32

/-- `++x` on a `uint`. -/
def inc32 (n : Nat) : Nat := u32 (n + 1)

/-- `--x` on a `uint`: 0 wraps to `2 ^ 32 - 1`. -/
def dec32 (n : Nat) : Nat := u32 (n + (2 ^ 32 - 1))

/-- `buf_hash`: `(dev + blockno) % NBUCKETS` on `uint` operands. -/
def buf_hash (dev blockno : Nat) : Nat := u32 (dev + blockno) % NBUCKETS

/-- Store `v` into `bcache.buf[b]`. -/
def State.setBuf (s : State) (b : Nat) (v : Buf) : State :=
  { s with buf := fun k => if k = b then v else s.buf k }

/-- Store `p` into `bucket.heads[i].next`. -/
def State.setHead (s : State) (i : Nat) (p : Option Nat) : State :=
  { s with heads := fun k => if k = i then p else s.heads k }

/-- `x->next = p` where `x` is `&bucket.heads[i]` (`none`) or a buffer. -/
def State.setNext (s : State) (i : Nat) (x : Option Nat) (p : Option Nat) : State :=
  match x with
  | none => s.setHead i p
  | some k => s.setBuf k { s.buf k with next := p }

/-- All-zero static storage, in front of a disk `d`. -/
def zeroState (d : Nat → Nat → Block) : State :=
  { buf := fun _ => { valid := 0, disk := 0, dev := 0, blockno := 0, refcnt := 0,
                      next := none, data := fun _ => 0 }
    heads := fun _ => none
    disk := d
    io := [] }

/-- Body of the inner loop of `binit`: link buffer `b` in front of bucket `i`
with `blockno = i`, then `b++`. -/
def binit_link (i : Nat) (sb : State × Nat) : State × Nat :=
  let s := sb.1
  let b := sb.2
  let s1 := s.setBuf b { s.buf b with blockno := i }
  let s2 := s1.setBuf b { s1.buf b with next := s1.heads i }
  let s3 := s2.setHead i (some b)
  (s3, b + 1)

/-- Inner loop of `binit`: `for (j = 0; j < NBUF / NBUCKETS; j++)`, with `n`
iterations left. -/
def binit_inner (i : Nat) : Nat → State × Nat → State × Nat
  | 0, sb => sb
  | n + 1, sb => binit_inner i n (binit_link i sb)

/-- Outer loop of `binit` over the buckets listed in `is`. -/
def binit_outer : List Nat → State × Nat → State × Nat
  | [], sb => sb
  | i :: is, sb => binit_outer is (binit_inner i (NBUF / NBUCKETS) sb)

/-- `binit`: every `bucket.heads[i].next` is cleared, then the buffers are
handed out to the buckets, `NBUF / NBUCKETS` to each, starting at
`bcache.buf`. -/
def binit (d : Nat → Nat → Block) : State :=
  let s0 := zeroState d
  let s1 := (List.range NBUCKETS).foldl (fun s i => s.setHead i none) s0
  (binit_outer (List.range NBUCKETS) (s1, 0)).1

/-- What a list scan ends with. -/
inductive Scan where
  | found (b : Nat)
  | miss
  | fuel_out
  deriving DecidableEq, Repr

/-- The loop `while (b != 0) { if (P b) <leave with b>; b = b->next; }`
run for at most `fuel` nodes. -/
def scan (buf : Nat → Buf) (P : Buf → Bool) : Nat → Option Nat → Scan
  | _, none => Scan.miss
  | 0, some _ => Scan.fuel_out
  | fuel + 1, some b => if P (buf b) then Scan.found b else scan buf P fuel (buf b).next

/-- What the scan of a foreign bucket ends with: the free buffer `cur` and the
node `prev` in front of it (`none` is the bucket head). -/
inductive StealScan where
  | found (prev : Option Nat) (cur : Nat)
  | miss
  | fuel_out
  deriving DecidableEq, Repr

/-- The inner `while (cur != 0)` loop of the third step of `bget`. -/
def steal_scan (buf : Nat → Buf) : Nat → Option Nat → Option Nat → StealScan
  | _, _, none => StealScan.miss
  | 0, _, some _ => StealScan.fuel_out
  | fuel + 1, prev, some cur =>
    if (buf cur).refcnt = 0 then StealScan.found prev cur
    else steal_scan buf fuel (some cur) (buf cur).next

/-- Step budget of the list loops: a list without a cycle has at most `NBUF`
nodes. -/
def FUEL : Nat := NBUF

/-- Test of the first loop of `bget`. -/
def is_cached (dev blockno : Nat) (b : Buf) : Bool :=
  decide (b.blockno = blockno ∧ b.dev = dev)

/-- Test of the second and third loop of `bget`. -/
def is_free (b : Buf) : Bool := decide (b.refcnt = 0)

/-- The four assignments that claim buffer `b` for `(dev, blockno)`. -/
def claim (s : State) (b dev blockno : Nat) : State :=
  s.setBuf b { s.buf b with dev := dev, blockno := blockno, valid := 0, refcnt := 1 }

/-- What the third step of `bget` ends with. -/
inductive Steal where
  | found (b : Nat) (s : State)
  | miss
  | fuel_out

/-- The `for` loop of the third step of `bget` over the buckets `is`,
skipping `index`: the first free buffer met is unlinked from its bucket and
claimed. -/
def steal (s : State) (dev blockno index : Nat) : List Nat → Steal
  | [] => Steal.miss
  | i :: is =>
    if i = index then steal s dev blockno index is
    else
      match steal_scan s.buf FUEL none (s.heads i) with
      | StealScan.fuel_out => Steal.fuel_out
      | StealScan.miss => steal s dev blockno index is
      | StealScan.found prev cur =>
        Steal.found cur (claim (s.setNext i prev (s.buf cur).next) cur dev blockno)

/-- `bget`, up to the point where the caller waits for the sleep lock of the
buffer: the value is the buffer handed to the caller. -/
def bget (dev blockno : Nat) (s : State) : Outcome State Nat :=
  let index := buf_hash dev blockno
  match scan s.buf (is_cached dev blockno) FUEL (s.heads index) with
  | Scan.fuel_out => Outcome.diverged
  | Scan.found b =>
    Outcome.ok b (s.setBuf b { s.buf b with refcnt := inc32 (s.buf b).refcnt })
  | Scan.miss =>
    match scan s.buf is_free FUEL (s.heads index) with
    | Scan.fuel_out => Outcome.diverged
    | Scan.found b => Outcome.ok b (claim s b dev blockno)
    | Scan.miss =>
      match steal s dev blockno index (List.range NBUCKETS) with
      | Steal.fuel_out => Outcome.diverged
      | Steal.found b s1 =>
        let s2 := s1.setBuf b { s1.buf b with next := s1.heads index }
        Outcome.ok b (s2.setHead index (some b))
      | Steal.miss => Outcome.panicked PanicMsg.bget_no_buffers s

/-- Modelled from the spec: `virtio_disk_rw` of the block-device driver (not
part of the sources at hand), a synchronous transfer between the data of
buffer `b` and the disk block `(b->dev, b->blockno)`. -/
def virtio_disk_rw (b : Nat) (write : Bool) (s : State) : State :=
  let x := s.buf b
  if write then
    { s with
      disk := fun dev blockno =>
        if dev = x.dev ∧ blockno = x.blockno then x.data else s.disk dev blockno
      io := { write := true, dev := x.dev, blockno := x.blockno } :: s.io }
  else
    { s.setBuf b { x with data := s.disk x.dev x.blockno } with
      io := { write := false, dev := x.dev, blockno := x.blockno } :: s.io }

/-- `bread`. -/
def bread (dev blockno : Nat) (s : State) : Outcome State Nat :=
  match bget dev blockno s with
  | Outcome.ok b s1 =>
    if (s1.buf b).valid = 0 then
      let s2 := virtio_disk_rw b false s1
      Outcome.ok b (s2.setBuf b { s2.buf b with valid := 1 })
    else Outcome.ok b s1
  | Outcome.panicked m s1 => Outcome.panicked m s1
  | Outcome.diverged => Outcome.diverged

/-- `bwrite`; `holding` is the answer of `holdingsleep(&b->lock)`. -/
def bwrite (holding : Bool) (b : Nat) (s : State) : Outcome State Unit :=
  if !holding then Outcome.panicked PanicMsg.bwrite s
  else Outcome.ok () (virtio_disk_rw b true s)

/-- `brelse`; `holding` is the answer of `holdingsleep(&b->lock)`. -/
def brelse (holding : Bool) (b : Nat) (s : State) : Outcome State Unit :=
  if !holding then Outcome.panicked PanicMsg.brelse s
  else Outcome.ok () (s.setBuf b { s.buf b with refcnt := dec32 (s.buf b).refcnt })

/-- `bpin`. -/
def bpin (b : Nat) (s : State) : State :=
  s.setBuf b { s.buf b with refcnt := inc32 (s.buf b).refcnt }

/-- `bunpin`. -/
def bunpin (b : Nat) (s : State) : State :=
  s.setBuf b { s.buf b with refcnt := dec32 (s.buf b).refcnt }

end Bio

namespace Bio

/-- The list `L` is exactly the sequence of buffers met when following `next`
from pointer `p` until the null pointer. -/
def IsChain (buf : Nat → Buf) : Option Nat → List Nat → Prop
  | p, [] => p = none
  | p, b :: L => p = some b ∧ IsChain buf (buf b).next L

/-- The buffers met when following `next` from `p`, at most `fuel` of them. -/
def walk (buf : Nat → Buf) : Nat → Option Nat → List Nat
  | _, none => []
  | 0, some _ => []
  | fuel + 1, some b => b :: walk buf fuel (buf b).next

/-- The buffers linked in bucket `i`, in list order. -/
def bucketList (s : State) (i : Nat) : List Nat := walk s.buf FUEL (s.heads i)

/-- The bucket lists of `s` are the lists `Ls i`: each list ends in the null
pointer, no buffer occurs twice in a list or in two lists, and every linked
buffer is one of the `NBUF` buffers of the pool. -/
structure Rep (s : State) (Ls : Nat → List Nat) : Prop where
  chain : ∀ i, i < NBUCKETS → IsChain s.buf (s.heads i) (Ls i)
  nodup : ∀ i, i < NBUCKETS → (Ls i).Nodup
  disj : ∀ i j, i < NBUCKETS → j < NBUCKETS → i ≠ j → ∀ b, b ∈ Ls i → b ∉ Ls j
  range : ∀ i, i < NBUCKETS → ∀ b, b ∈ Ls i → b < NBUF

/-- Shape invariant of the cache: the bucket lists are finite, pairwise
disjoint lists of pool buffers. -/
def WellFormed (s : State) : Prop := Rep s (bucketList s)

/-- Calls made by the users of the buffer cache. `store b d` is a holder of
buffer `b` overwriting its data with `d`. -/
inductive Op where
  | bget (dev blockno : Nat)
  | bread (dev blockno : Nat)
  | bwrite (b : Nat)
  | brelse (b : Nat)
  | bpin (b : Nat)
  | bunpin (b : Nat)
  | store (b : Nat) (d : Block)

/-- Run one call. Calls made on a buffer are made by a holder of its sleep
lock, so `holdingsleep` answers true. The value is the buffer returned, if
the call returns one. -/
def Op.run : Op → State → Outcome State (Option Nat)
  | Op.bget dev blockno, s =>
    match Bio.bget dev blockno s with
    | Outcome.ok b s1 => Outcome.ok (some b) s1
    | Outcome.panicked m s1 => Outcome.panicked m s1
    | Outcome.diverged => Outcome.diverged
  | Op.bread dev blockno, s =>
    match Bio.bread dev blockno s with
    | Outcome.ok b s1 => Outcome.ok (some b) s1
    | Outcome.panicked m s1 => Outcome.panicked m s1
    | Outcome.diverged => Outcome.diverged
  | Op.bwrite b, s =>
    match Bio.bwrite true b s with
    | Outcome.ok _ s1 => Outcome.ok none s1
    | Outcome.panicked m s1 => Outcome.panicked m s1
    | Outcome.diverged => Outcome.diverged
  | Op.brelse b, s =>
    match Bio.brelse true b s with
    | Outcome.ok _ s1 => Outcome.ok none s1
    | Outcome.panicked m s1 => Outcome.panicked m s1
    | Outcome.diverged => Outcome.diverged
  | Op.bpin b, s => Outcome.ok none (Bio.bpin b s)
  | Op.bunpin b, s => Outcome.ok none (Bio.bunpin b s)
  | Op.store b d, s => Outcome.ok none (s.setBuf b { s.buf b with data := d })

/-- Calling discipline: `dev` and `blockno` are `uint` values, and a call on
a buffer is made only while that buffer is referenced (`refcnt >= 1`). -/
def Op.legal : Op → State → Prop
  | Op.bget dev blockno, _ => dev < 2 ^ 32 ∧ blockno < 2 ^ 32
  | Op.bread dev blockno, _ => dev < 2 ^ 32 ∧ blockno < 2 ^ 32
  | Op.bwrite b, s => 1 ≤ (s.buf b).refcnt
  | Op.brelse b, s => 1 ≤ (s.buf b).refcnt
  | Op.bpin b, s => 1 ≤ (s.buf b).refcnt
  | Op.bunpin b, s => 1 ≤ (s.buf b).refcnt
  | Op.store b _, s => 1 ≤ (s.buf b).refcnt

/-- States of the cache reachable from `binit` by calls that follow the
discipline and return. -/
inductive Reachable : State → Prop where
  | init (d : Nat → Nat → Block) : Reachable (binit d)
  | step {s t : State} {o : Op} {r : Option Nat} :
      Reachable s → o.legal s → o.run s = Outcome.ok r t → Reachable t

end Bio

namespace Bio

/-- The value of `prev` when the steal scan, started with `prev`, has walked
over the nodes `A`. -/
def predOf (prev : Option Nat) : List Nat → Option Nat
  | [] => prev
  | a :: A => predOf (some a) A

/-- State after a steal: `cur`, found in bucket `i` behind the nodes `A`, is
unlinked and claimed, then linked in front of bucket `index`. -/
def stolen (s : State) (dev blockno index i : Nat) (A : List Nat) (cur : Nat) : State :=
  let s1 := claim (s.setNext i (predOf none A) (s.buf cur).next) cur dev blockno
  let s2 := s1.setBuf cur { s1.buf cur with next := s1.heads index }
  s2.setHead index (some cur)

/-- Bucket lists after a steal of `cur` from bucket `i`, whose list was
`A ++ cur :: B`, into bucket `index`. -/
def stolenLists (Ls : Nat → List Nat) (index i : Nat) (A : List Nat) (cur : Nat)
    (B : List Nat) : Nat → List Nat :=
  fun k => if k = index then cur :: Ls index else if k = i then A ++ B else Ls k

/-- The four ways `bget dev blockno` can end in a state whose bucket lists are
`Ls`: a hit in the home bucket, a free buffer claimed in the home bucket, a
free buffer stolen from another bucket, or no free buffer in any list. -/
inductive BgetSpec (s : State) (Ls : Nat → List Nat) (dev blockno : Nat) :
    Outcome State Nat → Prop where
  | hit (b : Nat) :
      (Ls (buf_hash dev blockno)).find? (fun x => is_cached dev blockno (s.buf x)) = some b →
      BgetSpec s Ls dev blockno
        (Outcome.ok b (s.setBuf b { s.buf b with refcnt := inc32 (s.buf b).refcnt }))
  | claimed (b : Nat) :
      (Ls (buf_hash dev blockno)).find? (fun x => is_cached dev blockno (s.buf x)) = none →
      (Ls (buf_hash dev blockno)).find? (fun x => is_free (s.buf x)) = some b →
      BgetSpec s Ls dev blockno (Outcome.ok b (claim s b dev blockno))
  | stole (i : Nat) (A : List Nat) (cur : Nat) (B : List Nat) :
      (Ls (buf_hash dev blockno)).find? (fun x => is_cached dev blockno (s.buf x)) = none →
      (Ls (buf_hash dev blockno)).find? (fun x => is_free (s.buf x)) = none →
      i < NBUCKETS → i ≠ buf_hash dev blockno → Ls i = A ++ cur :: B →
      (∀ a, a ∈ A → (s.buf a).refcnt ≠ 0) → (s.buf cur).refcnt = 0 →
      BgetSpec s Ls dev blockno
        (Outcome.ok cur (stolen s dev blockno (buf_hash dev blockno) i A cur))
  | exhausted :
      (Ls (buf_hash dev blockno)).find? (fun x => is_cached dev blockno (s.buf x)) = none →
      (∀ i, i < NBUCKETS → ∀ b, b ∈ Ls i → (s.buf b).refcnt ≠ 0) →
      BgetSpec s Ls dev blockno (Outcome.panicked PanicMsg.bget_no_buffers s)

/-- Bucket lists right after `binit`. -/
def binitLists (i : Nat) : List Nat := [2 * i + 1, 2 * i]

/-- A disk whose blocks are all zero. -/
def zeroDisk : Nat → Nat → Block := fun _ _ _ => 0

/-- The state after `bget(1, 5)` on the freshly initialised cache. -/
def afterGet15 : State := (bget 1 5 (binit zeroDisk)).stateD (binit zeroDisk)

/-- The state after `bget(0, 0)` on the freshly initialised cache. -/
def afterGet00 : State := (bget 0 0 (binit zeroDisk)).stateD (binit zeroDisk)

/-- Buffer `b` with `n` more references. -/
def pinned (b n : Nat) (s : State) : State :=
  s.setBuf b { s.buf b with refcnt := (s.buf b).refcnt + n }

/-- The state after `bget(0, 0)` followed by `2 ^ 32 - 2` calls of `bpin` on the
buffer it returned, `bcache.buf[1]`. -/
def manyPins : State := Nat.iterate (bpin 1) (2 ^ 32 - 2) afterGet00

/-- Deciding the calling discipline. -/
instance Op.decLegal : (op : Op) → (s : State) → Decidable (op.legal s)
  | Op.bget dev blockno, _ => inferInstanceAs (Decidable (dev < 2 ^ 32 ∧ blockno < 2 ^ 32))
  | Op.bread dev blockno, _ => inferInstanceAs (Decidable (dev < 2 ^ 32 ∧ blockno < 2 ^ 32))
  | Op.bwrite b, s => inferInstanceAs (Decidable (1 ≤ (s.buf b).refcnt))
  | Op.brelse b, s => inferInstanceAs (Decidable (1 ≤ (s.buf b).refcnt))
  | Op.bpin b, s => inferInstanceAs (Decidable (1 ≤ (s.buf b).refcnt))
  | Op.bunpin b, s => inferInstanceAs (Decidable (1 ≤ (s.buf b).refcnt))
  | Op.store b _, s => inferInstanceAs (Decidable (1 ≤ (s.buf b).refcnt))

/-- Run a sequence of calls; the run ends at the first call that does not
return. -/
def runOps : List Op → State → State
  | [], s => s
  | op :: ops, s =>
    match op.run s with
    | Outcome.ok _ s1 => runOps ops s1
    | _ => s

/-- Every call of the run returns and is made according to the discipline. -/
def disciplined : List Op → State → Bool
  | [], _ => true
  | op :: ops, s =>
    match op.run s with
    | Outcome.ok _ s1 => decide (op.legal s) && disciplined ops s1
    | _ => false

/-- A run from `s` to `s2` in which no `bwrite` is made for block
`(dev, blockno)`: every step is a call made according to the discipline that
returns, and a `bwrite b` step is made only when `b` holds another block. -/
inductive Quiet (dev blockno : Nat) : State → State → Prop where
  | refl (s : State) : Quiet dev blockno s s
  | step {s t u : State} {o : Op} {r : Option Nat} :
      Quiet dev blockno s t → o.legal t →
      (∀ b, o = Op.bwrite b → ¬((t.buf b).dev = dev ∧ (t.buf b).blockno = blockno)) →
      o.run t = Outcome.ok r u → Quiet dev blockno s u

/-- Buffer 13 is held for block `(1, 5)` and its holder has filled it with the
byte 7. -/
def heldState : State := runOps [Op.bread 1 5, Op.store 13 (fun _ => 7)] (binit zeroDisk)

/-- From `heldState`: buffer 13 is written and released, then claimed for block
`(1, 18)` of the same bucket. -/
def coldState : State := runOps [Op.bwrite 13, Op.brelse 13, Op.bget 1 18] heldState

/-- Number of calls of the run of `ops` from `s` that return and satisfy
`f`, a test on the call and on the buffer it returns. -/
def countCalls (f : Op → Option Nat → Bool) : List Op → State → Nat
  | [], _ => 0
  | op :: ops, s =>
    match op.run s with
    | Outcome.ok r s1 => (if f op r then 1 else 0) + countCalls f ops s1
    | _ => 0

/-- The call went through `bget` and `bget` returned buffer `b`. -/
def isGetOf (b : Nat) : Op → Option Nat → Bool
  | Op.bget _ _, r => decide (r = some b)
  | Op.bread _ _, r => decide (r = some b)
  | _, _ => false

/-- The call is `bpin(b)`. -/
def isPinOf (b : Nat) : Op → Option Nat → Bool
  | Op.bpin x, _ => decide (x = b)
  | _, _ => false

/-- The call is `brelse(b)`. -/
def isRelseOf (b : Nat) : Op → Option Nat → Bool
  | Op.brelse x, _ => decide (x = b)
  | _, _ => false

/-- The call is `bunpin(b)`. -/
def isUnpinOf (b : Nat) : Op → Option Nat → Bool
  | Op.bunpin x, _ => decide (x = b)
  | _, _ => false

/-- One `bget(0, 0)`, which returns `bcache.buf[1]`, then `2 ^ 32 - 1` calls of
`bpin` on that buffer. -/
def wrapOps : List Op := Op.bget 0 0 :: List.replicate (2 ^ 32 - 1) (Op.bpin 1)

/-- The run `bget(0, 0)`, `bget(0, 1)`, ..., `bget(0, 25)`: 26 distinct blocks, none
released. -/
def fillOps : List Op := (List.range 26).map (fun k => Op.bget 0 k)

/-- The cache after `fillOps`. -/
def fullState : State := runOps fillOps (binit zeroDisk)

/-- Number of buffers that `binit` links into the buckets. -/
def NLINKED : Nat := NBUF / NBUCKETS * NBUCKETS

/-- Buffers `a` and `b` carry the same `(dev, blockno)`. -/
def SameId (s : State) (a b : Nat) : Prop :=
  (s.buf a).dev = (s.buf b).dev ∧ (s.buf a).blockno = (s.buf b).blockno

/-- Relation between a buffer `a` and a buffer `b` further down the same bucket list:
when they carry the same `(dev, blockno)`, the scans of `bget` stop at `a`, and `b` is
neither referenced nor valid. -/
def Shadows (s : State) (a b : Nat) : Prop :=
  SameId s a b → (s.buf b).refcnt = 0 ∧ (s.buf b).valid = 0

/-- Invariant of the cache over the bucket lists `Ls`: the lists are well-formed; every
linked buffer hashes to the bucket it is linked in; the linked buffers are the first
`NLINKED` buffers of the pool; a buffer that is not linked is neither referenced nor
valid; and of two buffers of a list with the same `(dev, blockno)` the later one is
neither referenced nor valid. -/
structure CacheInv (s : State) (Ls : Nat → List Nat) : Prop where
  rep : Rep s Ls
  home : ∀ i, i < NBUCKETS → ∀ b, b ∈ Ls i → buf_hash (s.buf b).dev (s.buf b).blockno = i
  linked : ∀ b, (∃ i, i < NBUCKETS ∧ b ∈ Ls i) ↔ b < NLINKED
  idle : ∀ b, (∀ i, i < NBUCKETS → b ∉ Ls i) → (s.buf b).refcnt = 0 ∧ (s.buf b).valid = 0
  shadow : ∀ i, i < NBUCKETS → (Ls i).Pairwise (Shadows s)

/-- The part of the cache invariant that needs no calling discipline: the lists are
well-formed, every linked buffer hashes to the bucket it is linked in, and the linked
buffers are the first `NLINKED` buffers of the pool. -/
structure LinkInv (s : State) (Ls : Nat → List Nat) : Prop where
  rep : Rep s Ls
  home : ∀ i, i < NBUCKETS → ∀ b, b ∈ Ls i → buf_hash (s.buf b).dev (s.buf b).blockno = i
  linked : ∀ b, (∃ i, i < NBUCKETS ∧ b ∈ Ls i) ↔ b < NLINKED

/-- Lock events of the third step of `bget` and of what follows it, over the buckets
`is` still to visit: each visited bucket is locked for its scan and unlocked; when the
scan finds a free buffer `cur`, `acquiresleep(&cur->lock)` follows the `release`, and the
home bucket `index` is locked while `cur` is linked into it; when no bucket is left the
routine goes to `panic`. The value is `none` when a scan does not end. -/
def steal_events (s : State) (index : Nat) : List Nat → Option (List Locks.Event)
  | [] => some []
  | i :: is =>
    if i = index then steal_events s index is
    else
      match steal_scan s.buf FUEL none (s.heads i) with
      | StealScan.fuel_out => none
      | StealScan.miss =>
        match steal_events s index is with
        | some es => some (Locks.Event.acquire i :: Locks.Event.release i :: es)
        | none => none
      | StealScan.found _ cur =>
        some [Locks.Event.acquire i, Locks.Event.release i, Locks.Event.acquiresleep cur,
          Locks.Event.acquire index, Locks.Event.release index]

/-- Lock events of `bget`, from the call to the return or the `panic`; `none` when a
list scan does not end. -/
def bget_events (dev blockno : Nat) (s : State) : Option (List Locks.Event) :=
  let index := buf_hash dev blockno
  match scan s.buf (is_cached dev blockno) FUEL (s.heads index) with
  | Scan.fuel_out => none
  | Scan.found b =>
    some [Locks.Event.acquire index, Locks.Event.release index, Locks.Event.acquiresleep b]
  | Scan.miss =>
    match scan s.buf is_free FUEL (s.heads index) with
    | Scan.fuel_out => none
    | Scan.found b =>
      some [Locks.Event.acquire index, Locks.Event.release index, Locks.Event.acquiresleep b]
    | Scan.miss =>
      match steal_events s index (List.range NBUCKETS) with
      | some es => some (Locks.Event.acquire index :: Locks.Event.release index :: es)
      | none => none

/-- Lock events of `brelse`; `holding` is the answer of `holdingsleep(&b->lock)`. -/
def brelse_events (holding : Bool) (b : Nat) (s : State) : List Locks.Event :=
  if !holding then []
  else
    let index := buf_hash (s.buf b).dev (s.buf b).blockno
    [Locks.Event.releasesleep b, Locks.Event.acquire index, Locks.Event.release index]

/-- Lock events of `bpin`. -/
def bpin_events (b : Nat) (s : State) : List Locks.Event :=
  let index := buf_hash (s.buf b).dev (s.buf b).blockno
  [Locks.Event.acquire index, Locks.Event.release index]

/-- Lock events of `bunpin`. -/
def bunpin_events (b : Nat) (s : State) : List Locks.Event :=
  let index := buf_hash (s.buf b).dev (s.buf b).blockno
  [Locks.Event.acquire index, Locks.Event.release index]

end Bio

namespace Kalloc

/-- Modelled from the spec: `NCPU` of `param.h` (not part of the sources at
hand); the spec gives 8, and `kinit` sets up the locks `kmem[0] .. kmem[7]`. -/
def NCPU : Nat := 8

/-- Modelled from the spec: `PGSIZE` of `riscv.h` (not part of the sources at
hand); pages are 4096 bytes. -/
def PGSIZE : Nat := 4096

/-- The constants of `memlayout.h` and the linker symbol `end` of `kernel.ld`
(none of them part of the sources at hand), taken as parameters. -/
structure Layout where
  KERNBASE : Nat
  PHYSTOP : Nat
  kend : Nat
  deriving DecidableEq, Repr

/-- A sane memory layout: the kernel image starts at `KERNBASE`, which is not
address 0, and ends at `end`, below `PHYSTOP`; addresses fit in 64 bits and
so does the product formed by the shard computation of `kfree`. -/
def Layout.WF (L : Layout) : Prop :=
  0 < L.KERNBASE ∧ L.KERNBASE ≤ L.kend ∧ L.kend ≤ L.PHYSTOP ∧ L.PHYSTOP < 2 ^ 64 ∧
    (L.PHYSTOP - L.KERNBASE) * NCPU < 2 ^ 64

/-- Deciding `Layout.WF`. -/
instance Layout.decWF (L : Layout) : Decidable L.WF :=
  inferInstanceAs (Decidable (0 < L.KERNBASE ∧ L.KERNBASE ≤ L.kend ∧ L.kend ≤ L.PHYSTOP ∧
    L.PHYSTOP < 2 ^ 64 ∧ (L.PHYSTOP - L.KERNBASE) * NCPU < 2 ^ 64))

/-- The memory seen by `kalloc.c`: `mem a` is the byte at address `a`,
`freelist i` is the pointer `kmem[i].freelist` (0 is the null pointer). -/
structure State where
  mem : Nat → Nat
  freelist : Nat → Nat

/-- Reduction of a value to `uint64`. -/
def u64 (n : Nat) : Nat := n % 2 ^ 64

/-- `a - b` on `uint64` operands. -/
def sub64 (a b : Nat) : Nat := u64 (u64 a + (2 ^ 64 - u64 b))

/-- Conversion of a `uint64` to `int` (32 bits, two's complement). -/
def toInt32 (n : Nat) : Int :=
  if n % 2 ^ 32 < 2 ^ 31 then ((n % 2 ^ 32 : Nat) : Int) else ((n % 2 ^ 32 : Nat) : Int) - 2 ^ 32

/-- Modelled from the spec: `PGROUNDUP` of `riscv.h` (not part of the sources
at hand), the next page boundary at or above `a`. -/
def PGROUNDUP (a : Nat) : Nat := u64 (a + PGSIZE - 1) / PGSIZE * PGSIZE

/-- `memset(dst, c, n)`. -/
def memset (mem : Nat → Nat) (dst c n : Nat) : Nat → Nat :=
  fun a => if dst ≤ a ∧ a < dst + n then c else mem a

/-- Load of a 64-bit little-endian word, as for `r->next`. -/
def read64 (mem : Nat → Nat) (a : Nat) : Nat :=
  mem a + mem (a + 1) * 2 ^ 8 + mem (a + 2) * 2 ^ 16 + mem (a + 3) * 2 ^ 24 +
    mem (a + 4) * 2 ^ 32 + mem (a + 5) * 2 ^ 40 + mem (a + 6) * 2 ^ 48 + mem (a + 7) * 2 ^ 56

/-- Store of a 64-bit little-endian word, as for `r->next = v`. -/
def write64 (mem : Nat → Nat) (a v : Nat) : Nat → Nat :=
  fun x => if a ≤ x ∧ x < a + 8 then v / 2 ^ (8 * (x - a)) % 2 ^ 8 else mem x

/-- Store `p` into `kmem[i].freelist`. -/
def State.setFree (s : State) (i p : Nat) : State :=
  { s with freelist := fun k => if k = i then p else s.freelist k }

/-- The value computed for `index` in `kfree`, on `uint64` operands and
converted to `int`. -/
def kfree_index (L : Layout) (pa : Nat) : Int :=
  toInt32 (u64 (sub64 pa L.KERNBASE * NCPU) / sub64 L.PHYSTOP L.KERNBASE)

/-- `kfree`. -/
def kfree (L : Layout) (pa : Nat) (s : State) : Outcome State Unit :=
  if pa % PGSIZE ≠ 0 ∨ pa < L.kend ∨ pa ≥ L.PHYSTOP then Outcome.panicked PanicMsg.kfree s
  else
    let s1 : State := { s with mem := memset s.mem pa 1 PGSIZE }
    let index := kfree_index L pa
    if index < 0 ∨ index > 7 then Outcome.panicked PanicMsg.kfree_index s1
    else
      let s2 : State := { s1 with mem := write64 s1.mem pa (s1.freelist index.toNat) }
      Outcome.ok () (s2.setFree index.toNat pa)

/-- The `if (kmem[i].freelist)` branch of `kalloc`: pop the head `r` of list
`i` and fill the page with the byte 5. -/
def pop (i : Nat) (s : State) : Nat × State :=
  let r := s.freelist i
  (r, { mem := memset s.mem r 5 PGSIZE
        freelist := fun k => if k = i then read64 s.mem r else s.freelist k })

/-- The `for` loop of `kalloc` over the shards `is`. -/
def kalloc_steal (s : State) : List Nat → Nat × State
  | [] => (0, s)
  | i :: is => if s.freelist i ≠ 0 then pop i s else kalloc_steal s is

/-- `kalloc` run on the CPU with id `cpu`; the value is the pointer returned
(0 when no page is left). -/
def kalloc (cpu : Nat) (s : State) : Nat × State :=
  if s.freelist cpu ≠ 0 then pop cpu s
  else kalloc_steal s (List.range NCPU)

/-- The loop of `freerange`, run for at most `fuel` pages. -/
def freerange_loop (L : Layout) (pa_end : Nat) : Nat → Nat → State → Outcome State Unit
  | 0, _, _ => Outcome.diverged
  | fuel + 1, p, s =>
    if p + PGSIZE ≤ pa_end then
      match kfree L p s with
      | Outcome.ok _ s1 => freerange_loop L pa_end fuel (p + PGSIZE) s1
      | Outcome.panicked m s1 => Outcome.panicked m s1
      | Outcome.diverged => Outcome.diverged
    else Outcome.ok () s

/-- `freerange`. -/
def freerange (L : Layout) (pa_start pa_end : Nat) (s : State) : Outcome State Unit :=
  freerange_loop L pa_end (pa_end / PGSIZE + 1) (PGROUNDUP pa_start) s

/-- `kinit`, started with memory content `mem0` and all `kmem[i].freelist`
null. -/
def kinit (L : Layout) (mem0 : Nat → Nat) : Outcome State Unit :=
  freerange L L.kend L.PHYSTOP { mem := mem0, freelist := fun _ => 0 }

/-- The list `Lp` is exactly the sequence of pages met when following `next`
from pointer `p` until the null pointer. -/
def IsFreeList (mem : Nat → Nat) : Nat → List Nat → Prop
  | p, [] => p = 0
  | p, a :: Lp => p = a ∧ a ≠ 0 ∧ IsFreeList mem (read64 mem a) Lp

/-- The free lists of `s` are the lists `Ls i`: each list ends in the null
pointer, its nodes are page-aligned 64-bit addresses, and no page occurs
twice in a list or in two lists. -/
structure FreeRep (s : State) (Ls : Nat → List Nat) : Prop where
  chain : ∀ i, i < NCPU → IsFreeList s.mem (s.freelist i) (Ls i)
  aligned : ∀ i, i < NCPU → ∀ p, p ∈ Ls i → p % PGSIZE = 0 ∧ p < 2 ^ 64
  nodup : ∀ i, i < NCPU → (Ls i).Nodup
  disj : ∀ i j, i < NCPU → j < NCPU → i ≠ j → ∀ p, p ∈ Ls i → p ∉ Ls j

/-- Total number of free pages. -/
def freeCount (Ls : Nat → List Nat) : Nat :=
  ((List.range NCPU).map (fun i => (Ls i).length)).sum

/-- The shard of a page: `floor((pa - KERNBASE) * NCPU / (PHYSTOP - KERNBASE))`. -/
def shard (L : Layout) (pa : Nat) : Nat :=
  (pa - L.KERNBASE) * NCPU / (L.PHYSTOP - L.KERNBASE)

/-- A small machine: 16 pages of memory above a kernel image of size 0. -/
def L16 : Layout := { KERNBASE := 0x80000000, PHYSTOP := 0x80010000, kend := 0x80000000 }

/-- The allocator of the small machine after `kinit`. -/
def boot16 : State :=
  (kinit L16 (fun _ => 0)).stateD { mem := fun _ => 0, freelist := fun _ => 0 }

/-- The free lists of `boot16`: two pages per shard. -/
def boot16Lists (i : Nat) : List Nat :=
  if i < 8 then [0x80000000 + (2 * i + 1) * 4096, 0x80000000 + 2 * i * 4096] else []

/-- A page address accepted by the check at the head of `kfree`. -/
def ValidPage (L : Layout) (pa : Nat) : Prop :=
  pa % PGSIZE = 0 ∧ L.kend ≤ pa ∧ pa < L.PHYSTOP

/-- Deciding `ValidPage`. -/
instance ValidPage.dec (L : Layout) (pa : Nat) : Decidable (ValidPage L pa) :=
  inferInstanceAs (Decidable (pa % PGSIZE = 0 ∧ L.kend ≤ pa ∧ pa < L.PHYSTOP))

/-- State after a push of page `pa` on free list `i`. -/
def pushed (s : State) (i pa : Nat) : State :=
  { mem := write64 (memset s.mem pa 1 PGSIZE) pa (s.freelist i)
    freelist := fun k => if k = i then pa else s.freelist k }

/-- States of the allocator reachable from `kinit`, together with the pages
that are allocated (returned by `kalloc` and not yet freed): `kalloc` on any
CPU, `kfree` of an allocated page, and the owner of an allocated page writing
into it. -/
inductive Reach (L : Layout) : State → List Nat → Prop where
  | init {m : Nat → Nat} {s : State} : kinit L m = Outcome.ok () s → Reach L s []
  | alloc {s : State} {A : List Nat} {c : Nat} :
      Reach L s A → c < NCPU → (kalloc c s).1 ≠ 0 →
      Reach L (kalloc c s).2 ((kalloc c s).1 :: A)
  | alloc_none {s : State} {A : List Nat} {c : Nat} :
      Reach L s A → c < NCPU → (kalloc c s).1 = 0 → Reach L (kalloc c s).2 A
  | free {s t : State} {A : List Nat} {p : Nat} :
      Reach L s A → p ∈ A → kfree L p s = Outcome.ok () t → Reach L t (A.erase p)
  | store {s : State} {A : List Nat} {p : Nat} {m : Nat → Nat} :
      Reach L s A → p ∈ A → (∀ a, a < p ∨ p + PGSIZE ≤ a → m a = s.mem a) →
      Reach L { s with mem := m } A

/-- A machine with a single free page, `0x80007000`. -/
def L1 : Layout := { KERNBASE := 0x80000000, PHYSTOP := 0x80008000, kend := 0x80007000 }

/-- The allocator of the one-page machine after `kinit`. -/
def boot1 : State :=
  (kinit L1 (fun _ => 0)).stateD { mem := fun _ => 0, freelist := fun _ => 0 }

/-- The allocator of the one-page machine after its page has been allocated
by CPU 0. -/
def drained1 : State := (kalloc 0 boot1).2

/-- Invariant of the allocator: the free lists are the lists `Ls`, no free
page is allocated, and the allocated pages are distinct, page-aligned, non-null
64-bit addresses. -/
structure AllocInv (s : State) (A : List Nat) (Ls : Nat → List Nat) : Prop where
  rep : FreeRep s Ls
  sep : ∀ i, i < NCPU → ∀ p, p ∈ Ls i → p ∉ A
  pages : ∀ p, p ∈ A → p % PGSIZE = 0 ∧ p ≠ 0 ∧ p < 2 ^ 64
  nodup : A.Nodup

/-- The allocator of the small machine after CPU 0 has taken the two pages of its own
shard. -/
def localEmpty16 : State := (kalloc 0 (kalloc 0 boot16).2).2

/-- The `n` page addresses `start`, `start + PGSIZE`, ... in ascending order. -/
def pagesFrom (start n : Nat) : List Nat := (List.range n).map (fun k => start + k * PGSIZE)

/-- Free list `i` after `kinit` over a free range of `n` whole pages: the pages of the
range whose shard is `i`, highest address first. -/
def bootLists (L : Layout) (n : Nat) (i : Nat) : List Nat :=
  ((pagesFrom (PGROUNDUP L.kend) n).filter (fun p => decide (shard L p = i))).reverse

/-- A machine whose kernel image takes 8 pages, followed by 16 free pages. -/
def L24 : Layout := { KERNBASE := 0x80000000, PHYSTOP := 0x80018000, kend := 0x80008000 }

/-- The allocator of that machine after `kinit`. -/
def boot24 : State :=
  (kinit L24 (fun _ => 0)).stateD { mem := fun _ => 0, freelist := fun _ => 0 }

/-- Lock events of `kfree`: both `panic` calls come before the `acquire`. -/
def kfree_events (L : Layout) (pa : Nat) (_s : State) : List Locks.Event :=
  if pa % PGSIZE ≠ 0 ∨ pa < L.kend ∨ pa ≥ L.PHYSTOP then []
  else
    let index := kfree_index L pa
    if index < 0 ∨ index > 7 then []
    else [Locks.Event.acquire index.toNat, Locks.Event.release index.toNat]

/-- Lock events of the `for` loop of `kalloc` over the shards `is`: each visited shard
is locked and unlocked, and the loop is left at the first shard with a free page. -/
def kalloc_steal_events (s : State) : List Nat → List Locks.Event
  | [] => []
  | i :: is =>
    if s.freelist i ≠ 0 then [Locks.Event.acquire i, Locks.Event.release i]
    else Locks.Event.acquire i :: Locks.Event.release i :: kalloc_steal_events s is

/-- Lock events of `kalloc` run on the CPU with id `cpu`. -/
def kalloc_events (cpu : Nat) (s : State) : List Locks.Event :=
  Locks.Event.acquire cpu :: Locks.Event.release cpu ::
    (if s.freelist cpu ≠ 0 then [] else kalloc_steal_events s (List.range NCPU))

/-- A 64-bit machine with `2 ^ 63` bytes of memory above a kernel image of size 0 that
starts at address 4096. -/
def Lbig : Layout := { KERNBASE := 4096, PHYSTOP := 2 ^ 63, kend := 4096 }

end Kalloc

/-! ## Lemmas on the lock events -/

namespace Locks

theorem heldFrom_cons (held : List Nat) (e : Event) (tr : List Event) :
    heldFrom held (e :: tr) = heldFrom (step held e) tr := rfl

theorem check_sound : ∀ (tr : List Event) (held : List Nat), held.length ≤ 1 →
    check held tr = true →
      (∀ p q, tr = p ++ q → (heldFrom held p).length ≤ 1) ∧ heldFrom held tr = [] ∧
      (∀ p b q, tr = p ++ Event.acquiresleep b :: q → heldFrom held p = [])
  | [], held, hl, hc => by
    have h0 : held = [] := by simpa [check] using hc
    subst h0
    refine ⟨?_, rfl, ?_⟩
    · intro p q e
      have hp : p = [] := (List.append_eq_nil.mp e.symm).1
      subst hp
      exact hl
    · intro p b q e
      have := congrArg List.length e
      simp at this
      omega
  | e :: es, held, hl, hc => by
    simp only [check, Bool.and_eq_true, decide_eq_true_eq] at hc
    obtain ⟨⟨h1, h2⟩, h3⟩ := hc
    obtain ⟨i1, i2, i3⟩ := check_sound es (step held e) h1 h3
    refine ⟨?_, ?_, ?_⟩
    · intro p q hpq
      cases p with
      | nil => exact hl
      | cons x p =>
        rw [List.cons_append] at hpq
        injection hpq with hx hes
        subst hx
        rw [heldFrom_cons]
        exact i1 p q hes
    · rw [heldFrom_cons]
      exact i2
    · intro p b q hpq
      cases p with
      | nil =>
        rw [List.nil_append] at hpq
        injection hpq with hx hes
        subst hx
        simpa using h2
      | cons x p =>
        rw [List.cons_append] at hpq
        injection hpq with hx hes
        subst hx
        rw [heldFrom_cons]
        exact i3 p b q hes

theorem discipline_of_check {tr : List Event} (h : check [] tr = true) : Discipline tr := by
  obtain ⟨h1, h2, h3⟩ := check_sound tr [] (by simp) h
  exact ⟨h1, h2, h3⟩

theorem check_pair (i : Nat) (tr : List Event) :
    check [] (Event.acquire i :: Event.release i :: tr) = check [] tr := by
  simp [check, step]

end Locks

/-! ## Lemmas on the buffer cache -/

namespace Bio

theorem isChain_congr {buf buf1 : Nat → Buf} :
    ∀ (L : List Nat) (p : Option Nat), (∀ b, b ∈ L → (buf1 b).next = (buf b).next) →
      IsChain buf p L → IsChain buf1 p L
  | [], _, _, h => h
  | b :: L, p, hn, h => by
    obtain ⟨hp, hL⟩ := h
    refine ⟨hp, ?_⟩
    rw [hn b (List.mem_cons_self b L)]
    exact isChain_congr L _ (fun x hx => hn x (List.mem_cons_of_mem b hx)) hL

theorem isChain_unique {buf : Nat → Buf} :
    ∀ (L M : List Nat) (p : Option Nat), IsChain buf p L → IsChain buf p M → L = M
  | [], [], _, _, _ => rfl
  | [], _ :: _, _, h1, h2 => by
    have h1' : _ = none := h1
    rw [h1'] at h2
    exact absurd h2.1 (by simp)
  | _ :: _, [], _, h1, h2 => by
    have h2' : _ = none := h2
    rw [h2'] at h1
    exact absurd h1.1 (by simp)
  | a :: L, b :: M, p, h1, h2 => by
    obtain ⟨ha, hL⟩ := h1
    obtain ⟨hb, hM⟩ := h2
    have hab : a = b := by
      rw [ha] at hb
      exact Option.some.inj hb
    subst hab
    rw [isChain_unique L M _ hL hM]

theorem walk_of_isChain {buf : Nat → Buf} :
    ∀ (L : List Nat) (fuel : Nat) (p : Option Nat), IsChain buf p L → L.length ≤ fuel →
      walk buf fuel p = L
  | [], fuel, p, h, _ => by
    have h' : p = none := h
    subst h'
    cases fuel <;> rfl
  | b :: L, 0, _, _, hl => by simp at hl
  | b :: L, fuel + 1, p, h, hl => by
    obtain ⟨hp, hL⟩ := h
    subst hp
    have hl' : L.length ≤ fuel := by simpa using hl
    simp only [walk]
    rw [walk_of_isChain L fuel _ hL hl']

theorem scan_spec {buf : Nat → Buf} (P : Buf → Bool) :
    ∀ (L : List Nat) (fuel : Nat) (p : Option Nat), IsChain buf p L → L.length ≤ fuel →
      scan buf P fuel p =
        match L.find? (fun b => P (buf b)) with
        | some b => Scan.found b
        | none => Scan.miss
  | [], fuel, p, h, _ => by
    have h' : p = none := h
    subst h'
    cases fuel <;> rfl
  | b :: L, 0, _, _, hl => by simp at hl
  | b :: L, fuel + 1, p, h, hl => by
    obtain ⟨hp, hL⟩ := h
    subst hp
    have hl' : L.length ≤ fuel := by simpa using hl
    simp only [scan, List.find?]
    by_cases hP : P (buf b) = true
    · simp [hP]
    · simp only [Bool.not_eq_true] at hP
      simp only [hP]
      simpa using scan_spec P L fuel _ hL hl'

theorem predOf_concat (prev : Option Nat) (l : Nat) :
    ∀ A : List Nat, predOf prev (A ++ [l]) = some l
  | [] => rfl
  | a :: A => by
    show predOf (some a) (A ++ [l]) = some l
    exact predOf_concat (some a) l A

theorem split_first_free {buf : Nat → Buf} :
    ∀ L : List Nat, (∃ b, b ∈ L ∧ (buf b).refcnt = 0) →
      ∃ A cur B, L = A ++ cur :: B ∧ (∀ a, a ∈ A → (buf a).refcnt ≠ 0) ∧ (buf cur).refcnt = 0
  | [], h => by
    obtain ⟨b, hb, _⟩ := h
    simp at hb
  | x :: L, h => by
    by_cases hx : (buf x).refcnt = 0
    · exact ⟨[], x, L, rfl, by simp, hx⟩
    · have h' : ∃ b, b ∈ L ∧ (buf b).refcnt = 0 := by
        obtain ⟨b, hb, hb0⟩ := h
        rcases List.mem_cons.mp hb with rfl | hbL
        · exact absurd hb0 hx
        · exact ⟨b, hbL, hb0⟩
      obtain ⟨A, cur, B, hL, hA, hc⟩ := split_first_free L h'
      refine ⟨x :: A, cur, B, by rw [hL]; rfl, ?_, hc⟩
      intro a ha
      rcases List.mem_cons.mp ha with rfl | haA
      · exact hx
      · exact hA a haA

theorem steal_scan_miss {buf : Nat → Buf} :
    ∀ (L : List Nat) (fuel : Nat) (prev p : Option Nat), IsChain buf p L → L.length ≤ fuel →
      (∀ b, b ∈ L → (buf b).refcnt ≠ 0) → steal_scan buf fuel prev p = StealScan.miss
  | [], fuel, prev, p, h, _, _ => by
    have h' : p = none := h
    subst h'
    cases fuel <;> rfl
  | b :: L, 0, _, _, _, hl, _ => by simp at hl
  | b :: L, fuel + 1, prev, p, h, hl, hf => by
    obtain ⟨hp, hL⟩ := h
    subst hp
    have hl' : L.length ≤ fuel := by simpa using hl
    have hb : (buf b).refcnt ≠ 0 := hf b (List.mem_cons_self b L)
    simp only [steal_scan, hb, if_false]
    exact steal_scan_miss L fuel _ _ hL hl' (fun x hx => hf x (List.mem_cons_of_mem b hx))

theorem steal_scan_found {buf : Nat → Buf} (cur : Nat) (B : List Nat) :
    ∀ (A : List Nat) (fuel : Nat) (prev p : Option Nat), IsChain buf p (A ++ cur :: B) →
      (A ++ cur :: B).length ≤ fuel → (∀ a, a ∈ A → (buf a).refcnt ≠ 0) →
      (buf cur).refcnt = 0 → steal_scan buf fuel prev p = StealScan.found (predOf prev A) cur
  | [], 0, _, _, _, hl, _, _ => by simp at hl
  | [], fuel + 1, prev, p, h, _, _, hc => by
    obtain ⟨hp, _⟩ := h
    subst hp
    simp [steal_scan, hc, predOf]
  | a :: A, 0, _, _, _, hl, _, _ => by simp at hl
  | a :: A, fuel + 1, prev, p, h, hl, hf, hc => by
    obtain ⟨hp, hL⟩ := h
    subst hp
    have hl' : (A ++ cur :: B).length ≤ fuel := by simpa using hl
    have ha : (buf a).refcnt ≠ 0 := hf a (List.mem_cons_self a A)
    simp only [steal_scan, ha, if_false, predOf]
    exact steal_scan_found cur B A fuel _ _ hL hl' (fun x hx => hf x (List.mem_cons_of_mem a hx)) hc

/-- Unlinking the node behind `l`. -/
theorem isChain_unlink {buf : Nat → Buf} (l cur : Nat) (B : List Nat) :
    ∀ (A : List Nat) (p : Option Nat), IsChain buf p (A ++ l :: cur :: B) →
      (A ++ l :: cur :: B).Nodup →
      IsChain (fun k => if k = l then { buf l with next := (buf cur).next } else buf k) p
        (A ++ l :: B)
  | [], p, h, hn => by
    obtain ⟨hp, hl, hB⟩ := h
    have hn' : (l :: cur :: B).Nodup := hn
    have hlB : l ∉ B := by
      intro hmem
      have := (List.nodup_cons.mp hn').1
      exact this (List.mem_cons_of_mem cur hmem)
    refine ⟨hp, ?_⟩
    simp only [if_true]
    refine isChain_congr B _ ?_ hB
    intro b hb
    have : b ≠ l := fun e => hlB (e ▸ hb)
    simp [this]
  | a :: A, p, h, hn => by
    obtain ⟨hp, hA⟩ := h
    have hn' : (a :: (A ++ l :: cur :: B)).Nodup := hn
    have hal : a ≠ l := by
      intro e
      have := (List.nodup_cons.mp hn').1
      apply this
      rw [e]
      simp
    refine ⟨hp, ?_⟩
    simp only [hal, if_false]
    exact isChain_unlink l cur B A _ hA (List.nodup_cons.mp hn').2

theorem length_le_of_nodup_lt (L : List Nat) (n : Nat) (hn : L.Nodup) (hr : ∀ b, b ∈ L → b < n) :
    L.length ≤ n := by
  have hs : L.toFinset ⊆ Finset.range n := by
    intro b hb
    exact Finset.mem_range.mpr (hr b (List.mem_toFinset.mp hb))
  have := Finset.card_le_card hs
  rwa [List.toFinset_card_of_nodup hn, Finset.card_range] at this

theorem predOf_cons (prev : Option Nat) (a : Nat) :
    ∀ A : List Nat, ∃ l, predOf prev (a :: A) = some l ∧ l ∈ a :: A := by
  intro A
  induction A generalizing prev a with
  | nil => exact ⟨a, rfl, List.mem_cons_self a []⟩
  | cons x A ih =>
    obtain ⟨l, hl, hm⟩ := ih (some a) x
    exact ⟨l, hl, List.mem_cons_of_mem a hm⟩

@[simp] theorem setBuf_buf (s : State) (b : Nat) (v : Buf) (k : Nat) :
    (s.setBuf b v).buf k = if k = b then v else s.buf k := rfl
@[simp] theorem setBuf_heads (s : State) (b : Nat) (v : Buf) : (s.setBuf b v).heads = s.heads := rfl
@[simp] theorem setBuf_disk (s : State) (b : Nat) (v : Buf) : (s.setBuf b v).disk = s.disk := rfl
@[simp] theorem setBuf_io (s : State) (b : Nat) (v : Buf) : (s.setBuf b v).io = s.io := rfl
@[simp] theorem setHead_buf (s : State) (i : Nat) (p : Option Nat) : (s.setHead i p).buf = s.buf := rfl
@[simp] theorem setHead_heads (s : State) (i : Nat) (p : Option Nat) (k : Nat) :
    (s.setHead i p).heads k = if k = i then p else s.heads k := rfl
@[simp] theorem setHead_disk (s : State) (i : Nat) (p : Option Nat) : (s.setHead i p).disk = s.disk := rfl
@[simp] theorem setHead_io (s : State) (i : Nat) (p : Option Nat) : (s.setHead i p).io = s.io := rfl

theorem stolen_heads (s : State) (dev blockno index i : Nat) (A : List Nat) (cur : Nat)
    (_hi : i ≠ index) (k : Nat) :
    (stolen s dev blockno index i A cur).heads k =
      if k = index then some cur
      else if k = i ∧ A = [] then (s.buf cur).next else s.heads k := by
  unfold stolen claim
  cases A with
  | nil =>
    simp only [predOf, State.setNext, setHead_heads, setBuf_heads, and_true]
  | cons a A =>
    obtain ⟨l, hl, _⟩ := predOf_cons none a A
    simp [hl, State.setNext]

theorem stolen_next (s : State) (dev blockno index i : Nat) (A : List Nat) (cur : Nat)
    (hi : i ≠ index) (k : Nat) :
    ((stolen s dev blockno index i A cur).buf k).next =
      if k = cur then s.heads index
      else if some k = predOf none A then (s.buf cur).next else (s.buf k).next := by
  unfold stolen claim
  cases A with
  | nil =>
    simp only [predOf, State.setNext, setHead_heads, setBuf_heads, setHead_buf, setBuf_buf]
    by_cases hk : k = cur
    · simp [hk, Ne.symm hi]
    · simp [hk]
  | cons a A =>
    obtain ⟨l, hl, _⟩ := predOf_cons none a A
    simp only [hl, State.setNext, setHead_heads, setBuf_heads, setHead_buf, setBuf_buf]
    by_cases hk : k = cur
    · simp [hk]
    · by_cases hkl : k = l
      · subst hkl
        simp [hk]
      · have : ¬ (some k = some l) := by simpa using hkl
        simp [hk, hkl]

theorem predOf_mem (A : List Nat) (l : Nat) (h : predOf none A = some l) : l ∈ A := by
  cases A with
  | nil => simp [predOf] at h
  | cons a A =>
    obtain ⟨l1, hl1, hm⟩ := predOf_cons none a A
    rw [hl1] at h
    cases h
    exact hm

theorem stolen_chain_frame (s : State) (dev blockno index i : Nat) (A : List Nat) (cur : Nat)
    (hi : i ≠ index) (L : List Nat) (p : Option Nat) (hc : cur ∉ L)
    (hA : ∀ a, a ∈ A → a ∉ L) (h : IsChain s.buf p L) :
    IsChain (stolen s dev blockno index i A cur).buf p L := by
  refine isChain_congr L p ?_ h
  intro b hb
  rw [stolen_next s dev blockno index i A cur hi b]
  have h1 : b ≠ cur := fun e => hc (e ▸ hb)
  have h2 : ¬ (some b = predOf none A) := by
    intro e
    exact hA b (predOf_mem A b e.symm) hb
  simp [h1, h2]

theorem stolen_rep (s : State) (Ls : Nat → List Nat) (dev blockno index i : Nat)
    (A : List Nat) (cur : Nat) (B : List Nat) (hr : Rep s Ls) (hi : i < NBUCKETS)
    (hx : index < NBUCKETS) (hne : i ≠ index) (hL : Ls i = A ++ cur :: B) :
    Rep (stolen s dev blockno index i A cur) (stolenLists Ls index i A cur B) := by
  have hnd : (A ++ cur :: B).Nodup := hL ▸ hr.nodup i hi
  have hcurA : cur ∉ A := by
    intro h
    have := List.nodup_append.mp hnd
    exact this.2.2 h (List.mem_cons_self cur B)
  have hcurB : cur ∉ B := by
    have := (List.nodup_append.mp hnd).2.1
    exact (List.nodup_cons.mp this).1
  have hAB : (A ++ B).Nodup := by
    have h3 := List.nodup_append.mp hnd
    refine List.nodup_append.mpr ⟨h3.1, (List.nodup_cons.mp h3.2.1).2, ?_⟩
    intro a ha hb
    exact h3.2.2 ha (List.mem_cons_of_mem cur hb)
  have hsub : ∀ b, b ∈ A ++ B → b ∈ Ls i := by
    intro b hb
    rw [hL]
    rcases List.mem_append.mp hb with h | h
    · exact List.mem_append_left _ h
    · exact List.mem_append_right _ (List.mem_cons_of_mem cur h)
  have hcuri : cur ∈ Ls i := by rw [hL]; simp
  have hAi : ∀ a, a ∈ A → a ∈ Ls i := fun a ha => hsub a (List.mem_append_left _ ha)
  have hother : ∀ k, k < NBUCKETS → k ≠ i → cur ∉ Ls k ∧ ∀ a, a ∈ A → a ∉ Ls k := by
    intro k hk hki
    exact ⟨hr.disj i k hi hk (Ne.symm hki) cur hcuri,
      fun a ha => hr.disj i k hi hk (Ne.symm hki) a (hAi a ha)⟩
  constructor
  · intro k hk
    rw [stolen_heads s dev blockno index i A cur hne k]
    unfold stolenLists
    by_cases hkx : k = index
    · subst hkx
      simp only [if_true]
      refine ⟨rfl, ?_⟩
      rw [stolen_next s dev blockno k i A cur hne cur]
      simp only [if_true]
      exact stolen_chain_frame s dev blockno k i A cur hne _ _ (hother k hk (Ne.symm hne)).1
        (hother k hk (Ne.symm hne)).2 (hr.chain k hk)
    · simp only [hkx, if_false]
      by_cases hki : k = i
      · subst hki
        simp only [true_and, if_true]
        have hch := hr.chain k hk
        rw [hL] at hch
        rcases List.eq_nil_or_concat A with hA | ⟨A1, l, hA⟩
        · subst hA
          simp only [if_true, List.nil_append]
          obtain ⟨_, hB⟩ := hch
          exact stolen_chain_frame s dev blockno index k [] cur hne _ _ hcurB (by simp) hB
        · have hA' : A = A1 ++ [l] := by rw [hA, List.concat_eq_append]
          subst hA'
          have hne1 : ¬ (A1 ++ [l] = []) := by simp
          simp only [hne1, if_false]
          have hch' : IsChain s.buf (s.heads k) (A1 ++ l :: cur :: B) := by
            simpa using hch
          have hnd' : (A1 ++ l :: cur :: B).Nodup := by simpa using hnd
          have hu := isChain_unlink l cur B A1 _ hch' hnd'
          have hgoal : IsChain (stolen s dev blockno index k (A1 ++ [l]) cur).buf (s.heads k)
              (A1 ++ l :: B) := by
            refine isChain_congr _ _ ?_ hu
            intro b hb
            rw [stolen_next s dev blockno index k (A1 ++ [l]) cur hne b, predOf_concat]
            have hbc : b ≠ cur := by
              intro e
              subst e
              rcases List.mem_append.mp hb with h | h
              · exact hcurA (List.mem_append_left _ h)
              · rcases List.mem_cons.mp h with h | h
                · exact hcurA (by rw [h]; simp)
                · exact hcurB h
            by_cases hbl : b = l
            · subst hbl
              simp [hbc]
            · have : ¬ (some b = some l) := by simpa using hbl
              simp [hbc, hbl]
          simpa using hgoal
      · have hkin : ¬ (k = i ∧ A = []) := fun h => hki h.1
        simp only [hki, hkin, if_false]
        exact stolen_chain_frame s dev blockno index i A cur hne _ _ (hother k hk hki).1
          (hother k hk hki).2 (hr.chain k hk)
  · intro k hk
    unfold stolenLists
    by_cases hkx : k = index
    · subst hkx
      simp only [if_true]
      exact List.nodup_cons.mpr ⟨(hother k hk (Ne.symm hne)).1, hr.nodup k hk⟩
    · by_cases hki : k = i
      · subst hki
        simp only [hkx, if_true, if_false]
        exact hAB
      · simp only [hkx, hki, if_false]
        exact hr.nodup k hk
  · intro k j hk hj hkj b hbk hbj
    unfold stolenLists at hbk hbj
    have key : ∀ k', k' < NBUCKETS → b ∈ (if k' = index then cur :: Ls index
        else if k' = i then A ++ B else Ls k') →
        (b = cur ∧ k' = index) ∨ (b ≠ cur ∧ b ∈ Ls k') := by
      intro k' hk' hb
      by_cases h1 : k' = index
      · subst h1
        simp only [if_true] at hb
        rcases List.mem_cons.mp hb with h | h
        · exact Or.inl ⟨h, rfl⟩
        · refine Or.inr ⟨?_, h⟩
          intro e
          subst e
          exact (hother k' hk' (Ne.symm hne)).1 h
      · by_cases h2 : k' = i
        · subst h2
          simp only [h1, if_true, if_false] at hb
          refine Or.inr ⟨?_, hsub b hb⟩
          intro e
          subst e
          rcases List.mem_append.mp hb with h | h
          · exact hcurA h
          · exact hcurB h
        · simp only [h1, h2, if_false] at hb
          refine Or.inr ⟨?_, hb⟩
          intro e
          subst e
          exact (hother k' hk' h2).1 hb
    rcases key k hk hbk with ⟨h1, h2⟩ | ⟨h1, h2⟩ <;> rcases key j hj hbj with ⟨h3, h4⟩ | ⟨h3, h4⟩
    · exact hkj (h2.trans h4.symm)
    · exact h3 h1
    · exact h1 h3
    · exact hr.disj k j hk hj hkj b h2 h4
  · intro k hk b hb
    unfold stolenLists at hb
    by_cases h1 : k = index
    · subst h1
      simp only [if_true] at hb
      rcases List.mem_cons.mp hb with h | h
      · rw [h]
        exact hr.range i hi cur hcuri
      · exact hr.range k hk b h
    · by_cases h2 : k = i
      · subst h2
        simp only [h1, if_true, if_false] at hb
        exact hr.range k hk b (hsub b hb)
      · simp only [h1, h2, if_false] at hb
        exact hr.range k hk b hb

theorem rep_length {s : State} {Ls : Nat → List Nat} (hr : Rep s Ls) (i : Nat)
    (hi : i < NBUCKETS) : (Ls i).length ≤ FUEL :=
  length_le_of_nodup_lt (Ls i) NBUF (hr.nodup i hi) (hr.range i hi)

theorem buf_hash_lt (dev blockno : Nat) : buf_hash dev blockno < NBUCKETS :=
  Nat.mod_lt _ (by decide)

theorem steal_spec (s : State) (Ls : Nat → List Nat) (dev blockno index : Nat) (hr : Rep s Ls) :
    ∀ is : List Nat, (∀ i, i ∈ is → i < NBUCKETS) →
      ((∀ i, i ∈ is → i ≠ index → ∀ b, b ∈ Ls i → (s.buf b).refcnt ≠ 0) ∧
          steal s dev blockno index is = Steal.miss) ∨
      ∃ i A cur B, i ∈ is ∧ i ≠ index ∧ Ls i = A ++ cur :: B ∧
        (∀ a, a ∈ A → (s.buf a).refcnt ≠ 0) ∧ (s.buf cur).refcnt = 0 ∧
        steal s dev blockno index is =
          Steal.found cur (claim (s.setNext i (predOf none A) (s.buf cur).next) cur dev blockno)
  | [], _ => Or.inl ⟨by simp, rfl⟩
  | i :: is, hlt => by
    have hlt' : ∀ j, j ∈ is → j < NBUCKETS := fun j hj => hlt j (List.mem_cons_of_mem i hj)
    have hi : i < NBUCKETS := hlt i (List.mem_cons_self i is)
    have ih := steal_spec s Ls dev blockno index hr is hlt'
    by_cases hix : i = index
    · have hst : steal s dev blockno index (i :: is) = steal s dev blockno index is := by
        simp [steal, hix]
      rw [hst]
      rcases ih with ⟨h1, h2⟩ | ⟨j, A, cur, B, hj, h⟩
      · left
        refine ⟨?_, h2⟩
        intro j hj hjx b hb
        rcases List.mem_cons.mp hj with e | hj'
        · exact absurd (e.trans hix) hjx
        · exact h1 j hj' hjx b hb
      · right
        exact ⟨j, A, cur, B, List.mem_cons_of_mem i hj, h⟩
    · by_cases hfree : ∃ b, b ∈ Ls i ∧ (s.buf b).refcnt = 0
      · right
        obtain ⟨A, cur, B, hL, hA, hc⟩ := split_first_free (Ls i) hfree
        refine ⟨i, A, cur, B, List.mem_cons_self i is, hix, hL, hA, hc, ?_⟩
        have hch := hr.chain i hi
        have hlen := rep_length hr i hi
        rw [hL] at hch hlen
        simp only [steal, hix, if_false]
        rw [steal_scan_found cur B A FUEL none _ hch hlen hA hc]
      · have hall : ∀ b, b ∈ Ls i → (s.buf b).refcnt ≠ 0 := by
          intro b hb h0
          exact hfree ⟨b, hb, h0⟩
        have hst : steal s dev blockno index (i :: is) = steal s dev blockno index is := by
          simp only [steal, hix, if_false]
          rw [steal_scan_miss (Ls i) FUEL none _ (hr.chain i hi) (rep_length hr i hi) hall]
        rw [hst]
        rcases ih with ⟨h1, h2⟩ | ⟨j, A, cur, B, hj, h⟩
        · left
          refine ⟨?_, h2⟩
          intro j hj hjx b hb
          rcases List.mem_cons.mp hj with e | hj'
          · rw [e] at hb
            exact hall b hb
          · exact h1 j hj' hjx b hb
        · right
          exact ⟨j, A, cur, B, List.mem_cons_of_mem i hj, h⟩

theorem bget_hit {s : State} {Ls : Nat → List Nat} (hr : Rep s Ls) (dev blockno b : Nat)
    (hf : (Ls (buf_hash dev blockno)).find? (fun x => is_cached dev blockno (s.buf x)) = some b) :
    bget dev blockno s =
      Outcome.ok b (s.setBuf b { s.buf b with refcnt := inc32 (s.buf b).refcnt }) := by
  have hh := buf_hash_lt dev blockno
  unfold bget
  simp only []
  rw [scan_spec _ _ FUEL _ (hr.chain _ hh) (rep_length hr _ hh), hf]

theorem bget_claim {s : State} {Ls : Nat → List Nat} (hr : Rep s Ls) (dev blockno b : Nat)
    (hc : (Ls (buf_hash dev blockno)).find? (fun x => is_cached dev blockno (s.buf x)) = none)
    (hf : (Ls (buf_hash dev blockno)).find? (fun x => is_free (s.buf x)) = some b) :
    bget dev blockno s = Outcome.ok b (claim s b dev blockno) := by
  have hh := buf_hash_lt dev blockno
  unfold bget
  simp only []
  rw [scan_spec _ _ FUEL _ (hr.chain _ hh) (rep_length hr _ hh), hc]
  simp only []
  rw [scan_spec _ _ FUEL _ (hr.chain _ hh) (rep_length hr _ hh), hf]

theorem bget_miss {s : State} {Ls : Nat → List Nat} (hr : Rep s Ls) (dev blockno : Nat)
    (hc : (Ls (buf_hash dev blockno)).find? (fun x => is_cached dev blockno (s.buf x)) = none)
    (hf : (Ls (buf_hash dev blockno)).find? (fun x => is_free (s.buf x)) = none) :
    ((∀ i, i < NBUCKETS → ∀ b, b ∈ Ls i → (s.buf b).refcnt ≠ 0) ∧
        bget dev blockno s = Outcome.panicked PanicMsg.bget_no_buffers s) ∨
    ∃ i A cur B, i < NBUCKETS ∧ i ≠ buf_hash dev blockno ∧ Ls i = A ++ cur :: B ∧
      (∀ a, a ∈ A → (s.buf a).refcnt ≠ 0) ∧ (s.buf cur).refcnt = 0 ∧
      bget dev blockno s = Outcome.ok cur (stolen s dev blockno (buf_hash dev blockno) i A cur) := by
  have hh := buf_hash_lt dev blockno
  have hb : bget dev blockno s =
      match steal s dev blockno (buf_hash dev blockno) (List.range NBUCKETS) with
      | Steal.fuel_out => Outcome.diverged
      | Steal.found b s1 =>
        Outcome.ok b ((s1.setBuf b { s1.buf b with next := s1.heads (buf_hash dev blockno) }).setHead
          (buf_hash dev blockno) (some b))
      | Steal.miss => Outcome.panicked PanicMsg.bget_no_buffers s := by
    unfold bget
    simp only []
    rw [scan_spec _ _ FUEL _ (hr.chain _ hh) (rep_length hr _ hh), hc]
    simp only []
    rw [scan_spec _ _ FUEL _ (hr.chain _ hh) (rep_length hr _ hh), hf]
  have hrange : ∀ i, i ∈ List.range NBUCKETS → i < NBUCKETS := fun i hi => List.mem_range.mp hi
  rcases steal_spec s Ls dev blockno (buf_hash dev blockno) hr (List.range NBUCKETS) hrange with
    ⟨h1, h2⟩ | ⟨i, A, cur, B, hi, hix, hL, hA, hcur, hst⟩
  · left
    refine ⟨?_, by rw [hb, h2]⟩
    intro i hi b hbi
    by_cases hix : i = buf_hash dev blockno
    · subst hix
      have := List.find?_eq_none.mp hf b hbi
      simpa [is_free] using this
    · exact h1 i (List.mem_range.mpr hi) hix b hbi
  · right
    refine ⟨i, A, cur, B, hrange i hi, hix, hL, hA, hcur, ?_⟩
    rw [hb, hst]
    rfl

theorem bget_spec {s : State} {Ls : Nat → List Nat} (hr : Rep s Ls) (dev blockno : Nat) :
    BgetSpec s Ls dev blockno (bget dev blockno s) := by
  cases hc : (Ls (buf_hash dev blockno)).find? (fun x => is_cached dev blockno (s.buf x)) with
  | some b =>
    rw [bget_hit hr dev blockno b hc]
    exact BgetSpec.hit b hc
  | none =>
    cases hf : (Ls (buf_hash dev blockno)).find? (fun x => is_free (s.buf x)) with
    | some b =>
      rw [bget_claim hr dev blockno b hc hf]
      exact BgetSpec.claimed b hc hf
    | none =>
      rcases bget_miss hr dev blockno hc hf with ⟨h1, h2⟩ | ⟨i, A, cur, B, hi, hix, hL, hA, hcur, hb⟩
      · rw [h2]
        exact BgetSpec.exhausted hc h1
      · rw [hb]
        exact BgetSpec.stole i A cur B hc hf hi hix hL hA hcur

theorem rep_congr {s s1 : State} {Ls : Nat → List Nat} (hn : ∀ k, (s1.buf k).next = (s.buf k).next)
    (hh : s1.heads = s.heads) (hr : Rep s Ls) : Rep s1 Ls := by
  refine ⟨?_, hr.nodup, hr.disj, hr.range⟩
  intro i hi
  rw [hh]
  exact isChain_congr _ _ (fun b _ => hn b) (hr.chain i hi)

theorem rep_setBuf {s : State} {Ls : Nat → List Nat} (b : Nat) (v : Buf)
    (hv : v.next = (s.buf b).next) (hr : Rep s Ls) : Rep (s.setBuf b v) Ls := by
  refine rep_congr (s := s) ?_ rfl hr
  intro k
  by_cases hk : k = b
  · subst hk
    simp [hv]
  · simp [hk]

theorem rep_bucketList {s : State} {Ls : Nat → List Nat} (hr : Rep s Ls) (i : Nat)
    (hi : i < NBUCKETS) : bucketList s i = Ls i :=
  walk_of_isChain (Ls i) FUEL _ (hr.chain i hi) (rep_length hr i hi)

theorem wellFormed_of_rep {s : State} {Ls : Nat → List Nat} (hr : Rep s Ls) : WellFormed s := by
  have e := rep_bucketList hr
  constructor
  · intro i hi
    rw [e i hi]
    exact hr.chain i hi
  · intro i hi
    rw [e i hi]
    exact hr.nodup i hi
  · intro i j hi hj hij b
    rw [e i hi, e j hj]
    exact hr.disj i j hi hj hij b
  · intro i hi b
    rw [e i hi]
    exact hr.range i hi b

theorem bget_rep {s s1 : State} {Ls : Nat → List Nat} (hr : Rep s Ls) {dev blockno b : Nat}
    (h : bget dev blockno s = Outcome.ok b s1) : ∃ Ls1, Rep s1 Ls1 := by
  have hs := bget_spec hr dev blockno
  rw [h] at hs
  cases hs with
  | hit _ _ => exact ⟨Ls, rep_setBuf b _ rfl hr⟩
  | claimed _ _ _ => exact ⟨Ls, rep_setBuf b _ rfl hr⟩
  | stole i A _ B hc hf hi hix hL hA hcur =>
    exact ⟨_, stolen_rep s Ls dev blockno _ i A b B hr hi (buf_hash_lt dev blockno) hix hL⟩

theorem virtio_next (b : Nat) (w : Bool) (s : State) (k : Nat) :
    ((virtio_disk_rw b w s).buf k).next = (s.buf k).next := by
  unfold virtio_disk_rw
  cases w
  · by_cases hk : k = b
    · subst hk
      simp
    · simp [hk]
  · simp

theorem virtio_heads (b : Nat) (w : Bool) (s : State) :
    (virtio_disk_rw b w s).heads = s.heads := by
  unfold virtio_disk_rw
  cases w <;> simp

theorem bread_rep {s s1 : State} {Ls : Nat → List Nat} (hr : Rep s Ls) {dev blockno b : Nat}
    (h : bread dev blockno s = Outcome.ok b s1) : ∃ Ls1, Rep s1 Ls1 := by
  unfold bread at h
  cases hb : bget dev blockno s with
  | diverged => rw [hb] at h; simp at h
  | panicked m s2 => rw [hb] at h; simp at h
  | ok b2 s2 =>
    rw [hb] at h
    obtain ⟨Ls2, hr2⟩ := bget_rep hr hb
    simp only [] at h
    by_cases hv : (s2.buf b2).valid = 0
    · simp only [hv, if_true] at h
      injection h with h1 h2
      subst h2
      refine ⟨Ls2, rep_setBuf _ _ rfl ?_⟩
      exact rep_congr (virtio_next b2 false s2) (virtio_heads b2 false s2) hr2
    · simp only [hv, if_false] at h
      injection h with h1 h2
      subst h2
      exact ⟨Ls2, hr2⟩

theorem op_rep {s s1 : State} {Ls : Nat → List Nat} (hr : Rep s Ls) {op : Op} {r : Option Nat}
    (h : op.run s = Outcome.ok r s1) : ∃ Ls1, Rep s1 Ls1 := by
  cases op with
  | bget dev blockno =>
    simp only [Op.run] at h
    cases hb : bget dev blockno s with
    | diverged => rw [hb] at h; simp at h
    | panicked m s2 => rw [hb] at h; simp at h
    | ok b2 s2 =>
      rw [hb] at h
      injection h with h1 h2
      subst h2
      exact bget_rep hr hb
  | bread dev blockno =>
    simp only [Op.run] at h
    cases hb : bread dev blockno s with
    | diverged => rw [hb] at h; simp at h
    | panicked m s2 => rw [hb] at h; simp at h
    | ok b2 s2 =>
      rw [hb] at h
      injection h with h1 h2
      subst h2
      exact bread_rep hr hb
  | bwrite b =>
    simp only [Op.run, bwrite] at h
    injection h with h1 h2
    subst h2
    exact ⟨Ls, rep_congr (virtio_next b true s) (virtio_heads b true s) hr⟩
  | brelse b =>
    simp only [Op.run, brelse] at h
    injection h with h1 h2
    subst h2
    exact ⟨Ls, rep_setBuf b _ rfl hr⟩
  | bpin b =>
    simp only [Op.run, bpin] at h
    injection h with h1 h2
    subst h2
    exact ⟨Ls, rep_setBuf b _ rfl hr⟩
  | bunpin b =>
    simp only [Op.run, bunpin] at h
    injection h with h1 h2
    subst h2
    exact ⟨Ls, rep_setBuf b _ rfl hr⟩
  | store b d =>
    simp only [Op.run] at h
    injection h with h1 h2
    subst h2
    exact ⟨Ls, rep_setBuf b _ rfl hr⟩

theorem binit_rep (d : Nat → Nat → Block) : Rep (binit d) binitLists := by
  constructor
  · intro i hi
    have hi' : i < 13 := hi
    interval_cases i <;> exact ⟨rfl, rfl, rfl⟩
  · intro i _
    simp [binitLists]
  · intro i j _ _ hij b hb hb'
    simp only [binitLists, List.mem_cons, List.mem_singleton, List.not_mem_nil, or_false] at hb hb'
    omega
  · intro i hi b hb
    have hi' : i < 13 := hi
    simp only [binitLists, List.mem_cons, List.mem_singleton, List.not_mem_nil, or_false] at hb
    show b < 30
    omega

theorem reachable_rep {s : State} (h : Reachable s) : ∃ Ls, Rep s Ls := by
  induction h with
  | init d => exact ⟨_, binit_rep d⟩
  | step _ _ hrun ih =>
    obtain ⟨Ls, hr⟩ := ih
    exact op_rep hr hrun

theorem reachable_wellFormed {s : State} (h : Reachable s) : WellFormed s := by
  obtain ⟨Ls, hr⟩ := reachable_rep h
  exact wellFormed_of_rep hr

theorem stolen_buf_cur (s : State) (dev blockno index i : Nat) (A : List Nat) (cur : Nat)
    (hi : i ≠ index) :
    (stolen s dev blockno index i A cur).buf cur =
      { s.buf cur with dev := dev, blockno := blockno, valid := 0, refcnt := 1,
                       next := s.heads index } := by
  unfold stolen claim
  cases A with
  | nil =>
    simp [predOf, State.setNext, Ne.symm hi]
  | cons a A =>
    obtain ⟨l, hl, _⟩ := predOf_cons none a A
    simp only [hl, State.setNext, setHead_heads, setBuf_heads, setHead_buf, setBuf_buf, if_true]
    by_cases hc : cur = l
    · subst hc
      simp
    · simp [hc]

theorem stolen_buf_other (s : State) (dev blockno index i : Nat) (A : List Nat) (cur k : Nat)
    (hk : k ≠ cur) :
    (stolen s dev blockno index i A cur).buf k =
      if some k = predOf none A then { s.buf k with next := (s.buf cur).next } else s.buf k := by
  unfold stolen claim
  cases A with
  | nil =>
    simp [predOf, State.setNext, hk]
  | cons a A =>
    obtain ⟨l, hl, _⟩ := predOf_cons none a A
    simp only [hl, State.setNext, setHead_heads, setBuf_heads, setHead_buf, setBuf_buf, hk,
      if_false]
    by_cases hc : k = l
    · subst hc
      simp
    · simp [hc]

theorem stolen_disk (s : State) (dev blockno index i : Nat) (A : List Nat) (cur : Nat) :
    (stolen s dev blockno index i A cur).disk = s.disk ∧
    (stolen s dev blockno index i A cur).io = s.io := by
  unfold stolen claim
  cases A with
  | nil => simp [predOf, State.setNext]
  | cons a A =>
    obtain ⟨l, hl, _⟩ := predOf_cons none a A
    simp [hl, State.setNext]

theorem find?_mem_pred {P : Nat → Bool} {L : List Nat} {b : Nat} (h : L.find? P = some b) :
    b ∈ L ∧ P b = true := by
  exact ⟨List.mem_of_find?_eq_some h, List.find?_some h⟩

theorem find?_first {P Q : Nat → Bool} :
    ∀ (L : List Nat) (b : Nat), L.find? P = none → b ∈ L → Q b = true →
      (∀ x, x ≠ b → Q x = P x) → L.find? Q = some b
  | [], b, _, hb, _, _ => by simp at hb
  | x :: L, b, hP, hb, hQb, hQ => by
    have hPx : P x = false := by
      have := List.find?_eq_none.mp hP x (List.mem_cons_self x L)
      simpa using this
    have hPL : L.find? P = none := by
      apply List.find?_eq_none.mpr
      intro y hy
      exact List.find?_eq_none.mp hP y (List.mem_cons_of_mem x hy)
    by_cases hxb : x = b
    · subst hxb
      simp [List.find?, hQb]
    · have hbL : b ∈ L := by
        rcases List.mem_cons.mp hb with h | h
        · exact absurd h.symm hxb
        · exact h
      simp only [List.find?, hQ x hxb, hPx]
      exact find?_first L b hPL hbL hQb hQ

/-- What `bget` leaves behind when it returns buffer `b`. -/
theorem bget_post {s s1 : State} {Ls : Nat → List Nat} (hr : Rep s Ls) {dev blockno b : Nat}
    (h : bget dev blockno s = Outcome.ok b s1) :
    ∃ Ls1, Rep s1 Ls1 ∧
      (Ls1 (buf_hash dev blockno)).find? (fun x => is_cached dev blockno (s1.buf x)) = some b ∧
      (s1.buf b).dev = dev ∧ (s1.buf b).blockno = blockno ∧
      (∀ k, (s1.buf k).refcnt = if k = b then inc32 (s.buf b).refcnt else (s.buf k).refcnt) ∧
      (∀ k, (s1.buf k).data = (s.buf k).data) ∧
      (∀ k, k ≠ b → (s1.buf k).valid = (s.buf k).valid ∧ (s1.buf k).dev = (s.buf k).dev ∧
        (s1.buf k).blockno = (s.buf k).blockno) ∧
      ((s1.buf b).valid = (s.buf b).valid ∨ (s1.buf b).valid = 0) ∧
      s1.disk = s.disk ∧ s1.io = s.io := by
  have hs := bget_spec hr dev blockno
  rw [h] at hs
  cases hs with
  | hit _ hf =>
    obtain ⟨hm, hp⟩ := find?_mem_pred hf
    have hp' : (s.buf b).blockno = blockno ∧ (s.buf b).dev = dev := by
      simpa [is_cached] using hp
    refine ⟨Ls, rep_setBuf b _ rfl hr, ?_, ?_, ?_, ?_, ?_, ?_, ?_, rfl, rfl⟩
    · have hfun : (fun x => is_cached dev blockno
          ((s.setBuf b { s.buf b with refcnt := inc32 (s.buf b).refcnt }).buf x)) =
          (fun x => is_cached dev blockno (s.buf x)) := by
        funext x
        by_cases hx : x = b
        · subst hx
          simp [is_cached]
        · simp [hx]
      rw [hfun]
      exact hf
    · simp [hp'.2]
    · simp [hp'.1]
    · intro k
      by_cases hk : k = b
      · subst hk
        simp
      · simp [hk]
    · intro k
      by_cases hk : k = b
      · subst hk
        simp
      · simp [hk]
    · intro k hk
      simp [hk]
    · left
      simp
  | claimed _ hc hf =>
    obtain ⟨hm, hp⟩ := find?_mem_pred hf
    have hp' : (s.buf b).refcnt = 0 := by simpa [is_free] using hp
    refine ⟨Ls, rep_setBuf b _ rfl hr, ?_, ?_, ?_, ?_, ?_, ?_, ?_, rfl, rfl⟩
    · refine find?_first _ b hc hm ?_ ?_
      · simp [claim, is_cached]
      · intro x hx
        simp [claim, hx]
    · simp [claim]
    · simp [claim]
    · intro k
      by_cases hk : k = b
      · subst hk
        simp [claim, hp', inc32, u32]
      · simp [claim, hk]
    · intro k
      by_cases hk : k = b
      · subst hk
        simp [claim]
      · simp [claim, hk]
    · intro k hk
      simp [claim, hk]
    · right
      simp [claim]
  | stole i A _ B hc hf hi hix hL hA hcur =>
    have hcb := stolen_buf_cur s dev blockno (buf_hash dev blockno) i A b hix
    have hob := stolen_buf_other s dev blockno (buf_hash dev blockno) i A b
    refine ⟨_, stolen_rep s Ls dev blockno _ i A b B hr hi (buf_hash_lt dev blockno) hix hL,
      ?_, ?_, ?_, ?_, ?_, ?_, ?_, (stolen_disk s dev blockno _ i A b).1,
      (stolen_disk s dev blockno _ i A b).2⟩
    · simp [stolenLists, List.find?, hcb, is_cached]
    · rw [hcb]
    · rw [hcb]
    · intro k
      by_cases hk : k = b
      · subst hk
        rw [hcb]
        simp [hcur, inc32, u32]
      · rw [hob k hk]
        simp only [hk, if_false]
        split <;> rfl
    · intro k
      by_cases hk : k = b
      · subst hk
        rw [hcb]
      · rw [hob k hk]
        split <;> rfl
    · intro k hk
      rw [hob k hk]
      split <;> exact ⟨rfl, rfl, rfl⟩
    · right
      rw [hcb]

theorem inc32_zero : inc32 0 = 1 := by decide
theorem inc32_one : inc32 1 = 2 := by decide

theorem dec32_succ (n : Nat) (hn : n + 1 < 2 ^ 32) : dec32 (n + 1) = n := by
  unfold dec32 u32
  omega

theorem inc32_of_lt (n : Nat) (hn : n + 1 < 2 ^ 32) : inc32 n = n + 1 := by
  unfold inc32 u32
  omega

theorem brelse_true (b : Nat) (s : State) :
    brelse true b s =
      Outcome.ok () (s.setBuf b { s.buf b with refcnt := dec32 (s.buf b).refcnt }) := rfl

theorem brelse_step {s : State} {Ls : Nat → List Nat} (hr : Rep s Ls) (b n : Nat)
    (hc : (s.buf b).refcnt = n + 1) (hn : n + 1 < 2 ^ 32) :
    ∃ s1, brelse true b s = Outcome.ok () s1 ∧ Rep s1 Ls ∧ (s1.buf b).refcnt = n := by
  refine ⟨_, brelse_true b s, rep_setBuf b _ rfl hr, ?_⟩
  rw [setBuf_buf, if_pos rfl]
  show dec32 (s.buf b).refcnt = n
  rw [hc, dec32_succ n hn]

theorem binit_link_meta (i : Nat) (sb : State × Nat) (k : Nat) :
    ((binit_link i sb).1.buf k).valid = (sb.1.buf k).valid ∧
    ((binit_link i sb).1.buf k).refcnt = (sb.1.buf k).refcnt ∧
    ((binit_link i sb).1.buf k).dev = (sb.1.buf k).dev ∧
    ((binit_link i sb).1.buf k).data = (sb.1.buf k).data := by
  unfold binit_link
  by_cases hk : k = sb.2
  · subst hk
    simp
  · simp [hk]

theorem binit_inner_meta (i : Nat) : ∀ (n : Nat) (sb : State × Nat) (k : Nat),
    ((binit_inner i n sb).1.buf k).valid = (sb.1.buf k).valid ∧
    ((binit_inner i n sb).1.buf k).refcnt = (sb.1.buf k).refcnt ∧
    ((binit_inner i n sb).1.buf k).dev = (sb.1.buf k).dev ∧
    ((binit_inner i n sb).1.buf k).data = (sb.1.buf k).data
  | 0, _, _ => ⟨rfl, rfl, rfl, rfl⟩
  | n + 1, sb, k => by
    have h1 := binit_inner_meta i n (binit_link i sb) k
    have h2 := binit_link_meta i sb k
    simp only [binit_inner]
    exact ⟨h1.1.trans h2.1, h1.2.1.trans h2.2.1, h1.2.2.1.trans h2.2.2.1,
      h1.2.2.2.trans h2.2.2.2⟩

theorem binit_outer_meta : ∀ (is : List Nat) (sb : State × Nat) (k : Nat),
    ((binit_outer is sb).1.buf k).valid = (sb.1.buf k).valid ∧
    ((binit_outer is sb).1.buf k).refcnt = (sb.1.buf k).refcnt ∧
    ((binit_outer is sb).1.buf k).dev = (sb.1.buf k).dev ∧
    ((binit_outer is sb).1.buf k).data = (sb.1.buf k).data
  | [], _, _ => ⟨rfl, rfl, rfl, rfl⟩
  | i :: is, sb, k => by
    have h1 := binit_outer_meta is (binit_inner i (NBUF / NBUCKETS) sb) k
    have h2 := binit_inner_meta i (NBUF / NBUCKETS) sb k
    simp only [binit_outer]
    exact ⟨h1.1.trans h2.1, h1.2.1.trans h2.2.1, h1.2.2.1.trans h2.2.2.1,
      h1.2.2.2.trans h2.2.2.2⟩

theorem foldl_setHead_buf (d : Nat → Nat → Block) : ∀ (is : List Nat) (s : State),
    (is.foldl (fun s i => s.setHead i none) s).buf = s.buf
  | [], _ => rfl
  | i :: is, s => by
    simp only [List.foldl]
    rw [foldl_setHead_buf d is]
    rfl

theorem binit_buf_meta (d : Nat → Nat → Block) (k : Nat) :
    ((binit d).buf k).valid = 0 ∧ ((binit d).buf k).refcnt = 0 ∧ ((binit d).buf k).dev = 0 := by
  have h := binit_outer_meta (List.range NBUCKETS)
    ((List.range NBUCKETS).foldl (fun s i => s.setHead i none) (zeroState d), 0) k
  have e : (((List.range NBUCKETS).foldl (fun s i => s.setHead i none) (zeroState d), 0) :
      State × Nat).1.buf = (zeroState d).buf := foldl_setHead_buf d _ _
  rw [e] at h
  exact ⟨h.1, h.2.1, h.2.2.1⟩

theorem binit_buf_valid (d : Nat → Nat → Block) (k : Nat) : ((binit d).buf k).valid = 0 :=
  (binit_buf_meta d k).1

theorem bget_not_diverged {s : State} {Ls : Nat → List Nat} (hr : Rep s Ls) (dev blockno : Nat) :
    bget dev blockno s ≠ Outcome.diverged := by
  intro h
  have hs := bget_spec hr dev blockno
  rw [h] at hs
  cases hs

theorem bget_panic_state {s s1 : State} {Ls : Nat → List Nat} (hr : Rep s Ls) {dev blockno : Nat}
    {m : PanicMsg} (h : bget dev blockno s = Outcome.panicked m s1) :
    s1 = s ∧ m = PanicMsg.bget_no_buffers := by
  have hs := bget_spec hr dev blockno
  rw [h] at hs
  cases hs
  exact ⟨rfl, rfl⟩

theorem bread_of_bget {s s1 : State} {dev blockno b : Nat}
    (h : bget dev blockno s = Outcome.ok b s1) :
    bread dev blockno s =
      if (s1.buf b).valid = 0 then
        Outcome.ok b ((virtio_disk_rw b false s1).setBuf b
          { (virtio_disk_rw b false s1).buf b with valid := 1 })
      else Outcome.ok b s1 := by
  unfold bread
  rw [h]

theorem bread_ok_inv {s s2 : State} {dev blockno b : Nat}
    (h : bread dev blockno s = Outcome.ok b s2) :
    ∃ s1, bget dev blockno s = Outcome.ok b s1 := by
  unfold bread at h
  cases hb : bget dev blockno s with
  | diverged => rw [hb] at h; simp at h
  | panicked m s3 => rw [hb] at h; simp at h
  | ok b1 s1 =>
    rw [hb] at h
    simp only [] at h
    split at h <;> (injection h with h1 h2; subst h1; exact ⟨s1, rfl⟩)

theorem virtio_read_buf (b : Nat) (s : State) (k : Nat) :
    (virtio_disk_rw b false s).buf k =
      if k = b then { s.buf b with data := s.disk (s.buf b).dev (s.buf b).blockno }
      else s.buf k := by
  simp [virtio_disk_rw]

theorem virtio_read_io (b : Nat) (s : State) :
    (virtio_disk_rw b false s).io =
      { write := false, dev := (s.buf b).dev, blockno := (s.buf b).blockno } :: s.io ∧
    (virtio_disk_rw b false s).disk = s.disk := by
  simp [virtio_disk_rw]

theorem virtio_write_buf (b : Nat) (s : State) : (virtio_disk_rw b true s).buf = s.buf := by
  simp [virtio_disk_rw]

/-- The effect of a returning `bread` on the buffers. -/
theorem bread_post {s s2 : State} {Ls : Nat → List Nat} (hr : Rep s Ls) {dev blockno b : Nat}
    (h : bread dev blockno s = Outcome.ok b s2) :
    (s2.buf b).dev = dev ∧ (s2.buf b).blockno = blockno ∧
    (∀ k, (s2.buf k).refcnt = if k = b then inc32 (s.buf b).refcnt else (s.buf k).refcnt) ∧
    (∀ k, k ≠ b → (s2.buf k).valid = (s.buf k).valid ∧ (s2.buf k).dev = (s.buf k).dev ∧
        (s2.buf k).blockno = (s.buf k).blockno ∧ (s2.buf k).data = (s.buf k).data) ∧
    ((s2.buf b).valid = (s.buf b).valid ∨ (s2.buf b).valid = 1) := by
  obtain ⟨s1, hb⟩ := bread_ok_inv h
  obtain ⟨Ls1, hr1, _, hdev, hblk, hcnt, hdata, hoth, hval, _, _⟩ := bget_post hr hb
  rw [bread_of_bget hb] at h
  by_cases hv : (s1.buf b).valid = 0
  · rw [if_pos hv] at h
    injection h with _ h2
    subst h2
    refine ⟨by simp [virtio_read_buf, hdev], by simp [virtio_read_buf, hblk], ?_, ?_,
      Or.inr (by simp)⟩
    · intro k
      by_cases hk : k = b
      · subst hk
        simpa [virtio_read_buf] using hcnt k
      · simpa [virtio_read_buf, hk] using hcnt k
    · intro k hk
      simp only [setBuf_buf, virtio_read_buf, hk, if_false]
      exact ⟨(hoth k hk).1, (hoth k hk).2.1, (hoth k hk).2.2, hdata k⟩
  · rw [if_neg hv] at h
    injection h with _ h2
    subst h2
    refine ⟨hdev, hblk, hcnt, ?_, ?_⟩
    · intro k hk
      exact ⟨(hoth k hk).1, (hoth k hk).2.1, (hoth k hk).2.2, hdata k⟩
    · rcases hval with hval | hval
      · exact Or.inl hval
      · exact absurd hval hv

theorem op_valid {s s1 : State} {Ls : Nat → List Nat} (hr : Rep s Ls) {op : Op} {r : Option Nat}
    (h : op.run s = Outcome.ok r s1) (k : Nat) :
    (s1.buf k).valid = (s.buf k).valid ∨ (s1.buf k).valid = 0 ∨ (s1.buf k).valid = 1 := by
  cases op with
  | bget dev blockno =>
    simp only [Op.run] at h
    cases hb : bget dev blockno s with
    | diverged => rw [hb] at h; simp at h
    | panicked m s2 => rw [hb] at h; simp at h
    | ok b2 s2 =>
      rw [hb] at h
      injection h with h1 h2
      subst h2
      obtain ⟨Ls1, _, _, _, _, _, _, hoth, hval, _, _⟩ := bget_post hr hb
      by_cases hk : k = b2
      · subst hk
        rcases hval with h | h
        · exact Or.inl h
        · exact Or.inr (Or.inl h)
      · exact Or.inl (hoth k hk).1
  | bread dev blockno =>
    simp only [Op.run] at h
    cases hb : bread dev blockno s with
    | diverged => rw [hb] at h; simp at h
    | panicked m s2 => rw [hb] at h; simp at h
    | ok b2 s2 =>
      rw [hb] at h
      injection h with h1 h2
      subst h2
      obtain ⟨_, _, _, hoth, hval⟩ := bread_post hr hb
      by_cases hk : k = b2
      · subst hk
        rcases hval with h | h
        · exact Or.inl h
        · exact Or.inr (Or.inr h)
      · exact Or.inl (hoth k hk).1
  | bwrite b =>
    simp only [Op.run, bwrite] at h
    injection h with h1 h2
    subst h2
    left
    rw [virtio_write_buf]
  | brelse b =>
    simp only [Op.run, brelse] at h
    injection h with h1 h2
    subst h2
    left
    by_cases hk : k = b
    · subst hk; simp
    · simp [hk]
  | bpin b =>
    simp only [Op.run, bpin] at h
    injection h with h1 h2
    subst h2
    left
    by_cases hk : k = b
    · subst hk; simp
    · simp [hk]
  | bunpin b =>
    simp only [Op.run, bunpin] at h
    injection h with h1 h2
    subst h2
    left
    by_cases hk : k = b
    · subst hk; simp
    · simp [hk]
  | store b d =>
    simp only [Op.run] at h
    injection h with h1 h2
    subst h2
    left
    by_cases hk : k = b
    · subst hk; simp
    · simp [hk]

theorem reachable_valid {s : State} (h : Reachable s) (k : Nat) :
    (s.buf k).valid = 0 ∨ (s.buf k).valid = 1 := by
  induction h with
  | init d => exact Or.inl (binit_buf_valid d k)
  | step hs _ hrun ih =>
    obtain ⟨Ls, hr⟩ := reachable_rep hs
    rcases op_valid hr hrun k with h | h | h
    · rw [h]; exact ih
    · exact Or.inl h
    · exact Or.inr h

theorem state_ext {s t : State} (h1 : ∀ k, s.buf k = t.buf k) (h2 : ∀ i, s.heads i = t.heads i)
    (h3 : s.disk = t.disk) (h4 : s.io = t.io) : s = t := by
  cases s with
  | mk b1 hd1 d1 io1 =>
    cases t with
    | mk b2 hd2 d2 io2 =>
      have e1 : b1 = b2 := funext h1
      have e2 : hd1 = hd2 := funext h2
      simp only [] at h3 h4
      subst e1 e2 h3 h4
      rfl

theorem iterate_bpin (b : Nat) : ∀ (n : Nat) (s : State), (s.buf b).refcnt + n < 2 ^ 32 →
    Nat.iterate (bpin b) n s = pinned b n s
  | 0, s, _ => by
    refine state_ext ?_ (fun _ => rfl) rfl rfl
    intro k
    by_cases hk : k = b
    · subst hk
      simp [pinned]
    · simp [pinned, hk]
  | n + 1, s, h => by
    have hb : ((bpin b s).buf b).refcnt = (s.buf b).refcnt + 1 := by
      simp only [bpin, setBuf_buf, if_true]
      exact inc32_of_lt _ (by omega)
    rw [Function.iterate_succ_apply, iterate_bpin b n (bpin b s) (by rw [hb]; omega)]
    refine state_ext ?_ (fun _ => rfl) rfl rfl
    intro k
    by_cases hk : k = b
    · subst hk
      simp only [pinned, setBuf_buf, if_true, hb]
      simp only [bpin, setBuf_buf, if_true]
      have : (s.buf k).refcnt + 1 + n = (s.buf k).refcnt + (n + 1) := by omega
      rw [this]
    · simp [pinned, bpin, hk]

theorem reachable_iterate_bpin (b : Nat) : ∀ (n : Nat) (s : State), Reachable s →
    1 ≤ (s.buf b).refcnt → (s.buf b).refcnt + n < 2 ^ 32 → Reachable (Nat.iterate (bpin b) n s)
  | 0, _, hs, _, _ => hs
  | n + 1, s, hs, h1, h => by
    have hb : ((bpin b s).buf b).refcnt = (s.buf b).refcnt + 1 := by
      simp only [bpin, setBuf_buf, if_true]
      exact inc32_of_lt _ (by omega)
    rw [Function.iterate_succ_apply]
    refine reachable_iterate_bpin b n (bpin b s) ?_ (by rw [hb]; omega) (by rw [hb]; omega)
    exact Reachable.step (o := Op.bpin b) hs h1 rfl

theorem reachable_afterGet00 : Reachable afterGet00 :=
  Reachable.step (o := Op.bget 0 0) (Reachable.init zeroDisk)
    (show (0 : Nat) < 2 ^ 32 ∧ (0 : Nat) < 2 ^ 32 from ⟨by norm_num, by norm_num⟩) rfl

theorem manyPins_eq : manyPins = pinned 1 (2 ^ 32 - 2) afterGet00 :=
  iterate_bpin 1 (2 ^ 32 - 2) afterGet00 (by decide)

theorem bread_disk {s s2 : State} {Ls : Nat → List Nat} (hr : Rep s Ls) {dev blockno b : Nat}
    (h : bread dev blockno s = Outcome.ok b s2) : s2.disk = s.disk := by
  obtain ⟨s1, hb⟩ := bread_ok_inv h
  obtain ⟨_, _, _, _, _, _, _, _, _, hdisk, _⟩ := bget_post hr hb
  rw [bread_of_bget hb] at h
  by_cases hv : (s1.buf b).valid = 0
  · rw [if_pos hv] at h
    injection h with _ h2
    subst h2
    rw [setBuf_disk, (virtio_read_io b s1).2, hdisk]
  · rw [if_neg hv] at h
    injection h with _ h2
    subst h2
    exact hdisk

theorem op_disk {s s1 : State} {Ls : Nat → List Nat} (hr : Rep s Ls) {op : Op} {r : Option Nat}
    (h : op.run s = Outcome.ok r s1) (dev blockno : Nat)
    (hq : ∀ b, op = Op.bwrite b → ¬((s.buf b).dev = dev ∧ (s.buf b).blockno = blockno)) :
    s1.disk dev blockno = s.disk dev blockno := by
  cases op with
  | bget dev1 blockno1 =>
    simp only [Op.run] at h
    cases hb : bget dev1 blockno1 s with
    | diverged => rw [hb] at h; simp at h
    | panicked m s2 => rw [hb] at h; simp at h
    | ok b2 s2 =>
      rw [hb] at h
      injection h with h1 h2
      subst h2
      obtain ⟨_, _, _, _, _, _, _, _, _, hdisk, _⟩ := bget_post hr hb
      rw [hdisk]
  | bread dev1 blockno1 =>
    simp only [Op.run] at h
    cases hb : bread dev1 blockno1 s with
    | diverged => rw [hb] at h; simp at h
    | panicked m s2 => rw [hb] at h; simp at h
    | ok b2 s2 =>
      rw [hb] at h
      injection h with h1 h2
      subst h2
      rw [bread_disk hr hb]
  | bwrite b =>
    simp only [Op.run, bwrite] at h
    injection h with h1 h2
    subst h2
    have hne := hq b rfl
    simp only [virtio_disk_rw, if_true]
    rw [if_neg]
    intro hc
    exact hne ⟨hc.1.symm, hc.2.symm⟩
  | brelse b =>
    simp only [Op.run, brelse] at h
    injection h with h1 h2
    subst h2
    rfl
  | bpin b =>
    simp only [Op.run, bpin] at h
    injection h with h1 h2
    subst h2
    rfl
  | bunpin b =>
    simp only [Op.run, bunpin] at h
    injection h with h1 h2
    subst h2
    rfl
  | store b d =>
    simp only [Op.run] at h
    injection h with h1 h2
    subst h2
    rfl

theorem quiet_reachable {dev blockno : Nat} {s s2 : State} (hq : Quiet dev blockno s s2)
    (hs : Reachable s) : Reachable s2 := by
  induction hq with
  | refl => exact hs
  | step _ hl _ hrun ih => exact Reachable.step ih hl hrun

theorem quiet_disk {dev blockno : Nat} {s s2 : State} (hq : Quiet dev blockno s s2)
    (hs : Reachable s) : s2.disk dev blockno = s.disk dev blockno := by
  induction hq with
  | refl => rfl
  | step hq1 _ hnw hrun ih =>
    obtain ⟨Ls, hr⟩ := reachable_rep (quiet_reachable hq1 hs)
    rw [op_disk hr hrun dev blockno hnw, ih]

theorem bread_not_diverged {s : State} {Ls : Nat → List Nat} (hr : Rep s Ls) (dev blockno : Nat) :
    bread dev blockno s ≠ Outcome.diverged := by
  intro h
  unfold bread at h
  cases hb : bget dev blockno s with
  | diverged => exact bget_not_diverged hr dev blockno hb
  | panicked m s3 => rw [hb] at h; simp at h
  | ok b1 s1 =>
    rw [hb] at h
    simp only [] at h
    split at h <;> simp at h

/-- On a miss in the home bucket the buffer handed out by `bget` has `valid == 0`. -/
theorem bget_miss_valid {s s1 : State} {Ls : Nat → List Nat} (hr : Rep s Ls)
    {dev blockno b : Nat} (h : bget dev blockno s = Outcome.ok b s1)
    (hcold : ∀ x, x ∈ Ls (buf_hash dev blockno) →
      ¬((s.buf x).dev = dev ∧ (s.buf x).blockno = blockno)) :
    (s1.buf b).valid = 0 := by
  have hs := bget_spec hr dev blockno
  rw [h] at hs
  cases hs with
  | hit _ hf =>
    obtain ⟨hm, hp⟩ := find?_mem_pred hf
    have hp' : (s.buf b).blockno = blockno ∧ (s.buf b).dev = dev := by
      simpa [is_cached] using hp
    exact absurd ⟨hp'.2, hp'.1⟩ (hcold b hm)
  | claimed _ _ _ => simp [claim]
  | stole i A _ B _ _ _ hix _ _ _ =>
    rw [stolen_buf_cur s dev blockno _ i A b hix]

theorem reachable_runOps : ∀ (ops : List Op) (s : State), Reachable s →
    disciplined ops s = true → Reachable (runOps ops s)
  | [], _, hs, _ => hs
  | op :: ops, s, hs, hd => by
    simp only [disciplined] at hd
    simp only [runOps]
    cases hrun : op.run s with
    | diverged => rw [hrun] at hd; simp at hd
    | panicked m s1 => rw [hrun] at hd; simp at hd
    | ok r s1 =>
      rw [hrun] at hd
      simp only [Bool.and_eq_true, decide_eq_true_eq] at hd
      exact reachable_runOps ops s1 (Reachable.step hs hd.1 hrun) hd.2

theorem inc32_lt (n : Nat) : inc32 n < 2 ^ 32 := Nat.mod_lt _ (by norm_num)
theorem dec32_lt (n : Nat) : dec32 n < 2 ^ 32 := Nat.mod_lt _ (by norm_num)

theorem inc32_cast (n : Nat) : ((inc32 n : Nat) : Int) = ((n : Int) + 1) % 2 ^ 32 := by
  unfold inc32 u32
  push_cast
  rfl

theorem dec32_cast (n : Nat) : ((dec32 n : Nat) : Int) = ((n : Int) - 1) % 2 ^ 32 := by
  unfold dec32 u32
  push_cast
  omega

/-- Change of the count of buffer `b` made by one returning call. -/
theorem op_refcnt {s s1 : State} {Ls : Nat → List Nat} (hr : Rep s Ls) {op : Op}
    {r : Option Nat} (h : op.run s = Outcome.ok r s1) (b : Nat) :
    (s1.buf b).refcnt =
      if isGetOf b op r = true ∨ isPinOf b op r = true then inc32 (s.buf b).refcnt
      else if isRelseOf b op r = true ∨ isUnpinOf b op r = true then dec32 (s.buf b).refcnt
      else (s.buf b).refcnt := by
  cases op with
  | bget dev blockno =>
    simp only [Op.run] at h
    cases hb : bget dev blockno s with
    | diverged => rw [hb] at h; simp at h
    | panicked m s2 => rw [hb] at h; simp at h
    | ok b2 s2 =>
      rw [hb] at h
      injection h with h1 h2
      subst h1 h2
      obtain ⟨_, _, _, _, _, hcnt, _⟩ := bget_post hr hb
      rw [hcnt b]
      by_cases hk : b = b2
      · subst hk
        simp [isGetOf, isPinOf]
      · have : ¬ (b2 = b) := fun e => hk e.symm
        simp [isGetOf, isPinOf, isRelseOf, isUnpinOf, hk, this]
  | bread dev blockno =>
    simp only [Op.run] at h
    cases hb : bread dev blockno s with
    | diverged => rw [hb] at h; simp at h
    | panicked m s2 => rw [hb] at h; simp at h
    | ok b2 s2 =>
      rw [hb] at h
      injection h with h1 h2
      subst h1 h2
      obtain ⟨_, _, hcnt, _⟩ := bread_post hr hb
      rw [hcnt b]
      by_cases hk : b = b2
      · subst hk
        simp [isGetOf, isPinOf]
      · have : ¬ (b2 = b) := fun e => hk e.symm
        simp [isGetOf, isPinOf, isRelseOf, isUnpinOf, hk, this]
  | bwrite x =>
    simp only [Op.run, bwrite] at h
    injection h with h1 h2
    subst h2
    simp [isGetOf, isPinOf, isRelseOf, isUnpinOf, virtio_write_buf]
  | brelse x =>
    simp only [Op.run, brelse] at h
    injection h with h1 h2
    subst h2
    by_cases hk : b = x
    · subst hk
      simp [isGetOf, isPinOf, isRelseOf, isUnpinOf]
    · have : ¬ (x = b) := fun e => hk e.symm
      simp [isGetOf, isPinOf, isRelseOf, isUnpinOf, hk, this]
  | bpin x =>
    simp only [Op.run, bpin] at h
    injection h with h1 h2
    subst h2
    by_cases hk : b = x
    · subst hk
      simp [isGetOf, isPinOf, isRelseOf, isUnpinOf]
    · have : ¬ (x = b) := fun e => hk e.symm
      simp [isGetOf, isPinOf, isRelseOf, isUnpinOf, hk, this]
  | bunpin x =>
    simp only [Op.run, bunpin] at h
    injection h with h1 h2
    subst h2
    by_cases hk : b = x
    · subst hk
      simp [isGetOf, isPinOf, isRelseOf, isUnpinOf]
    · have : ¬ (x = b) := fun e => hk e.symm
      simp [isGetOf, isPinOf, isRelseOf, isUnpinOf, hk, this]
  | store x d =>
    simp only [Op.run] at h
    injection h with h1 h2
    subst h2
    by_cases hk : b = x
    · subst hk
      simp [isGetOf, isPinOf, isRelseOf, isUnpinOf]
    · simp [isGetOf, isPinOf, isRelseOf, isUnpinOf, hk]

/-- A call is of at most one of the four kinds. -/
theorem kinds_exclusive (b : Nat) (op : Op) (r : Option Nat) :
    (if isGetOf b op r then 1 else 0) + (if isPinOf b op r then 1 else 0) +
      (if isRelseOf b op r then 1 else 0) + (if isUnpinOf b op r then 1 else 0) ≤ 1 := by
  cases op <;> simp [isGetOf, isPinOf, isRelseOf, isUnpinOf] <;> split <;> simp

theorem runOps_refcnt (b : Nat) : ∀ (ops : List Op) (s : State) (Ls : Nat → List Nat),
    Rep s Ls → (s.buf b).refcnt < 2 ^ 32 →
    (((runOps ops s).buf b).refcnt : Int) =
      (((s.buf b).refcnt : Int) + countCalls (isGetOf b) ops s + countCalls (isPinOf b) ops s
        - countCalls (isRelseOf b) ops s - countCalls (isUnpinOf b) ops s) % 2 ^ 32
  | [], s, _, _, hlt => by
    simp only [runOps, countCalls]
    omega
  | op :: ops, s, Ls, hr, hlt => by
    simp only [runOps, countCalls]
    cases hrun : op.run s with
    | diverged =>
      simp only []
      omega
    | panicked m s1 =>
      simp only []
      omega
    | ok r s1 =>
      simp only []
      obtain ⟨Ls1, hr1⟩ := op_rep hr hrun
      have hc := op_refcnt hr hrun b
      have hex := kinds_exclusive b op r
      have hlt1 : (s1.buf b).refcnt < 2 ^ 32 := by
        rw [hc]
        split
        · exact inc32_lt _
        · split
          · exact dec32_lt _
          · exact hlt
      have ih := runOps_refcnt b ops s1 Ls1 hr1 hlt1
      rw [ih]
      have hi := inc32_cast (s.buf b).refcnt
      have hd := dec32_cast (s.buf b).refcnt
      cases hg : isGetOf b op r <;> cases hp : isPinOf b op r <;>
        cases hrl : isRelseOf b op r <;> cases hu : isUnpinOf b op r <;>
        simp only [hg, hp, hrl, hu, Bool.false_eq_true, or_self, or_true, or_false, true_or,
          false_or, if_true, if_false] at hc hex ⊢ <;>
        omega

theorem runOps_replicate_bpin (b : Nat) : ∀ (n : Nat) (s : State),
    runOps (List.replicate n (Op.bpin b)) s = Nat.iterate (bpin b) n s
  | 0, _ => rfl
  | n + 1, s => by
    rw [List.replicate_succ, Function.iterate_succ_apply]
    simp only [runOps, Op.run]
    exact runOps_replicate_bpin b n (bpin b s)

theorem countCalls_replicate_bpin (f : Op → Option Nat → Bool) (b : Nat) :
    ∀ (n : Nat) (s : State),
      countCalls f (List.replicate n (Op.bpin b)) s = if f (Op.bpin b) none then n else 0
  | 0, _ => by simp [countCalls]
  | n + 1, s => by
    rw [List.replicate_succ]
    simp only [countCalls, Op.run]
    rw [countCalls_replicate_bpin f b n (bpin b s)]
    split <;> omega

theorem runOps_cons_ok {op : Op} {s s1 : State} {r : Option Nat} (ops : List Op)
    (h : op.run s = Outcome.ok r s1) : runOps (op :: ops) s = runOps ops s1 := by
  simp only [runOps, h]

theorem countCalls_cons_ok (f : Op → Option Nat → Bool) {op : Op} {s s1 : State}
    {r : Option Nat} (ops : List Op) (h : op.run s = Outcome.ok r s1) :
    countCalls f (op :: ops) s = (if f op r then 1 else 0) + countCalls f ops s1 := by
  simp only [countCalls, h]

theorem run_bget00 : (Op.bget 0 0).run (binit zeroDisk) = Outcome.ok (some 1) afterGet00 := rfl

theorem runOps_wrapOps :
    runOps wrapOps (binit zeroDisk) = bpin 1 (pinned 1 (2 ^ 32 - 2) afterGet00) := by
  unfold wrapOps
  rw [runOps_cons_ok _ run_bget00, runOps_replicate_bpin]
  have h2 : (2 ^ 32 - 1 : Nat) = (2 ^ 32 - 2) + 1 := by norm_num
  rw [h2, Function.iterate_succ_apply', iterate_bpin 1 (2 ^ 32 - 2) afterGet00 (by decide)]

theorem countCalls_wrapOps (f : Op → Option Nat → Bool) :
    countCalls f wrapOps (binit zeroDisk) =
      (if f (Op.bget 0 0) (some 1) then 1 else 0) +
        (if f (Op.bpin 1) none then 2 ^ 32 - 1 else 0) := by
  unfold wrapOps
  rw [countCalls_cons_ok f _ run_bget00, countCalls_replicate_bpin]

theorem mem_of_find?_cached {s : State} {dev blockno b : Nat} {L : List Nat}
    (h : L.find? (fun x => is_cached dev blockno (s.buf x)) = some b) :
    b ∈ L ∧ (s.buf b).dev = dev ∧ (s.buf b).blockno = blockno := by
  obtain ⟨hm, hp⟩ := find?_mem_pred h
  have hp' : (s.buf b).blockno = blockno ∧ (s.buf b).dev = dev := by
    simpa [is_cached] using hp
  exact ⟨hm, hp'.2, hp'.1⟩

theorem not_cached_of_find? {s : State} {dev blockno : Nat} {L : List Nat}
    (h : L.find? (fun x => is_cached dev blockno (s.buf x)) = none) :
    ∀ x, x ∈ L → ¬((s.buf x).dev = dev ∧ (s.buf x).blockno = blockno) := by
  intro x hx hc
  have := List.find?_eq_none.mp h x hx
  simp [is_cached, hc.1, hc.2] at this

theorem dec32_zero : dec32 0 = 2 ^ 32 - 1 := by decide

theorem dec32_of_pos (n : Nat) (h0 : 1 ≤ n) (hn : n < 2 ^ 32) : dec32 n + 1 = n := by
  unfold dec32 u32
  omega

theorem pairwise_ne_imp {R S : Nat → Nat → Prop} {L : List Nat} (hn : L.Nodup)
    (hR : L.Pairwise R) (h : ∀ a x, a ∈ L → x ∈ L → a ≠ x → R a x → S a x) :
    L.Pairwise S := by
  have h2 : L.Pairwise (fun a b => R a b ∧ a ≠ b) := hR.and hn
  exact h2.imp_of_mem (fun ha hx hr => h _ _ ha hx hr.2 hr.1)

theorem pairwise_of_mem {R : Nat → Nat → Prop} {L : List Nat}
    (h : ∀ a x, a ∈ L → x ∈ L → R a x) : L.Pairwise R :=
  List.Pairwise.imp_mem.mpr (List.pairwise_of_forall (fun a x ha hx => h a x ha hx))

theorem find?_before {P : Nat → Bool} {b : Nat} :
    ∀ L : List Nat, L.Nodup → L.find? P = some b →
      L.Pairwise (fun a x => x = b → P a = false)
  | [], _, _ => List.Pairwise.nil
  | y :: L, hn, h => by
    obtain ⟨hy, hnL⟩ := List.nodup_cons.mp hn
    by_cases hP : P y = true
    · have hb : y = b := by
        simp only [List.find?, hP] at h
        exact Option.some.inj h
      subst hb
      refine List.pairwise_cons.mpr ⟨?_, ?_⟩
      · intro x hx e
        exact absurd (e ▸ hx) hy
      · apply pairwise_of_mem
        intro a x _ hx e
        exact absurd (e ▸ hx) hy
    · have hP' : P y = false := by simpa using hP
      have hL : L.find? P = some b := by
        simpa [List.find?, hP'] using h
      refine List.pairwise_cons.mpr ⟨?_, find?_before L hnL hL⟩
      intro x _ _
      exact hP'

theorem sameId_setBuf (s : State) (b : Nat) (v : Buf) (hd : v.dev = (s.buf b).dev)
    (hb : v.blockno = (s.buf b).blockno) (a x : Nat) :
    SameId (s.setBuf b v) a x ↔ SameId s a x := by
  have key : ∀ k, ((s.setBuf b v).buf k).dev = (s.buf k).dev ∧
      ((s.setBuf b v).buf k).blockno = (s.buf k).blockno := by
    intro k
    by_cases hk : k = b
    · subst hk
      simp [hd, hb]
    · simp [hk]
  unfold SameId
  rw [(key a).1, (key a).2, (key x).1, (key x).2]

theorem inv_congr {s s1 : State} {Ls : Nat → List Nat} (hb : s1.buf = s.buf)
    (hh : s1.heads = s.heads) (h : CacheInv s Ls) : CacheInv s1 Ls := by
  refine ⟨rep_congr (fun k => by rw [hb]) hh h.rep, ?_, h.linked, ?_, ?_⟩
  · intro i hi b hm
    rw [hb]
    exact h.home i hi b hm
  · intro b hm
    rw [hb]
    exact h.idle b hm
  · intro i hi
    have : Shadows s1 = Shadows s := by
      funext a x
      unfold Shadows SameId
      rw [hb]
    rw [this]
    exact h.shadow i hi

/-- Rewriting the fields of a linked buffer `b` other than `next`, `dev` and `blockno`,
when no buffer in front of `b` in its list carries the same `(dev, blockno)`. -/
theorem inv_update {s : State} {Ls : Nat → List Nat} (h : CacheInv s Ls) (b : Nat) (v : Buf)
    (hn : v.next = (s.buf b).next) (hd : v.dev = (s.buf b).dev)
    (hb : v.blockno = (s.buf b).blockno) (hl : ∃ i, i < NBUCKETS ∧ b ∈ Ls i)
    (hf : ∀ i, i < NBUCKETS → (Ls i).Pairwise (fun a x => x = b → ¬SameId s a b)) :
    CacheInv (s.setBuf b v) Ls := by
  refine ⟨rep_setBuf b v hn h.rep, ?_, h.linked, ?_, ?_⟩
  · intro i hi k hk
    by_cases hkb : k = b
    · subst hkb
      simp only [setBuf_buf, if_true, hd, hb]
      exact h.home i hi k hk
    · simp only [setBuf_buf, hkb, if_false]
      exact h.home i hi k hk
  · intro k hk
    have hkb : k ≠ b := by
      intro e
      subst e
      obtain ⟨i, hi, hm⟩ := hl
      exact hk i hi hm
    simp only [setBuf_buf, hkb, if_false]
    exact h.idle k hk
  · intro i hi
    refine pairwise_ne_imp (h.rep.nodup i hi) ((h.shadow i hi).and (hf i hi)) ?_
    intro a x _ _ _ hR hS
    rw [sameId_setBuf s b v hd hb a x] at hS
    by_cases hxb : x = b
    · subst hxb
      exact absurd hS (hR.2 rfl)
    · simp only [setBuf_buf, hxb, if_false]
      exact hR.1 hS

theorem pairwise_mem_or {R : Nat → Nat → Prop} :
    ∀ (L : List Nat), L.Pairwise R → ∀ a b, a ∈ L → b ∈ L → a ≠ b → R a b ∨ R b a
  | [], _, a, _, ha, _, _ => by simp at ha
  | y :: L, h, a, b, ha, hb, hab => by
    obtain ⟨hy, hL⟩ := List.pairwise_cons.mp h
    rcases List.mem_cons.mp ha with ea | ha'
    · rcases List.mem_cons.mp hb with eb | hb'
      · exact absurd (ea.trans eb.symm) hab
      · exact Or.inl (ea ▸ hy b hb')
    · rcases List.mem_cons.mp hb with eb | hb'
      · exact Or.inr (eb ▸ hy a ha')
      · exact pairwise_mem_or L hL a b ha' hb' hab

/-- The first buffer of its home list that carries `(dev, blockno)` is linked, and no
buffer in front of it carries the same `(dev, blockno)`. -/
theorem first_unshadowed {s : State} {Ls : Nat → List Nat} (h : CacheInv s Ls)
    {dev blockno b : Nat}
    (hf : (Ls (buf_hash dev blockno)).find? (fun x => is_cached dev blockno (s.buf x)) = some b) :
    (∃ i, i < NBUCKETS ∧ b ∈ Ls i) ∧
    ∀ i, i < NBUCKETS → (Ls i).Pairwise (fun a x => x = b → ¬SameId s a b) := by
  obtain ⟨hm, hd, hb⟩ := mem_of_find?_cached hf
  have hx := buf_hash_lt dev blockno
  refine ⟨⟨_, hx, hm⟩, ?_⟩
  intro i hi
  by_cases hih : i = buf_hash dev blockno
  · subst hih
    refine (find?_before _ (h.rep.nodup _ hx) hf).imp ?_
    intro a x hR e hS
    have := hR e
    simp only [is_cached, decide_eq_false_iff_not] at this
    exact this ⟨hS.2.trans hb, hS.1.trans hd⟩
  · apply pairwise_of_mem
    intro a x _ hxm e
    subst e
    exact absurd hm (h.rep.disj i _ hi hx hih x hxm)

/-- A referenced buffer is linked, and no buffer in front of it carries the same
`(dev, blockno)`. -/
theorem live_unshadowed {s : State} {Ls : Nat → List Nat} (h : CacheInv s Ls) {b : Nat}
    (hb : 1 ≤ (s.buf b).refcnt) :
    (∃ i, i < NBUCKETS ∧ b ∈ Ls i) ∧
    ∀ i, i < NBUCKETS → (Ls i).Pairwise (fun a x => x = b → ¬SameId s a b) := by
  constructor
  · by_contra hn
    have h0 := (h.idle b (fun i hi hm => hn ⟨i, hi, hm⟩)).1
    omega
  · intro i hi
    refine (h.shadow i hi).imp ?_
    intro a x hR e hS
    subst e
    have := (hR hS).1
    omega

/-- Claiming a buffer of the home list of `(dev, blockno)` when that list holds no buffer
carrying `(dev, blockno)`. -/
theorem inv_claim {s : State} {Ls : Nat → List Nat} (h : CacheInv s Ls) (dev blockno b : Nat)
    (hc : (Ls (buf_hash dev blockno)).find? (fun x => is_cached dev blockno (s.buf x)) = none)
    (hm : b ∈ Ls (buf_hash dev blockno)) : CacheInv (claim s b dev blockno) Ls := by
  have hx := buf_hash_lt dev blockno
  have hnc := not_cached_of_find? hc
  have hsame : ∀ i, i < NBUCKETS → b ∈ Ls i → i = buf_hash dev blockno := by
    intro i hi hbi
    by_contra hne
    exact h.rep.disj i _ hi hx hne b hbi hm
  refine ⟨rep_setBuf b _ rfl h.rep, ?_, h.linked, ?_, ?_⟩
  · intro i hi k hk
    by_cases hkb : k = b
    · subst hkb
      simp only [claim, setBuf_buf, if_true]
      exact (hsame i hi hk).symm
    · simp only [claim, setBuf_buf, hkb, if_false]
      exact h.home i hi k hk
  · intro k hk
    have hkb : k ≠ b := by
      intro e
      subst e
      exact hk _ hx hm
    simp only [claim, setBuf_buf, hkb, if_false]
    exact h.idle k hk
  · intro i hi
    refine pairwise_ne_imp (h.rep.nodup i hi) (h.shadow i hi) ?_
    intro a x ha hxm hax hR hS
    by_cases hab : a = b
    · subst hab
      have hxb : x ≠ a := fun e => hax e.symm
      have hi' := hsame i hi ha
      subst hi'
      exfalso
      apply hnc x hxm
      have h1 := hS.1
      have h2 := hS.2
      simp only [claim, setBuf_buf, if_true, hxb, if_false] at h1 h2
      exact ⟨h1.symm, h2.symm⟩
    · by_cases hxb : x = b
      · subst hxb
        have hi' := hsame i hi hxm
        subst hi'
        exfalso
        apply hnc a ha
        have h1 := hS.1
        have h2 := hS.2
        simp only [claim, setBuf_buf, if_true, hab, if_false] at h1 h2
        exact ⟨h1, h2⟩
      · have hS' : SameId s a x := by
          have h1 := hS.1
          have h2 := hS.2
          simp only [claim, setBuf_buf, hab, hxb, if_false] at h1 h2
          exact ⟨h1, h2⟩
        simp only [claim, setBuf_buf, hxb, if_false]
        exact hR hS'

theorem stolen_meta (s : State) (dev blockno index i : Nat) (A : List Nat) (cur k : Nat)
    (hk : k ≠ cur) :
    ((stolen s dev blockno index i A cur).buf k).dev = (s.buf k).dev ∧
    ((stolen s dev blockno index i A cur).buf k).blockno = (s.buf k).blockno ∧
    ((stolen s dev blockno index i A cur).buf k).refcnt = (s.buf k).refcnt ∧
    ((stolen s dev blockno index i A cur).buf k).valid = (s.buf k).valid := by
  rw [stolen_buf_other s dev blockno index i A cur k hk]
  split <;> exact ⟨rfl, rfl, rfl, rfl⟩

theorem mem_stolenLists (Ls : Nat → List Nat) (index i : Nat) (A : List Nat) (cur : Nat)
    (B : List Nat) (hL : Ls i = A ++ cur :: B) (hne : i ≠ index) (j k : Nat) :
    k ∈ stolenLists Ls index i A cur B j ↔
      (j = index ∧ (k = cur ∨ k ∈ Ls index)) ∨ (j = i ∧ k ∈ Ls i ∧ (k ∈ A ∨ k ∈ B)) ∨
      (j ≠ index ∧ j ≠ i ∧ k ∈ Ls j) := by
  unfold stolenLists
  by_cases h1 : j = index
  · subst h1
    have : j ≠ i := fun e => hne e.symm
    simp [this]
  · by_cases h2 : j = i
    · subst h2
      simp only [h1, if_false, if_true, hL, List.mem_append, List.mem_cons]
      tauto
    · simp [h1, h2]

/-- Stealing the free buffer `cur` of bucket `i` for `(dev, blockno)`, when the home list
of `(dev, blockno)` holds no buffer carrying it. -/
theorem inv_stolen {s : State} {Ls : Nat → List Nat} (h : CacheInv s Ls) (dev blockno i : Nat)
    (A : List Nat) (cur : Nat) (B : List Nat)
    (hc : (Ls (buf_hash dev blockno)).find? (fun x => is_cached dev blockno (s.buf x)) = none)
    (hi : i < NBUCKETS) (hne : i ≠ buf_hash dev blockno) (hL : Ls i = A ++ cur :: B) :
    CacheInv (stolen s dev blockno (buf_hash dev blockno) i A cur)
      (stolenLists Ls (buf_hash dev blockno) i A cur B) := by
  have hx := buf_hash_lt dev blockno
  have hnc := not_cached_of_find? hc
  have hcb := stolen_buf_cur s dev blockno (buf_hash dev blockno) i A cur hne
  have hmeta := stolen_meta s dev blockno (buf_hash dev blockno) i A cur
  have hmem := mem_stolenLists Ls (buf_hash dev blockno) i A cur B hL hne
  have hcur : cur ∈ Ls i := by
    rw [hL]
    simp
  have hnd : (A ++ cur :: B).Nodup := hL ▸ h.rep.nodup i hi
  have hcurAB : cur ∉ A ∧ cur ∉ B := by
    have h1 := List.nodup_append.mp hnd
    exact ⟨fun hA => h1.2.2 hA (List.mem_cons_self cur B), (List.nodup_cons.mp h1.2.1).1⟩
  have hcurx : cur ∉ Ls (buf_hash dev blockno) := h.rep.disj i _ hi hx hne cur hcur
  -- membership in the old lists, for the buffers other than `cur`
  have hold : ∀ j k, j < NBUCKETS → k ∈ stolenLists Ls (buf_hash dev blockno) i A cur B j →
      k ≠ cur → k ∈ Ls j := by
    intro j k _ hk hkc
    rcases (hmem j k).mp hk with ⟨e, h1 | h1⟩ | ⟨e, h1, _⟩ | ⟨_, _, h1⟩
    · exact absurd h1 hkc
    · exact e ▸ h1
    · exact e ▸ h1
    · exact h1
  have hrep := stolen_rep s Ls dev blockno _ i A cur B h.rep hi hx hne hL
  refine ⟨hrep, ?_, ?_, ?_, ?_⟩
  · intro j hj k hk
    by_cases hkc : k = cur
    · subst hkc
      rw [hcb]
      show buf_hash dev blockno = j
      rcases (hmem j k).mp hk with ⟨e, _⟩ | ⟨_, _, h1 | h1⟩ | ⟨h1, h2, h3⟩
      · exact e.symm
      · exact absurd h1 hcurAB.1
      · exact absurd h1 hcurAB.2
      · exfalso
        exact h.rep.disj i j hi hj (Ne.symm h2) k hcur h3
    · rw [(hmeta k hkc).1, (hmeta k hkc).2.1]
      exact h.home j hj k (hold j k hj hk hkc)
  · intro k
    rw [← h.linked k]
    constructor
    · rintro ⟨j, hj, hk⟩
      by_cases hkc : k = cur
      · exact ⟨i, hi, hkc ▸ hcur⟩
      · exact ⟨j, hj, hold j k hj hk hkc⟩
    · rintro ⟨j, hj, hk⟩
      by_cases hkc : k = cur
      · exact ⟨_, hx, (hmem _ k).mpr (Or.inl ⟨rfl, Or.inl hkc⟩)⟩
      · refine ⟨j, hj, (hmem j k).mpr ?_⟩
        by_cases h1 : j = buf_hash dev blockno
        · exact Or.inl ⟨h1, Or.inr (h1 ▸ hk)⟩
        · by_cases h2 : j = i
          · subst h2
            refine Or.inr (Or.inl ⟨rfl, hk, ?_⟩)
            rw [hL] at hk
            simp only [List.mem_append, List.mem_cons] at hk
            tauto
          · exact Or.inr (Or.inr ⟨h1, h2, hk⟩)
  · intro k hk
    have hkc : k ≠ cur := by
      intro e
      exact hk _ hx ((hmem _ k).mpr (Or.inl ⟨rfl, Or.inl e⟩))
    rw [(hmeta k hkc).2.2.1, (hmeta k hkc).2.2.2]
    apply h.idle k
    intro j hj hkj
    apply hk j hj
    refine (hmem j k).mpr ?_
    by_cases h1 : j = buf_hash dev blockno
    · exact Or.inl ⟨h1, Or.inr (h1 ▸ hkj)⟩
    · by_cases h2 : j = i
      · subst h2
        refine Or.inr (Or.inl ⟨rfl, hkj, ?_⟩)
        rw [hL] at hkj
        simp only [List.mem_append, List.mem_cons] at hkj
        tauto
      · exact Or.inr (Or.inr ⟨h1, h2, hkj⟩)
  · -- the relation is kept between buffers other than `cur`
    have hkeep : ∀ a x, a ≠ cur → x ≠ cur → Shadows s a x →
        Shadows (stolen s dev blockno (buf_hash dev blockno) i A cur) a x := by
      intro a x ha hxc hR hS
      rw [(hmeta x hxc).2.2.1, (hmeta x hxc).2.2.2]
      apply hR
      have h1 := hS.1
      have h2 := hS.2
      rw [(hmeta a ha).1, (hmeta x hxc).1] at h1
      rw [(hmeta a ha).2.1, (hmeta x hxc).2.1] at h2
      exact ⟨h1, h2⟩
    intro j hj
    by_cases h1 : j = buf_hash dev blockno
    · subst h1
      have e : stolenLists Ls (buf_hash dev blockno) i A cur B (buf_hash dev blockno) =
          cur :: Ls (buf_hash dev blockno) := by simp [stolenLists]
      rw [e]
      refine List.pairwise_cons.mpr ⟨?_, ?_⟩
      · intro x hxm hS
        exfalso
        have hxc : x ≠ cur := fun e => hcurx (e ▸ hxm)
        apply hnc x hxm
        have h1 := hS.1
        have h2 := hS.2
        rw [hcb, (hmeta x hxc).1] at h1
        rw [hcb, (hmeta x hxc).2.1] at h2
        exact ⟨h1.symm, h2.symm⟩
      · refine (h.shadow _ hj).imp_of_mem ?_
        intro a x ha hxm hR
        exact hkeep a x (fun e => hcurx (e ▸ ha)) (fun e => hcurx (e ▸ hxm)) hR
    · by_cases h2 : j = i
      · subst h2
        have e : stolenLists Ls (buf_hash dev blockno) j A cur B j = A ++ B := by
          simp [stolenLists, h1]
        rw [e]
        have hsub : (A ++ B).Sublist (A ++ cur :: B) :=
          List.Sublist.append_left (List.sublist_cons_self cur B) A
        have hp : (A ++ B).Pairwise (Shadows s) := (hL ▸ h.shadow j hj).sublist hsub
        refine hp.imp_of_mem ?_
        intro a x ha hxm hR
        have hne1 : ∀ y, y ∈ A ++ B → y ≠ cur := by
          intro y hy e
          subst e
          rcases List.mem_append.mp hy with h3 | h3
          · exact hcurAB.1 h3
          · exact hcurAB.2 h3
        exact hkeep a x (hne1 a ha) (hne1 x hxm) hR
      · have e : stolenLists Ls (buf_hash dev blockno) i A cur B j = Ls j := by
          simp [stolenLists, h1, h2]
        rw [e]
        refine (h.shadow j hj).imp_of_mem ?_
        intro a x ha hxm hR
        have hne1 : ∀ y, y ∈ Ls j → y ≠ cur := by
          intro y hy e
          subst e
          exact h.rep.disj i j hi hj (Ne.symm h2) y hcur hy
        exact hkeep a x (hne1 a ha) (hne1 x hxm) hR

/-- A returning `bget` keeps the invariant, and the buffer it returns is the first of
its home list to carry `(dev, blockno)`. -/
theorem bget_inv {s s1 : State} {Ls : Nat → List Nat} (h : CacheInv s Ls)
    {dev blockno b : Nat} (hg : bget dev blockno s = Outcome.ok b s1) :
    ∃ Ls1, CacheInv s1 Ls1 ∧
      (Ls1 (buf_hash dev blockno)).find? (fun x => is_cached dev blockno (s1.buf x)) = some b := by
  have hs := bget_spec h.rep dev blockno
  rw [hg] at hs
  cases hs with
  | hit _ hf =>
    obtain ⟨hl, hu⟩ := first_unshadowed h hf
    refine ⟨Ls, inv_update h b _ rfl rfl rfl hl hu, ?_⟩
    have hfun : (fun x => is_cached dev blockno
        ((s.setBuf b { s.buf b with refcnt := inc32 (s.buf b).refcnt }).buf x)) =
        (fun x => is_cached dev blockno (s.buf x)) := by
      funext x
      by_cases hx : x = b
      · subst hx
        simp [is_cached]
      · simp [hx]
    rw [hfun]
    exact hf
  | claimed _ hc hf =>
    obtain ⟨hm, _⟩ := find?_mem_pred hf
    refine ⟨Ls, inv_claim h dev blockno b hc hm, ?_⟩
    refine find?_first _ b hc hm ?_ ?_
    · simp [claim, is_cached]
    · intro x hx
      simp [claim, hx]
  | stole i A _ B hc hf hi hix hL hA hcur =>
    have hcb := stolen_buf_cur s dev blockno (buf_hash dev blockno) i A b hix
    refine ⟨_, inv_stolen h dev blockno i A b B hc hi hix hL, ?_⟩
    simp [stolenLists, List.find?, hcb, is_cached]

theorem bread_inv {s s2 : State} {Ls : Nat → List Nat} (h : CacheInv s Ls)
    {dev blockno b : Nat} (hg : bread dev blockno s = Outcome.ok b s2) :
    ∃ Ls1, CacheInv s2 Ls1 := by
  obtain ⟨s1, h1⟩ := bread_ok_inv hg
  obtain ⟨Ls1, hinv, hf⟩ := bget_inv h h1
  rw [bread_of_bget h1] at hg
  by_cases hv : (s1.buf b).valid = 0
  · rw [if_pos hv] at hg
    injection hg with _ e
    subst e
    obtain ⟨hl, hu⟩ := first_unshadowed hinv hf
    have hup := inv_update hinv b
      { s1.buf b with data := s1.disk (s1.buf b).dev (s1.buf b).blockno, valid := 1 }
      rfl rfl rfl hl hu
    refine ⟨Ls1, inv_congr ?_ ?_ hup⟩
    · funext k
      by_cases hk : k = b
      · subst hk
        simp [virtio_read_buf]
      · simp [virtio_read_buf, hk]
    · simp [virtio_heads]
  · rw [if_neg hv] at hg
    injection hg with _ e
    subst e
    exact ⟨Ls1, hinv⟩

/-- Every call that follows the discipline and returns keeps the invariant. -/
theorem op_inv {s s1 : State} {Ls : Nat → List Nat} (h : CacheInv s Ls) {op : Op}
    {r : Option Nat} (hl : op.legal s) (hrun : op.run s = Outcome.ok r s1) :
    ∃ Ls1, CacheInv s1 Ls1 := by
  cases op with
  | bget dev blockno =>
    simp only [Op.run] at hrun
    cases hb : bget dev blockno s with
    | diverged => rw [hb] at hrun; simp at hrun
    | panicked m s2 => rw [hb] at hrun; simp at hrun
    | ok b2 s2 =>
      rw [hb] at hrun
      injection hrun with h1 h2
      subst h2
      obtain ⟨Ls1, hi, _⟩ := bget_inv h hb
      exact ⟨Ls1, hi⟩
  | bread dev blockno =>
    simp only [Op.run] at hrun
    cases hb : bread dev blockno s with
    | diverged => rw [hb] at hrun; simp at hrun
    | panicked m s2 => rw [hb] at hrun; simp at hrun
    | ok b2 s2 =>
      rw [hb] at hrun
      injection hrun with h1 h2
      subst h2
      exact bread_inv h hb
  | bwrite b =>
    simp only [Op.run, bwrite] at hrun
    injection hrun with h1 h2
    subst h2
    exact ⟨Ls, inv_congr (virtio_write_buf b s) (virtio_heads b true s) h⟩
  | brelse b =>
    simp only [Op.run, brelse] at hrun
    injection hrun with h1 h2
    subst h2
    obtain ⟨hk, hu⟩ := live_unshadowed h hl
    exact ⟨Ls, inv_update h b _ rfl rfl rfl hk hu⟩
  | bpin b =>
    simp only [Op.run, bpin] at hrun
    injection hrun with h1 h2
    subst h2
    obtain ⟨hk, hu⟩ := live_unshadowed h hl
    exact ⟨Ls, inv_update h b _ rfl rfl rfl hk hu⟩
  | bunpin b =>
    simp only [Op.run, bunpin] at hrun
    injection hrun with h1 h2
    subst h2
    obtain ⟨hk, hu⟩ := live_unshadowed h hl
    exact ⟨Ls, inv_update h b _ rfl rfl rfl hk hu⟩
  | store b d =>
    simp only [Op.run] at hrun
    injection hrun with h1 h2
    subst h2
    obtain ⟨hk, hu⟩ := live_unshadowed h hl
    exact ⟨Ls, inv_update h b _ rfl rfl rfl hk hu⟩

theorem binit_blockno (d : Nat → Nat → Block) (i : Nat) (hi : i < NBUCKETS) (b : Nat)
    (hb : b ∈ binitLists i) : ((binit d).buf b).blockno = i := by
  have hi' : i < 13 := hi
  simp only [binitLists, List.mem_cons, List.mem_singleton, List.not_mem_nil, or_false] at hb
  interval_cases i <;> rcases hb with e | e <;> subst e <;> rfl

theorem binit_inv (d : Nat → Nat → Block) : CacheInv (binit d) binitLists := by
  refine ⟨binit_rep d, ?_, ?_, ?_, ?_⟩
  · intro i hi b hb
    rw [binit_blockno d i hi b hb, (binit_buf_meta d b).2.2]
    have hi' : i < 13 := hi
    interval_cases i <;> rfl
  · intro b
    constructor
    · rintro ⟨i, hi, hb⟩
      have hi' : i < 13 := hi
      simp only [binitLists, List.mem_cons, List.mem_singleton, List.not_mem_nil, or_false] at hb
      show b < 26
      omega
    · intro hb
      have hb' : b < 26 := hb
      refine ⟨b / 2, ?_, ?_⟩
      · show b / 2 < 13
        omega
      · simp only [binitLists, List.mem_cons, List.mem_singleton, List.not_mem_nil, or_false]
        omega
  · intro b _
    exact ⟨(binit_buf_meta d b).2.1, (binit_buf_meta d b).1⟩
  · intro i hi
    apply pairwise_of_mem
    intro a x _ _ _
    exact ⟨(binit_buf_meta d x).2.1, (binit_buf_meta d x).1⟩

theorem reachable_inv {s : State} (h : Reachable s) : ∃ Ls, CacheInv s Ls := by
  induction h with
  | init d => exact ⟨_, binit_inv d⟩
  | step _ hl hrun ih =>
    obtain ⟨Ls, hi⟩ := ih
    exact op_inv hi hl hrun

/-- Form of the invariant over the lists read off the state. -/
theorem inv_bucketList {s : State} {Ls : Nat → List Nat} (h : CacheInv s Ls) :
    CacheInv s (bucketList s) := by
  have e : ∀ i, i < NBUCKETS → bucketList s i = Ls i := fun i hi => rep_bucketList h.rep i hi
  refine ⟨wellFormed_of_rep h.rep, ?_, ?_, ?_, ?_⟩
  · intro i hi b hb
    rw [e i hi] at hb
    exact h.home i hi b hb
  · intro b
    rw [← h.linked b]
    constructor
    · rintro ⟨i, hi, hb⟩
      exact ⟨i, hi, e i hi ▸ hb⟩
    · rintro ⟨i, hi, hb⟩
      exact ⟨i, hi, (e i hi).symm ▸ hb⟩
  · intro b hb
    apply h.idle b
    intro i hi hm
    exact hb i hi ((e i hi).symm ▸ hm)
  · intro i hi
    rw [e i hi]
    exact h.shadow i hi

theorem link_congr {s s1 : State} {Ls : Nat → List Nat} (hb : s1.buf = s.buf)
    (hh : s1.heads = s.heads) (h : LinkInv s Ls) : LinkInv s1 Ls := by
  refine ⟨rep_congr (fun k => by rw [hb]) hh h.rep, ?_, h.linked⟩
  intro i hi b hm
  rw [hb]
  exact h.home i hi b hm

theorem link_update {s : State} {Ls : Nat → List Nat} (h : LinkInv s Ls) (b : Nat) (v : Buf)
    (hn : v.next = (s.buf b).next) (hd : v.dev = (s.buf b).dev)
    (hb : v.blockno = (s.buf b).blockno) : LinkInv (s.setBuf b v) Ls := by
  refine ⟨rep_setBuf b v hn h.rep, ?_, h.linked⟩
  intro i hi k hk
  by_cases hkb : k = b
  · subst hkb
    simp only [setBuf_buf, if_true, hd, hb]
    exact h.home i hi k hk
  · simp only [setBuf_buf, hkb, if_false]
    exact h.home i hi k hk

theorem link_claim {s : State} {Ls : Nat → List Nat} (h : LinkInv s Ls) (dev blockno b : Nat)
    (hm : b ∈ Ls (buf_hash dev blockno)) : LinkInv (claim s b dev blockno) Ls := by
  have hx := buf_hash_lt dev blockno
  refine ⟨rep_setBuf b _ rfl h.rep, ?_, h.linked⟩
  intro i hi k hk
  by_cases hkb : k = b
  · subst hkb
    simp only [claim, setBuf_buf, if_true]
    by_contra hne
    exact h.rep.disj i _ hi hx (fun e => hne e.symm) k hk hm
  · simp only [claim, setBuf_buf, hkb, if_false]
    exact h.home i hi k hk

theorem link_stolen {s : State} {Ls : Nat → List Nat} (h : LinkInv s Ls) (dev blockno i : Nat)
    (A : List Nat) (cur : Nat) (B : List Nat)
    (hi : i < NBUCKETS) (hne : i ≠ buf_hash dev blockno) (hL : Ls i = A ++ cur :: B) :
    LinkInv (stolen s dev blockno (buf_hash dev blockno) i A cur)
      (stolenLists Ls (buf_hash dev blockno) i A cur B) := by
  have hx := buf_hash_lt dev blockno
  have hcb := stolen_buf_cur s dev blockno (buf_hash dev blockno) i A cur hne
  have hmeta := stolen_meta s dev blockno (buf_hash dev blockno) i A cur
  have hmem := mem_stolenLists Ls (buf_hash dev blockno) i A cur B hL hne
  have hcur : cur ∈ Ls i := by
    rw [hL]
    simp
  have hnd : (A ++ cur :: B).Nodup := hL ▸ h.rep.nodup i hi
  have hcurAB : cur ∉ A ∧ cur ∉ B := by
    have h1 := List.nodup_append.mp hnd
    exact ⟨fun hA => h1.2.2 hA (List.mem_cons_self cur B), (List.nodup_cons.mp h1.2.1).1⟩
  have hold : ∀ j k, j < NBUCKETS → k ∈ stolenLists Ls (buf_hash dev blockno) i A cur B j →
      k ≠ cur → k ∈ Ls j := by
    intro j k _ hk hkc
    rcases (hmem j k).mp hk with ⟨e, h1 | h1⟩ | ⟨e, h1, _⟩ | ⟨_, _, h1⟩
    · exact absurd h1 hkc
    · exact e ▸ h1
    · exact e ▸ h1
    · exact h1
  have hrep := stolen_rep s Ls dev blockno _ i A cur B h.rep hi hx hne hL
  refine ⟨hrep, ?_, ?_⟩
  · intro j hj k hk
    by_cases hkc : k = cur
    · subst hkc
      rw [hcb]
      show buf_hash dev blockno = j
      rcases (hmem j k).mp hk with ⟨e, _⟩ | ⟨_, _, h1 | h1⟩ | ⟨h1, h2, h3⟩
      · exact e.symm
      · exact absurd h1 hcurAB.1
      · exact absurd h1 hcurAB.2
      · exfalso
        exact h.rep.disj i j hi hj (Ne.symm h2) k hcur h3
    · rw [(hmeta k hkc).1, (hmeta k hkc).2.1]
      exact h.home j hj k (hold j k hj hk hkc)
  · intro k
    rw [← h.linked k]
    constructor
    · rintro ⟨j, hj, hk⟩
      by_cases hkc : k = cur
      · exact ⟨i, hi, hkc ▸ hcur⟩
      · exact ⟨j, hj, hold j k hj hk hkc⟩
    · rintro ⟨j, hj, hk⟩
      by_cases hkc : k = cur
      · exact ⟨_, hx, (hmem _ k).mpr (Or.inl ⟨rfl, Or.inl hkc⟩)⟩
      · refine ⟨j, hj, (hmem j k).mpr ?_⟩
        by_cases h1 : j = buf_hash dev blockno
        · exact Or.inl ⟨h1, Or.inr (h1 ▸ hk)⟩
        · by_cases h2 : j = i
          · subst h2
            refine Or.inr (Or.inl ⟨rfl, hk, ?_⟩)
            rw [hL] at hk
            simp only [List.mem_append, List.mem_cons] at hk
            tauto
          · exact Or.inr (Or.inr ⟨h1, h2, hk⟩)

theorem bget_link {s s1 : State} {Ls : Nat → List Nat} (h : LinkInv s Ls)
    {dev blockno b : Nat} (hg : bget dev blockno s = Outcome.ok b s1) :
    ∃ Ls1, LinkInv s1 Ls1 := by
  have hs := bget_spec h.rep dev blockno
  rw [hg] at hs
  cases hs with
  | hit _ hf => exact ⟨Ls, link_update h b _ rfl rfl rfl⟩
  | claimed _ hc hf => exact ⟨Ls, link_claim h dev blockno b (find?_mem_pred hf).1⟩
  | stole i A _ B hc hf hi hix hL hA hcur => exact ⟨_, link_stolen h dev blockno i A b B hi hix hL⟩

theorem bread_link {s s2 : State} {Ls : Nat → List Nat} (h : LinkInv s Ls)
    {dev blockno b : Nat} (hg : bread dev blockno s = Outcome.ok b s2) :
    ∃ Ls1, LinkInv s2 Ls1 := by
  obtain ⟨s1, h1⟩ := bread_ok_inv hg
  obtain ⟨Ls1, hinv⟩ := bget_link h h1
  rw [bread_of_bget h1] at hg
  by_cases hv : (s1.buf b).valid = 0
  · rw [if_pos hv] at hg
    injection hg with _ e
    subst e
    have hup := link_update hinv b
      { s1.buf b with data := s1.disk (s1.buf b).dev (s1.buf b).blockno, valid := 1 }
      rfl rfl rfl
    refine ⟨Ls1, link_congr ?_ ?_ hup⟩
    · funext k
      by_cases hk : k = b
      · subst hk
        simp [virtio_read_buf]
      · simp [virtio_read_buf, hk]
    · simp [virtio_heads]
  · rw [if_neg hv] at hg
    injection hg with _ e
    subst e
    exact ⟨Ls1, hinv⟩

/-- Every call that returns keeps the links of the cache, whether or not it follows the
calling discipline. -/
theorem op_link {s s1 : State} {Ls : Nat → List Nat} (h : LinkInv s Ls) {op : Op}
    {r : Option Nat} (hrun : op.run s = Outcome.ok r s1) : ∃ Ls1, LinkInv s1 Ls1 := by
  cases op with
  | bget dev blockno =>
    simp only [Op.run] at hrun
    cases hb : bget dev blockno s with
    | diverged => rw [hb] at hrun; simp at hrun
    | panicked m s2 => rw [hb] at hrun; simp at hrun
    | ok b2 s2 =>
      rw [hb] at hrun
      injection hrun with h1 h2
      subst h2
      exact bget_link h hb
  | bread dev blockno =>
    simp only [Op.run] at hrun
    cases hb : bread dev blockno s with
    | diverged => rw [hb] at hrun; simp at hrun
    | panicked m s2 => rw [hb] at hrun; simp at hrun
    | ok b2 s2 =>
      rw [hb] at hrun
      injection hrun with h1 h2
      subst h2
      exact bread_link h hb
  | bwrite b =>
    simp only [Op.run, bwrite] at hrun
    injection hrun with h1 h2
    subst h2
    exact ⟨Ls, link_congr (virtio_write_buf b s) (virtio_heads b true s) h⟩
  | brelse b =>
    simp only [Op.run, brelse] at hrun
    injection hrun with h1 h2
    subst h2
    exact ⟨Ls, link_update h b _ rfl rfl rfl⟩
  | bpin b =>
    simp only [Op.run, bpin] at hrun
    injection hrun with h1 h2
    subst h2
    exact ⟨Ls, link_update h b _ rfl rfl rfl⟩
  | bunpin b =>
    simp only [Op.run, bunpin] at hrun
    injection hrun with h1 h2
    subst h2
    exact ⟨Ls, link_update h b _ rfl rfl rfl⟩
  | store b d =>
    simp only [Op.run] at hrun
    injection hrun with h1 h2
    subst h2
    exact ⟨Ls, link_update h b _ rfl rfl rfl⟩

theorem runOps_link : ∀ (ops : List Op) (s : State) (Ls : Nat → List Nat), LinkInv s Ls →
    ∃ Ls1, LinkInv (runOps ops s) Ls1
  | [], _, Ls, h => ⟨Ls, h⟩
  | op :: ops, s, Ls, h => by
    simp only [runOps]
    cases hrun : op.run s with
    | diverged => exact ⟨Ls, h⟩
    | panicked m s1 => exact ⟨Ls, h⟩
    | ok r s1 =>
      obtain ⟨Ls1, h1⟩ := op_link h hrun
      exact runOps_link ops s1 Ls1 h1

theorem binit_link_inv (d : Nat → Nat → Block) : LinkInv (binit d) binitLists :=
  ⟨(binit_inv d).rep, (binit_inv d).home, (binit_inv d).linked⟩

/-- Form of the link invariant over the lists read off the state. -/
theorem link_bucketList {s : State} {Ls : Nat → List Nat} (h : LinkInv s Ls) :
    LinkInv s (bucketList s) := by
  have e : ∀ i, i < NBUCKETS → bucketList s i = Ls i := fun i hi => rep_bucketList h.rep i hi
  refine ⟨wellFormed_of_rep h.rep, ?_, ?_⟩
  · intro i hi b hb
    rw [e i hi] at hb
    exact h.home i hi b hb
  · intro b
    rw [← h.linked b]
    constructor
    · rintro ⟨i, hi, hb⟩
      exact ⟨i, hi, e i hi ▸ hb⟩
    · rintro ⟨i, hi, hb⟩
      exact ⟨i, hi, (e i hi).symm ▸ hb⟩

theorem runOps_binit_link (d : Nat → Nat → Block) (ops : List Op) :
    LinkInv (runOps ops (binit d)) (bucketList (runOps ops (binit d))) := by
  obtain ⟨Ls, h⟩ := runOps_link ops (binit d) binitLists (binit_link_inv d)
  exact link_bucketList h

theorem steal_scan_ends {buf : Nat → Buf} :
    ∀ (L : List Nat) (fuel : Nat) (prev p : Option Nat), IsChain buf p L → L.length ≤ fuel →
      steal_scan buf fuel prev p ≠ StealScan.fuel_out
  | [], fuel, prev, p, h, _ => by
    have h' : p = none := h
    subst h'
    cases fuel <;> simp [steal_scan]
  | b :: L, 0, _, _, _, hl => by simp at hl
  | b :: L, fuel + 1, prev, p, h, hl => by
    obtain ⟨hp, hL⟩ := h
    subst hp
    have hl' : L.length ≤ fuel := by simpa using hl
    simp only [steal_scan]
    split
    · simp
    · exact steal_scan_ends L fuel _ _ hL hl'

theorem steal_events_check {s : State} {Ls : Nat → List Nat} (hr : Rep s Ls) (index : Nat) :
    ∀ is : List Nat, (∀ i, i ∈ is → i < NBUCKETS) →
      ∃ tr, steal_events s index is = some tr ∧ Locks.check [] tr = true
  | [], _ => ⟨[], rfl, rfl⟩
  | i :: is, hlt => by
    have hlt' : ∀ j, j ∈ is → j < NBUCKETS := fun j hj => hlt j (List.mem_cons_of_mem i hj)
    have hi : i < NBUCKETS := hlt i (List.mem_cons_self i is)
    obtain ⟨tr, h1, h2⟩ := steal_events_check hr index is hlt'
    by_cases hix : i = index
    · refine ⟨tr, ?_, h2⟩
      simp only [steal_events, hix, if_true]
      exact hix ▸ h1
    · have hne := steal_scan_ends (Ls i) FUEL none _ (hr.chain i hi) (rep_length hr i hi)
      simp only [steal_events, hix, if_false]
      cases hsc : steal_scan s.buf FUEL none (s.heads i) with
      | fuel_out => exact absurd hsc hne
      | miss =>
        refine ⟨Locks.Event.acquire i :: Locks.Event.release i :: tr, by simp only [h1], ?_⟩
        rw [Locks.check_pair]
        exact h2
      | found prev cur =>
        refine ⟨_, rfl, ?_⟩
        simp [Locks.check, Locks.step]

theorem bget_events_check {s : State} {Ls : Nat → List Nat} (hr : Rep s Ls)
    (dev blockno : Nat) :
    ∃ tr, bget_events dev blockno s = some tr ∧ Locks.check [] tr = true := by
  have hh := buf_hash_lt dev blockno
  unfold bget_events
  simp only []
  rw [scan_spec _ _ FUEL _ (hr.chain _ hh) (rep_length hr _ hh)]
  cases h1 : (Ls (buf_hash dev blockno)).find? (fun b => is_cached dev blockno (s.buf b)) with
  | some b =>
    refine ⟨_, rfl, ?_⟩
    simp [Locks.check, Locks.step]
  | none =>
    simp only []
    rw [scan_spec _ _ FUEL _ (hr.chain _ hh) (rep_length hr _ hh)]
    cases h2 : (Ls (buf_hash dev blockno)).find? (fun b => is_free (s.buf b)) with
    | some b =>
      refine ⟨_, rfl, ?_⟩
      simp [Locks.check, Locks.step]
    | none =>
      simp only []
      obtain ⟨tr, h3, h4⟩ := steal_events_check hr (buf_hash dev blockno) (List.range NBUCKETS)
        (fun i hi => List.mem_range.mp hi)
      rw [h3]
      refine ⟨_, rfl, ?_⟩
      rw [Locks.check_pair]
      exact h4

theorem brelse_events_check (holding : Bool) (b : Nat) (s : State) :
    Locks.check [] (brelse_events holding b s) = true := by
  cases holding <;> simp [brelse_events, Locks.check, Locks.step]

/-- The lock events of the third step of `bget` agree with its run: the scan that does not
end gives no event list, a run that finds no free buffer never calls `acquiresleep`, and a
run that steals buffer `b` calls `acquiresleep` on `b` and on no other buffer. -/
theorem steal_events_agree (s : State) (dev blockno index : Nat) : ∀ is : List Nat,
    match steal s dev blockno index is with
    | Steal.fuel_out => steal_events s index is = none
    | Steal.miss => ∃ tr, steal_events s index is = some tr ∧
        ∀ x, Locks.Event.acquiresleep x ∉ tr
    | Steal.found b _ => ∃ tr, steal_events s index is = some tr ∧
        ∀ x, Locks.Event.acquiresleep x ∈ tr ↔ x = b
  | [] => ⟨[], rfl, fun x hx => by simp at hx⟩
  | i :: is => by
    have ih := steal_events_agree s dev blockno index is
    by_cases hix : i = index
    · simp only [steal, steal_events, hix, if_true]
      exact ih
    · simp only [steal, steal_events, hix, if_false]
      cases hsc : steal_scan s.buf FUEL none (s.heads i) with
      | fuel_out => simp
      | found prev cur =>
        refine ⟨_, rfl, ?_⟩
        intro x
        simp
      | miss =>
        simp only []
        cases hst : steal s dev blockno index is with
        | fuel_out =>
          rw [hst] at ih
          simp only [] at ih
          simp [ih]
        | miss =>
          rw [hst] at ih
          obtain ⟨tr, h1, h2⟩ := ih
          refine ⟨Locks.Event.acquire i :: Locks.Event.release i :: tr, by simp [h1], ?_⟩
          intro x hx
          simp only [List.mem_cons] at hx
          rcases hx with hx | hx | hx
          · cases hx
          · cases hx
          · exact h2 x hx
        | found b s1 =>
          rw [hst] at ih
          obtain ⟨tr, h1, h2⟩ := ih
          refine ⟨Locks.Event.acquire i :: Locks.Event.release i :: tr, by simp [h1], ?_⟩
          intro x
          rw [← h2 x]
          simp

/-- The lock events of `bget` agree with its run: a run that returns buffer `b` calls
`acquiresleep` on `b` and on no other buffer, a run that stops in `panic` calls it on
none, and a run that does not end has no event list. -/
theorem bget_events_agree (dev blockno : Nat) (s : State) :
    match bget dev blockno s with
    | Outcome.diverged => bget_events dev blockno s = none
    | Outcome.panicked _ _ => ∃ tr, bget_events dev blockno s = some tr ∧
        ∀ x, Locks.Event.acquiresleep x ∉ tr
    | Outcome.ok b _ => ∃ tr, bget_events dev blockno s = some tr ∧
        ∀ x, Locks.Event.acquiresleep x ∈ tr ↔ x = b := by
  unfold bget bget_events
  simp only []
  cases h1 : scan s.buf (is_cached dev blockno) FUEL (s.heads (buf_hash dev blockno)) with
  | fuel_out => simp
  | found b =>
    refine ⟨_, rfl, ?_⟩
    intro x
    simp
  | miss =>
    simp only []
    cases h2 : scan s.buf is_free FUEL (s.heads (buf_hash dev blockno)) with
    | fuel_out => simp
    | found b =>
      refine ⟨_, rfl, ?_⟩
      intro x
      simp
    | miss =>
      simp only []
      have ih := steal_events_agree s dev blockno (buf_hash dev blockno) (List.range NBUCKETS)
      cases hst : steal s dev blockno (buf_hash dev blockno) (List.range NBUCKETS) with
      | fuel_out =>
        rw [hst] at ih
        simp only [] at ih
        simp [ih]
      | miss =>
        rw [hst] at ih
        obtain ⟨tr, h3, h4⟩ := ih
        refine ⟨Locks.Event.acquire (buf_hash dev blockno) ::
          Locks.Event.release (buf_hash dev blockno) :: tr, by simp [h3], ?_⟩
        intro x hx
        simp only [List.mem_cons] at hx
        rcases hx with hx | hx | hx
        · cases hx
        · cases hx
        · exact h4 x hx
      | found b s1 =>
        rw [hst] at ih
        obtain ⟨tr, h3, h4⟩ := ih
        refine ⟨Locks.Event.acquire (buf_hash dev blockno) ::
          Locks.Event.release (buf_hash dev blockno) :: tr, by simp [h3], ?_⟩
        intro x
        rw [← h4 x]
        simp

end Bio

/-! ## Lemmas on the page allocator -/

namespace Kalloc

theorem memset_outside (mem : Nat → Nat) (dst c n a : Nat) (h : a < dst ∨ dst + n ≤ a) :
    memset mem dst c n a = mem a := by
  unfold memset
  rw [if_neg]
  omega

theorem read64_congr {mem mem1 : Nat → Nat} (a : Nat)
    (h : ∀ k, k < 8 → mem1 (a + k) = mem (a + k)) : read64 mem1 a = read64 mem a := by
  unfold read64
  have h0 := h 0 (by norm_num)
  rw [Nat.add_zero] at h0
  rw [h0, h 1 (by norm_num), h 2 (by norm_num), h 3 (by norm_num), h 4 (by norm_num),
    h 5 (by norm_num), h 6 (by norm_num), h 7 (by norm_num)]

theorem read64_memset_other (mem : Nat → Nat) (r c a : Nat) (ha : a % PGSIZE = 0)
    (hr : r % PGSIZE = 0) (hne : a ≠ r) :
    read64 (memset mem r c PGSIZE) a = read64 mem a := by
  apply read64_congr
  intro k hk
  apply memset_outside
  unfold PGSIZE at *
  omega

theorem write64_outside (mem : Nat → Nat) (a v x : Nat) (h : x < a ∨ a + 8 ≤ x) :
    write64 mem a v x = mem x := by
  unfold write64
  rw [if_neg]
  omega

theorem read64_write64_other (mem : Nat → Nat) (pa v a : Nat) (ha : a % PGSIZE = 0)
    (hp : pa % PGSIZE = 0) (hne : a ≠ pa) :
    read64 (write64 mem pa v) a = read64 mem a := by
  apply read64_congr
  intro k hk
  apply write64_outside
  unfold PGSIZE at *
  omega

theorem write64_inside (mem : Nat → Nat) (a v k : Nat) (hk : k < 8) :
    write64 mem a v (a + k) = v / 2 ^ (8 * k) % 2 ^ 8 := by
  unfold write64
  rw [if_pos (by omega)]
  have : a + k - a = k := by omega
  rw [this]

theorem read64_write64_same (mem : Nat → Nat) (a v : Nat) (hv : v < 2 ^ 64) :
    read64 (write64 mem a v) a = v := by
  unfold read64
  have h0 := write64_inside mem a v 0 (by norm_num)
  rw [Nat.add_zero] at h0
  rw [h0, write64_inside mem a v 1 (by norm_num), write64_inside mem a v 2 (by norm_num),
    write64_inside mem a v 3 (by norm_num), write64_inside mem a v 4 (by norm_num),
    write64_inside mem a v 5 (by norm_num), write64_inside mem a v 6 (by norm_num),
    write64_inside mem a v 7 (by norm_num)]
  norm_num
  omega

theorem isFreeList_congr {mem mem1 : Nat → Nat} :
    ∀ (Lp : List Nat) (p : Nat), (∀ a, a ∈ Lp → read64 mem1 a = read64 mem a) →
      IsFreeList mem p Lp → IsFreeList mem1 p Lp
  | [], _, _, h => h
  | a :: Lp, p, hn, h => by
    obtain ⟨hp, ha, hL⟩ := h
    refine ⟨hp, ha, ?_⟩
    rw [hn a (List.mem_cons_self a Lp)]
    exact isFreeList_congr Lp _ (fun x hx => hn x (List.mem_cons_of_mem a hx)) hL

theorem isFreeList_head {mem : Nat → Nat} {p : Nat} {Lp : List Nat} (h : IsFreeList mem p Lp)
    (hp : p ≠ 0) : ∃ rest, Lp = p :: rest ∧ IsFreeList mem (read64 mem p) rest := by
  cases Lp with
  | nil => exact absurd h hp
  | cons a rest =>
    obtain ⟨h1, _, h3⟩ := h
    subst h1
    exact ⟨rest, rfl, h3⟩

theorem isFreeList_null {mem : Nat → Nat} {Lp : List Nat} (h : IsFreeList mem 0 Lp) :
    Lp = [] := by
  cases Lp with
  | nil => rfl
  | cons a rest =>
    obtain ⟨h1, h2, _⟩ := h
    exact absurd h1.symm h2

theorem kalloc_steal_cases (s : State) : ∀ is : List Nat,
    ((∀ i, i ∈ is → s.freelist i = 0) ∧ kalloc_steal s is = (0, s)) ∨
    ∃ i, i ∈ is ∧ s.freelist i ≠ 0 ∧ kalloc_steal s is = pop i s
  | [] => Or.inl ⟨by simp, rfl⟩
  | i :: is => by
    by_cases hi : s.freelist i = 0
    · have hst : kalloc_steal s (i :: is) = kalloc_steal s is := by
        simp [kalloc_steal, hi]
      rw [hst]
      rcases kalloc_steal_cases s is with ⟨h1, h2⟩ | ⟨j, hj, h⟩
      · left
        refine ⟨?_, h2⟩
        intro j hj
        rcases List.mem_cons.mp hj with e | hj'
        · rw [e]; exact hi
        · exact h1 j hj'
      · right
        exact ⟨j, List.mem_cons_of_mem i hj, h⟩
    · right
      exact ⟨i, List.mem_cons_self i is, hi, by simp [kalloc_steal, hi]⟩

theorem kalloc_cases (cpu : Nat) (hc : cpu < NCPU) (s : State) :
    ((∀ i, i < NCPU → s.freelist i = 0) ∧ kalloc cpu s = (0, s)) ∨
    ∃ i, i < NCPU ∧ s.freelist i ≠ 0 ∧ kalloc cpu s = pop i s := by
  by_cases h : s.freelist cpu = 0
  · have hk : kalloc cpu s = kalloc_steal s (List.range NCPU) := by
      simp [kalloc, h]
    rw [hk]
    rcases kalloc_steal_cases s (List.range NCPU) with ⟨h1, h2⟩ | ⟨j, hj, h⟩
    · left
      exact ⟨fun i hi => h1 i (List.mem_range.mpr hi), h2⟩
    · right
      exact ⟨j, List.mem_range.mp hj, h⟩
  · right
    exact ⟨cpu, hc, h, by simp [kalloc, h]⟩

theorem pop_fst (i : Nat) (s : State) : (pop i s).1 = s.freelist i := rfl

/-- Popping the head of a non-empty free list. -/
theorem pop_rep {s : State} {Ls : Nat → List Nat} (hr : FreeRep s Ls) (i : Nat)
    (hi : i < NCPU) (hne : s.freelist i ≠ 0) :
    ∃ rest, Ls i = s.freelist i :: rest ∧
      FreeRep (pop i s).2 (fun j => if j = i then rest else Ls j) := by
  obtain ⟨rest, hL, hrest⟩ := isFreeList_head (hr.chain i hi) hne
  refine ⟨rest, hL, ?_⟩
  have hri : s.freelist i ∈ Ls i := by rw [hL]; simp
  have hral := (hr.aligned i hi _ hri).1
  have hnd : (s.freelist i :: rest).Nodup := hL ▸ hr.nodup i hi
  have hrest_sub : ∀ p, p ∈ rest → p ∈ Ls i := by
    intro p hp
    rw [hL]
    exact List.mem_cons_of_mem _ hp
  have hframe : ∀ j, j < NCPU → ∀ Lp : List Nat, (∀ p, p ∈ Lp → p ∈ Ls j) →
      s.freelist i ∉ Lp → ∀ q, IsFreeList s.mem q Lp → IsFreeList (pop i s).2.mem q Lp := by
    intro j hj Lp hsub hnot q hq
    refine isFreeList_congr Lp q ?_ hq
    intro a ha
    have haal := (hr.aligned j hj a (hsub a ha)).1
    have hane : a ≠ s.freelist i := fun e => hnot (e ▸ ha)
    exact read64_memset_other s.mem _ 5 a haal hral hane
  constructor
  · intro j hj
    by_cases hji : j = i
    · subst hji
      simp only [if_true]
      have : (pop j s).2.freelist j = read64 s.mem (s.freelist j) := by simp [pop]
      rw [this]
      exact hframe j hj rest hrest_sub (List.nodup_cons.mp hnd).1 _ hrest
    · simp only [hji, if_false]
      have : (pop i s).2.freelist j = s.freelist j := by simp [pop, hji]
      rw [this]
      exact hframe j hj (Ls j) (fun _ h => h)
        (hr.disj i j hi hj (Ne.symm hji) _ hri) _ (hr.chain j hj)
  · intro j hj p hp
    by_cases hji : j = i
    · subst hji
      simp only [if_true] at hp
      exact hr.aligned j hj p (hrest_sub p hp)
    · simp only [hji, if_false] at hp
      exact hr.aligned j hj p hp
  · intro j hj
    by_cases hji : j = i
    · subst hji
      simp only [if_true]
      exact (List.nodup_cons.mp hnd).2
    · simp only [hji, if_false]
      exact hr.nodup j hj
  · intro j k hj hk hjk p hpj hpk
    have hpj' : p ∈ Ls j := by
      by_cases hji : j = i
      · subst hji
        simp only [if_true] at hpj
        exact hrest_sub p hpj
      · simpa [hji] using hpj
    have hpk' : p ∈ Ls k := by
      by_cases hki : k = i
      · subst hki
        simp only [if_true] at hpk
        exact hrest_sub p hpk
      · simpa [hki] using hpk
    exact hr.disj j k hj hk hjk p hpj' hpk'

theorem freeCount_pop (Ls : Nat → List Nat) (i : Nat) (hi : i < NCPU) (r : Nat)
    (rest : List Nat) (hL : Ls i = r :: rest) :
    freeCount (fun j => if j = i then rest else Ls j) + 1 = freeCount Ls := by
  have hi' : i < 8 := hi
  have hlen : (Ls i).length = rest.length + 1 := by rw [hL]; rfl
  unfold freeCount NCPU
  simp only [List.range_succ, List.range_zero, List.nil_append, List.cons_append, List.map_cons,
    List.map_nil, List.sum_cons, List.sum_nil]
  interval_cases i <;> simp <;> omega

theorem boot16_rep : FreeRep boot16 boot16Lists := by
  constructor
  · intro i hi
    have hi' : i < 8 := hi
    interval_cases i <;> exact ⟨rfl, by decide, rfl, by decide, rfl⟩
  · intro i hi p hp
    have hi' : i < 8 := hi
    simp only [boot16Lists, hi', if_true, List.mem_cons, List.mem_singleton, List.not_mem_nil,
      or_false] at hp
    unfold PGSIZE
    omega
  · intro i hi
    have hi' : i < 8 := hi
    simp only [boot16Lists, hi', if_true]
    simp
  · intro i j hi hj hij p hp hq
    have hi' : i < 8 := hi
    have hj' : j < 8 := hj
    simp only [boot16Lists, hi', hj', if_true, List.mem_cons, List.mem_singleton,
      List.not_mem_nil, or_false] at hp hq
    omega

theorem kfree_of_valid (L : Layout) (pa : Nat) (s : State) (hv : ValidPage L pa) :
    kfree L pa s =
      if kfree_index L pa < 0 ∨ kfree_index L pa > 7 then
        Outcome.panicked PanicMsg.kfree_index { s with mem := memset s.mem pa 1 PGSIZE }
      else Outcome.ok () (pushed s (kfree_index L pa).toNat pa) := by
  obtain ⟨h1, h2, h3⟩ := hv
  have hc : ¬(pa % PGSIZE ≠ 0 ∨ pa < L.kend ∨ pa ≥ L.PHYSTOP) := by omega
  unfold kfree
  rw [if_neg hc]
  rfl

theorem kfree_of_invalid (L : Layout) (pa : Nat) (s : State) (hv : ¬ValidPage L pa) :
    kfree L pa s = Outcome.panicked PanicMsg.kfree s := by
  have hc : pa % PGSIZE ≠ 0 ∨ pa < L.kend ∨ pa ≥ L.PHYSTOP := by
    unfold ValidPage at hv
    omega
  unfold kfree
  rw [if_pos hc]

/-- What is known when `kfree` returns. -/
theorem kfree_ok_inv {L : Layout} {pa : Nat} {s s1 : State}
    (h : kfree L pa s = Outcome.ok () s1) :
    ValidPage L pa ∧ ∃ i, i < NCPU ∧ kfree_index L pa = (i : Int) ∧ s1 = pushed s i pa := by
  by_cases hv : ValidPage L pa
  · refine ⟨hv, ?_⟩
    rw [kfree_of_valid L pa s hv] at h
    by_cases hi : kfree_index L pa < 0 ∨ kfree_index L pa > 7
    · rw [if_pos hi] at h
      cases h
    · rw [if_neg hi] at h
      injection h with _ h2
      refine ⟨(kfree_index L pa).toNat, ?_, ?_, h2.symm⟩
      · show (kfree_index L pa).toNat < 8
        omega
      · omega
  · rw [kfree_of_invalid L pa s hv] at h
    cases h

/-- In a sane layout the index computed by `kfree` for a valid page is its shard. -/
theorem kfree_index_eq (L : Layout) (hL : L.WF) (pa : Nat) (hv : ValidPage L pa) :
    kfree_index L pa = (shard L pa : Int) ∧ shard L pa < NCPU := by
  obtain ⟨h0, h1, h2, h3, h4⟩ := hL
  obtain ⟨_, v2, v3⟩ := hv
  have hD : 0 < L.PHYSTOP - L.KERNBASE := by omega
  have e1 : sub64 pa L.KERNBASE = pa - L.KERNBASE := by
    unfold sub64 u64
    omega
  have e2 : sub64 L.PHYSTOP L.KERNBASE = L.PHYSTOP - L.KERNBASE := by
    unfold sub64 u64
    omega
  have hx : (pa - L.KERNBASE) * NCPU < (L.PHYSTOP - L.KERNBASE) * NCPU := by
    apply Nat.mul_lt_mul_of_pos_right
    · omega
    · decide
  have e3 : u64 ((pa - L.KERNBASE) * NCPU) = (pa - L.KERNBASE) * NCPU := by
    unfold u64
    exact Nat.mod_eq_of_lt (by omega)
  have hq : shard L pa < NCPU := by
    unfold shard
    rw [Nat.div_lt_iff_lt_mul hD, Nat.mul_comm NCPU]
    exact hx
  refine ⟨?_, hq⟩
  unfold kfree_index
  rw [e1, e2, e3]
  have hq' : shard L pa < 8 := hq
  show toInt32 (shard L pa) = _
  unfold toInt32
  have : shard L pa % 2 ^ 32 = shard L pa := Nat.mod_eq_of_lt (by omega)
  rw [this, if_pos (by omega)]

theorem kfree_ok_of_valid (L : Layout) (hL : L.WF) (pa : Nat) (hv : ValidPage L pa)
    (s : State) : kfree L pa s = Outcome.ok () (pushed s (shard L pa) pa) ∧ shard L pa < NCPU := by
  obtain ⟨hi, hlt⟩ := kfree_index_eq L hL pa hv
  have hlt' : shard L pa < 8 := hlt
  rw [kfree_of_valid L pa s hv, hi, if_neg (by omega)]
  exact ⟨rfl, hlt⟩

/-- Lists made of other aligned pages are not touched by a push of page `pa`. -/
theorem pushed_frame (s : State) (i pa : Nat) (hpa : pa % PGSIZE = 0) (Lp : List Nat) (q : Nat)
    (hLp : ∀ p, p ∈ Lp → p % PGSIZE = 0 ∧ p ≠ pa) (h : IsFreeList s.mem q Lp) :
    IsFreeList (pushed s i pa).mem q Lp := by
  refine isFreeList_congr Lp q ?_ h
  intro a ha
  obtain ⟨h1, h2⟩ := hLp a ha
  show read64 (write64 (memset s.mem pa 1 PGSIZE) pa (s.freelist i)) a = read64 s.mem a
  rw [read64_write64_other _ pa _ a h1 hpa h2, read64_memset_other _ pa 1 a h1 hpa h2]

theorem pushed_next (s : State) (i pa : Nat) (hptr : s.freelist i < 2 ^ 64) :
    read64 (pushed s i pa).mem pa = s.freelist i :=
  read64_write64_same _ pa _ hptr

theorem freeRep_head_lt {s : State} {Ls : Nat → List Nat} (hr : FreeRep s Ls) (i : Nat)
    (hi : i < NCPU) : s.freelist i < 2 ^ 64 := by
  have hch := hr.chain i hi
  by_cases h0 : s.freelist i = 0
  · rw [h0]; norm_num
  · obtain ⟨rest, hL, _⟩ := isFreeList_head hch h0
    exact (hr.aligned i hi _ (by rw [hL]; simp)).2

/-- Pushing a page that is on no free list. -/
theorem pushed_rep {s : State} {Ls : Nat → List Nat} (hr : FreeRep s Ls) (i pa : Nat)
    (hi : i < NCPU) (hal : pa % PGSIZE = 0) (hpa0 : pa ≠ 0) (hlt : pa < 2 ^ 64)
    (hfresh : ∀ j, j < NCPU → pa ∉ Ls j) :
    FreeRep (pushed s i pa) (fun j => if j = i then pa :: Ls i else Ls j) := by
  have hframe : ∀ j, j < NCPU → IsFreeList (pushed s i pa).mem (s.freelist j) (Ls j) := by
    intro j hj
    refine pushed_frame s i pa hal (Ls j) _ ?_ (hr.chain j hj)
    intro p hp
    exact ⟨(hr.aligned j hj p hp).1, fun e => hfresh j hj (e ▸ hp)⟩
  constructor
  · intro j hj
    by_cases hji : j = i
    · subst hji
      simp only [if_true]
      have h1 : (pushed s j pa).freelist j = pa := by simp [pushed]
      rw [h1]
      refine ⟨rfl, hpa0, ?_⟩
      rw [pushed_next s j pa (freeRep_head_lt hr j hj)]
      exact hframe j hj
    · simp only [hji, if_false]
      have h1 : (pushed s i pa).freelist j = s.freelist j := by simp [pushed, hji]
      rw [h1]
      exact hframe j hj
  · intro j hj p hp
    by_cases hji : j = i
    · subst hji
      simp only [if_true] at hp
      rcases List.mem_cons.mp hp with e | hp'
      · rw [e]; exact ⟨hal, hlt⟩
      · exact hr.aligned j hj p hp'
    · simp only [hji, if_false] at hp
      exact hr.aligned j hj p hp
  · intro j hj
    by_cases hji : j = i
    · subst hji
      simp only [if_true]
      exact List.nodup_cons.mpr ⟨hfresh j hj, hr.nodup j hj⟩
    · simp only [hji, if_false]
      exact hr.nodup j hj
  · intro j k hj hk hjk p hpj hpk
    by_cases hji : j = i
    · subst hji
      have hkj : ¬ (k = j) := fun e => hjk e.symm
      simp only [if_true] at hpj
      simp only [hkj, if_false] at hpk
      rcases List.mem_cons.mp hpj with e | hp'
      · exact hfresh k hk (e ▸ hpk)
      · exact hr.disj j k hj hk hjk p hp' hpk
    · simp only [hji, if_false] at hpj
      by_cases hki : k = i
      · subst hki
        simp only [if_true] at hpk
        rcases List.mem_cons.mp hpk with e | hp'
        · exact hfresh j hj (e ▸ hpj)
        · exact hr.disj j k hj hk hjk p hpj hp'
      · simp only [hki, if_false] at hpk
        exact hr.disj j k hj hk hjk p hpj hpk

theorem freerange_loop_rep (L : Layout) (hL : L.WF) (pa_end : Nat) :
    ∀ (fuel p : Nat) (s s1 : State) (Ls : Nat → List Nat), FreeRep s Ls → p % PGSIZE = 0 →
      (∀ i, i < NCPU → ∀ q, q ∈ Ls i → q < p) →
      freerange_loop L pa_end fuel p s = Outcome.ok () s1 → ∃ Ls1, FreeRep s1 Ls1
  | 0, _, _, _, _, _, _, _, h => by simp [freerange_loop] at h
  | fuel + 1, p, s, s1, Ls, hr, hal, hlt, h => by
    simp only [freerange_loop] at h
    by_cases hc : p + PGSIZE ≤ pa_end
    · rw [if_pos hc] at h
      cases hk : kfree L p s with
      | diverged => rw [hk] at h; simp at h
      | panicked m s2 => rw [hk] at h; simp at h
      | ok u s2 =>
        rw [hk] at h
        simp only [] at h
        obtain ⟨hv, i, hi, _, hs2⟩ := kfree_ok_inv hk
        subst hs2
        have hp0 : p ≠ 0 := by
          obtain ⟨h0, h1, _⟩ := hL
          obtain ⟨_, v2, _⟩ := hv
          omega
        have hp64 : p < 2 ^ 64 := by
          obtain ⟨_, _, _, h3, _⟩ := hL
          obtain ⟨_, _, v3⟩ := hv
          omega
        have hfresh : ∀ j, j < NCPU → p ∉ Ls j := by
          intro j hj hm
          exact absurd (hlt j hj p hm) (lt_irrefl p)
        have hr2 := pushed_rep hr i p hi hal hp0 hp64 hfresh
        refine freerange_loop_rep L hL pa_end fuel (p + PGSIZE) _ s1 _ hr2 ?_ ?_ h
        · unfold PGSIZE at *
          omega
        · intro j hj q hq
          by_cases hji : j = i
          · subst hji
            simp only [if_true] at hq
            rcases List.mem_cons.mp hq with e | hq'
            · rw [e]; unfold PGSIZE; omega
            · have := hlt j hj q hq'
              omega
          · simp only [hji, if_false] at hq
            have := hlt j hj q hq
            omega
    · rw [if_neg hc] at h
      injection h with _ h2
      subst h2
      exact ⟨Ls, hr⟩

theorem kinit_rep (L : Layout) (hL : L.WF) (mem0 : Nat → Nat) (s : State)
    (h : kinit L mem0 = Outcome.ok () s) : ∃ Ls, FreeRep s Ls := by
  unfold kinit freerange at h
  refine freerange_loop_rep L hL _ _ _ _ s (fun _ => []) ?_ ?_ ?_ h
  · constructor
    · intro i _; rfl
    · intro i _ p hp; simp at hp
    · intro i _; simp
    · intro i j _ _ _ p hp; simp at hp
  · unfold PGROUNDUP
    exact Nat.mul_mod_left _ _
  · intro i _ q hq
    simp at hq

theorem allocInv_kalloc {s : State} {A : List Nat} {Ls : Nat → List Nat}
    (h : AllocInv s A Ls) (cpu : Nat) (hc : cpu < NCPU) :
    ((kalloc cpu s).1 = 0 ∧ (kalloc cpu s).2 = s) ∨
    ((kalloc cpu s).1 ≠ 0 ∧ (kalloc cpu s).1 ∉ A ∧
      ∃ Ls1, AllocInv (kalloc cpu s).2 ((kalloc cpu s).1 :: A) Ls1) := by
  rcases kalloc_cases cpu hc s with ⟨_, hk⟩ | ⟨i, hi, hne, hk⟩
  · left
    rw [hk]
    exact ⟨rfl, rfl⟩
  · right
    rw [hk]
    obtain ⟨rest, hL, hrep⟩ := pop_rep h.rep i hi hne
    have hri : s.freelist i ∈ Ls i := by rw [hL]; simp
    have hnd : (s.freelist i :: rest).Nodup := hL ▸ h.rep.nodup i hi
    refine ⟨hne, h.sep i hi _ hri, _, hrep, ?_, ?_, ?_⟩
    · intro j hj p hp hmem
      have hpj : p ∈ Ls j := by
        by_cases hji : j = i
        · subst hji
          simp only [if_true] at hp
          rw [hL]
          exact List.mem_cons_of_mem _ hp
        · simpa [hji] using hp
      rcases List.mem_cons.mp hmem with e | hA
      · have e : p = s.freelist i := e
        subst e
        by_cases hji : j = i
        · subst hji
          simp only [if_true] at hp
          exact (List.nodup_cons.mp hnd).1 hp
        · exact h.rep.disj i j hi hj (Ne.symm hji) _ hri hpj
      · exact h.sep j hj p hpj hA
    · intro p hp
      rcases List.mem_cons.mp hp with e | hA
      · rw [e]
        exact ⟨(h.rep.aligned i hi _ hri).1, hne, (h.rep.aligned i hi _ hri).2⟩
      · exact h.pages p hA
    · exact List.nodup_cons.mpr ⟨h.sep i hi _ hri, h.nodup⟩

theorem allocInv_kfree (L : Layout) {s s1 : State} {A : List Nat} {Ls : Nat → List Nat}
    (h : AllocInv s A Ls) {pa : Nat} (hpa : pa ∈ A) (hk : kfree L pa s = Outcome.ok () s1) :
    ∃ Ls1, AllocInv s1 (A.erase pa) Ls1 := by
  obtain ⟨_, i, hi, _, hs1⟩ := kfree_ok_inv hk
  subst hs1
  obtain ⟨hal, hp0, hp64⟩ := h.pages pa hpa
  have hfresh : ∀ j, j < NCPU → pa ∉ Ls j := fun j hj hm => h.sep j hj pa hm hpa
  refine ⟨_, pushed_rep h.rep i pa hi hal hp0 hp64 hfresh, ?_, ?_, h.nodup.erase pa⟩
  · intro j hj p hp hmem
    have hmem' := (List.Nodup.mem_erase_iff h.nodup).mp hmem
    by_cases hji : j = i
    · subst hji
      simp only [if_true] at hp
      rcases List.mem_cons.mp hp with e | hp'
      · exact hmem'.1 e
      · exact h.sep j hj p hp' hmem'.2
    · simp only [hji, if_false] at hp
      exact h.sep j hj p hp hmem'.2
  · intro p hp
    exact h.pages p (List.mem_of_mem_erase hp)

theorem allocInv_store {s : State} {A : List Nat} {Ls : Nat → List Nat}
    (h : AllocInv s A Ls) {pa : Nat} (hpa : pa ∈ A) (mem1 : Nat → Nat)
    (hm : ∀ a, a < pa ∨ pa + PGSIZE ≤ a → mem1 a = s.mem a) :
    AllocInv { s with mem := mem1 } A Ls := by
  obtain ⟨hal, _, _⟩ := h.pages pa hpa
  refine ⟨⟨?_, h.rep.aligned, h.rep.nodup, h.rep.disj⟩, h.sep, h.pages, h.nodup⟩
  intro i hi
  refine isFreeList_congr (Ls i) _ ?_ (h.rep.chain i hi)
  intro a ha
  have haal := (h.rep.aligned i hi a ha).1
  have hne : a ≠ pa := fun e => h.sep i hi a ha (e ▸ hpa)
  apply read64_congr
  intro k hk
  apply hm
  unfold PGSIZE at *
  omega

theorem reach_inv (L : Layout) (hL : L.WF) {s : State} {A : List Nat} (h : Reach L s A) :
    ∃ Ls, AllocInv s A Ls := by
  induction h with
  | init h0 =>
    obtain ⟨Ls, hr⟩ := kinit_rep L hL _ _ h0
    exact ⟨Ls, hr, fun _ _ _ _ hm => by simp at hm, fun _ hm => by simp at hm, List.nodup_nil⟩
  | @alloc s A cpu _ hc hne ih =>
    obtain ⟨Ls, hinv⟩ := ih
    rcases allocInv_kalloc hinv cpu hc with ⟨h0, _⟩ | ⟨_, _, h1⟩
    · exact absurd h0 hne
    · exact h1
  | @alloc_none s A cpu _ hc h0 ih =>
    obtain ⟨Ls, hinv⟩ := ih
    rcases allocInv_kalloc hinv cpu hc with ⟨_, h1⟩ | ⟨hne, _⟩
    · rw [h1]
      exact ⟨Ls, hinv⟩
    · exact absurd h0 hne
  | free _ hpa hk ih =>
    obtain ⟨Ls, hinv⟩ := ih
    exact allocInv_kfree L hinv hpa hk
  | store _ hpa hm ih =>
    obtain ⟨Ls, hinv⟩ := ih
    exact ⟨Ls, allocInv_store hinv hpa _ hm⟩

theorem pushed_fill (s : State) (i pa k : Nat) (h8 : 8 ≤ k) (hk : k < PGSIZE) :
    (pushed s i pa).mem (pa + k) = 1 := by
  show write64 (memset s.mem pa 1 PGSIZE) pa (s.freelist i) (pa + k) = 1
  rw [write64_outside _ _ _ _ (by omega)]
  unfold memset
  rw [if_pos (by omega)]

theorem pushed_low (s : State) (i pa k : Nat) (hk : k < 8) :
    (pushed s i pa).mem (pa + k) = s.freelist i / 2 ^ (8 * k) % 2 ^ 8 :=
  write64_inside _ pa _ k hk

/-- The index computed by `kfree` is in bounds as soon as the kernel image starts at
`KERNBASE` and addresses are 64-bit values. -/
theorem kfree_index_bounds (L : Layout) (h1 : L.KERNBASE ≤ L.kend) (h3 : L.PHYSTOP < 2 ^ 64)
    (pa : Nat) (hv : ValidPage L pa) :
    0 ≤ kfree_index L pa ∧ kfree_index L pa ≤ 7 := by
  obtain ⟨_, v2, v3⟩ := hv
  have hD : 0 < L.PHYSTOP - L.KERNBASE := by omega
  have e1 : sub64 pa L.KERNBASE = pa - L.KERNBASE := by
    unfold sub64 u64
    omega
  have e2 : sub64 L.PHYSTOP L.KERNBASE = L.PHYSTOP - L.KERNBASE := by
    unfold sub64 u64
    omega
  have hx : (pa - L.KERNBASE) * NCPU < NCPU * (L.PHYSTOP - L.KERNBASE) := by
    rw [Nat.mul_comm NCPU]
    apply Nat.mul_lt_mul_of_pos_right
    · omega
    · decide
  have hle : u64 ((pa - L.KERNBASE) * NCPU) ≤ (pa - L.KERNBASE) * NCPU := Nat.mod_le _ _
  have hq : u64 ((pa - L.KERNBASE) * NCPU) / (L.PHYSTOP - L.KERNBASE) < NCPU := by
    rw [Nat.div_lt_iff_lt_mul hD]
    omega
  have hq' : u64 ((pa - L.KERNBASE) * NCPU) / (L.PHYSTOP - L.KERNBASE) < 8 := hq
  unfold kfree_index
  rw [e1, e2]
  generalize u64 ((pa - L.KERNBASE) * NCPU) / (L.PHYSTOP - L.KERNBASE) = q at hq'
  unfold toInt32
  have : q % 2 ^ 32 = q := Nat.mod_eq_of_lt (by omega)
  rw [this, if_pos (by omega)]
  omega

theorem isFreeList_unique {mem : Nat → Nat} :
    ∀ (Lp Mp : List Nat) (p : Nat), IsFreeList mem p Lp → IsFreeList mem p Mp → Lp = Mp
  | [], [], _, _, _ => rfl
  | [], b :: Mp, p, h1, h2 => by
    have h1' : p = 0 := h1
    obtain ⟨h3, h4, _⟩ := h2
    exact absurd (h3.symm.trans h1') h4
  | a :: Lp, [], p, h1, h2 => by
    have h2' : p = 0 := h2
    obtain ⟨h3, h4, _⟩ := h1
    exact absurd (h3.symm.trans h2') h4
  | a :: Lp, b :: Mp, p, h1, h2 => by
    obtain ⟨ha, _, hL⟩ := h1
    obtain ⟨hb, _, hM⟩ := h2
    have hab : a = b := ha.symm.trans hb
    subst hab
    rw [isFreeList_unique Lp Mp _ hL hM]

theorem freeRep_unique {s : State} {Ls Ms : Nat → List Nat} (h1 : FreeRep s Ls)
    (h2 : FreeRep s Ms) (i : Nat) (hi : i < NCPU) : Ls i = Ms i :=
  isFreeList_unique _ _ _ (h1.chain i hi) (h2.chain i hi)

/-- `kalloc` takes the head of the list of its own CPU when there is one, and otherwise
the head of the first non-empty list. -/
theorem kalloc_first (cpu : Nat) (s : State) :
    (s.freelist cpu ≠ 0 → kalloc cpu s = pop cpu s) ∧
    (s.freelist cpu = 0 → ∀ i, i < NCPU → s.freelist i ≠ 0 →
      (∀ j, j < i → s.freelist j = 0) → kalloc cpu s = pop i s) := by
  constructor
  · intro h
    simp [kalloc, h]
  · intro h i hi hne hlow
    have hk : kalloc cpu s = kalloc_steal s [0, 1, 2, 3, 4, 5, 6, 7] := by
      simp [kalloc, h]
      rfl
    rw [hk]
    have hi' : i < 8 := hi
    interval_cases i
    · simp [kalloc_steal, hne]
    · simp [kalloc_steal, hne, hlow 0 (by norm_num)]
    · simp [kalloc_steal, hne, hlow 0 (by norm_num), hlow 1 (by norm_num)]
    · simp [kalloc_steal, hne, hlow 0 (by norm_num), hlow 1 (by norm_num),
        hlow 2 (by norm_num)]
    · simp [kalloc_steal, hne, hlow 0 (by norm_num), hlow 1 (by norm_num),
        hlow 2 (by norm_num), hlow 3 (by norm_num)]
    · simp [kalloc_steal, hne, hlow 0 (by norm_num), hlow 1 (by norm_num),
        hlow 2 (by norm_num), hlow 3 (by norm_num), hlow 4 (by norm_num)]
    · simp [kalloc_steal, hne, hlow 0 (by norm_num), hlow 1 (by norm_num),
        hlow 2 (by norm_num), hlow 3 (by norm_num), hlow 4 (by norm_num), hlow 5 (by norm_num)]
    · simp [kalloc_steal, hne, hlow 0 (by norm_num), hlow 1 (by norm_num),
        hlow 2 (by norm_num), hlow 3 (by norm_num), hlow 4 (by norm_num), hlow 5 (by norm_num),
        hlow 6 (by norm_num)]

theorem freerange_loop_home (L : Layout) (hL : L.WF) (pa_end : Nat) :
    ∀ (fuel p : Nat) (s s1 : State) (Ls : Nat → List Nat), FreeRep s Ls → p % PGSIZE = 0 →
      (∀ i, i < NCPU → ∀ q, q ∈ Ls i → q < p ∧ shard L q = i) →
      freerange_loop L pa_end fuel p s = Outcome.ok () s1 →
      ∃ Ls1, FreeRep s1 Ls1 ∧ ∀ i, i < NCPU → ∀ q, q ∈ Ls1 i → shard L q = i
  | 0, _, _, _, _, _, _, _, h => by simp [freerange_loop] at h
  | fuel + 1, p, s, s1, Ls, hr, hal, hlt, h => by
    simp only [freerange_loop] at h
    by_cases hc : p + PGSIZE ≤ pa_end
    · rw [if_pos hc] at h
      cases hk : kfree L p s with
      | diverged => rw [hk] at h; simp at h
      | panicked m s2 => rw [hk] at h; simp at h
      | ok u s2 =>
        rw [hk] at h
        simp only [] at h
        obtain ⟨hv, _⟩ := kfree_ok_inv hk
        obtain ⟨hk2, hsh⟩ := kfree_ok_of_valid L hL p hv s
        rw [hk2] at hk
        injection hk with _ hs2
        subst hs2
        have hp0 : p ≠ 0 := by
          obtain ⟨h0, h1, _⟩ := hL
          obtain ⟨_, v2, _⟩ := hv
          omega
        have hp64 : p < 2 ^ 64 := by
          obtain ⟨_, _, _, h3, _⟩ := hL
          obtain ⟨_, _, v3⟩ := hv
          omega
        have hfresh : ∀ j, j < NCPU → p ∉ Ls j := by
          intro j hj hm
          exact absurd (hlt j hj p hm).1 (lt_irrefl p)
        have hr2 := pushed_rep hr (shard L p) p hsh hal hp0 hp64 hfresh
        refine freerange_loop_home L hL pa_end fuel (p + PGSIZE) _ s1 _ hr2 ?_ ?_ h
        · unfold PGSIZE at *
          omega
        · intro j hj q hq
          by_cases hji : j = shard L p
          · subst hji
            simp only [if_true] at hq
            rcases List.mem_cons.mp hq with e | hq'
            · rw [e]
              exact ⟨by unfold PGSIZE; omega, rfl⟩
            · have := hlt _ hj q hq'
              exact ⟨by omega, this.2⟩
          · simp only [hji, if_false] at hq
            have := hlt j hj q hq
            exact ⟨by omega, this.2⟩
    · rw [if_neg hc] at h
      injection h with _ h2
      subst h2
      exact ⟨Ls, hr, fun i hi q hq => (hlt i hi q hq).2⟩

/-- In a sane layout, in every reachable state, every page on free list `i` has
shard `i`. -/
theorem reach_home (L : Layout) (hL : L.WF) {s : State} {A : List Nat} (h : Reach L s A) :
    ∀ Ls, FreeRep s Ls → ∀ i, i < NCPU → ∀ p, p ∈ Ls i → shard L p = i := by
  induction h with
  | @init m t h0 =>
    intro Ls hr i hi p hp
    unfold kinit freerange at h0
    have hex : ∃ Ls1, FreeRep t Ls1 ∧ ∀ i, i < NCPU → ∀ q, q ∈ Ls1 i → shard L q = i := by
      refine freerange_loop_home L hL _ _ _ _ _ (fun _ => []) ?_ ?_ ?_ h0
      · exact ⟨fun _ _ => rfl, fun _ _ _ hm => by simp at hm, fun _ _ => by simp,
          fun _ _ _ _ _ _ hm => by simp at hm⟩
      · unfold PGROUNDUP
        exact Nat.mul_mod_left _ _
      · intro _ _ _ hm
        simp at hm
    obtain ⟨Ls1, hr1, hh⟩ := hex
    rw [freeRep_unique hr hr1 i hi] at hp
    exact hh i hi p hp
  | @alloc s A c hreach hc hne ih =>
    intro Ls1 hr1 i hi p hp
    obtain ⟨Ls, hinv⟩ := reach_inv L hL hreach
    rcases kalloc_cases c hc s with ⟨_, hk⟩ | ⟨k, hk1, hk2, hk⟩
    · rw [hk] at hne
      exact absurd rfl hne
    · rw [hk] at hr1
      obtain ⟨rest, hLk, hrep⟩ := pop_rep hinv.rep k hk1 hk2
      rw [freeRep_unique hr1 hrep i hi] at hp
      refine ih Ls hinv.rep i hi p ?_
      by_cases hik : i = k
      · subst hik
        simp only [if_true] at hp
        rw [hLk]
        exact List.mem_cons_of_mem _ hp
      · simpa [hik] using hp
  | @alloc_none s A c hreach hc h0 ih =>
    intro Ls1 hr1 i hi p hp
    rcases kalloc_cases c hc s with ⟨_, hk⟩ | ⟨k, _, hk2, hk⟩
    · rw [hk] at hr1
      exact ih Ls1 hr1 i hi p hp
    · rw [hk] at h0
      exact absurd h0 hk2
  | @free s t A pa hreach hpa hk ih =>
    intro Ls1 hr1 i hi p hp
    obtain ⟨Ls, hinv⟩ := reach_inv L hL hreach
    obtain ⟨hv, _⟩ := kfree_ok_inv hk
    obtain ⟨hk2, hsh⟩ := kfree_ok_of_valid L hL pa hv s
    rw [hk2] at hk
    injection hk with _ hs2
    subst hs2
    obtain ⟨hal, hp0, hp64⟩ := hinv.pages pa hpa
    have hfresh : ∀ j, j < NCPU → pa ∉ Ls j := fun j hj hm => hinv.sep j hj pa hm hpa
    have hrep := pushed_rep hinv.rep (shard L pa) pa hsh hal hp0 hp64 hfresh
    rw [freeRep_unique hr1 hrep i hi] at hp
    by_cases hik : i = shard L pa
    · subst hik
      simp only [if_true] at hp
      rcases List.mem_cons.mp hp with e | hp'
      · rw [e]
      · exact ih Ls hinv.rep _ hi p hp'
    · simp only [hik, if_false] at hp
      exact ih Ls hinv.rep i hi p hp
  | @store s A pa m hreach hpa hm ih =>
    intro Ls1 hr1 i hi p hp
    obtain ⟨Ls, hinv⟩ := reach_inv L hL hreach
    have hrep := (allocInv_store hinv hpa m hm).rep
    rw [freeRep_unique hr1 hrep i hi] at hp
    exact ih Ls hinv.rep i hi p hp

theorem bootLists_succ (L : Layout) (k : Nat) :
    bootLists L (k + 1) =
      fun j => if j = shard L (PGROUNDUP L.kend + k * PGSIZE)
        then (PGROUNDUP L.kend + k * PGSIZE) ::
          bootLists L k (shard L (PGROUNDUP L.kend + k * PGSIZE))
        else bootLists L k j := by
  funext j
  unfold bootLists pagesFrom
  rw [List.range_succ, List.map_append, List.filter_append, List.reverse_append]
  by_cases h : j = shard L (PGROUNDUP L.kend + k * PGSIZE)
  · subst h
    simp only [List.map_cons, List.map_nil, List.filter_cons, List.filter_nil, decide_True,
      if_true, List.reverse_cons, List.reverse_nil, List.nil_append, List.singleton_append]
  · have h' : ¬ (shard L (PGROUNDUP L.kend + k * PGSIZE) = j) := fun e => h e.symm
    simp only [List.map_cons, List.map_nil, List.filter_cons, List.filter_nil, h, h',
      decide_False, if_false, List.reverse_nil, List.nil_append, Bool.false_eq_true]

theorem mem_bootLists (L : Layout) (n i p : Nat) :
    p ∈ bootLists L n i ↔ ∃ k, k < n ∧ p = PGROUNDUP L.kend + k * PGSIZE ∧ shard L p = i := by
  unfold bootLists pagesFrom
  simp only [List.mem_reverse, List.mem_filter, List.mem_map, List.mem_range,
    decide_eq_true_eq]
  constructor
  · rintro ⟨⟨k, hk, rfl⟩, hs⟩
    exact ⟨k, hk, rfl, hs⟩
  · rintro ⟨k, hk, rfl, hs⟩
    exact ⟨⟨k, hk, rfl⟩, hs⟩

theorem PGROUNDUP_aligned (a : Nat) : PGROUNDUP a % PGSIZE = 0 := by
  unfold PGROUNDUP
  exact Nat.mul_mod_left _ _

theorem bootLists_zero_rep (L : Layout) (m : Nat → Nat) :
    FreeRep { mem := m, freelist := fun _ => 0 } (bootLists L 0) :=
  ⟨fun _ _ => rfl, fun _ _ _ hm => by simp [bootLists, pagesFrom] at hm,
    fun _ _ => by simp [bootLists, pagesFrom],
    fun _ _ _ _ _ _ hm => by simp [bootLists, pagesFrom] at hm⟩

theorem freerange_loop_lists (L : Layout) (hL : L.WF) (n : Nat)
    (hs : L.kend ≤ PGROUNDUP L.kend) (h1 : PGROUNDUP L.kend + n * PGSIZE ≤ L.PHYSTOP)
    (h2 : L.PHYSTOP < PGROUNDUP L.kend + (n + 1) * PGSIZE) :
    ∀ (fuel k : Nat) (s : State), k ≤ n → n - k < fuel → FreeRep s (bootLists L k) →
      ∃ s1, freerange_loop L L.PHYSTOP fuel (PGROUNDUP L.kend + k * PGSIZE) s =
          Outcome.ok () s1 ∧ FreeRep s1 (bootLists L n)
  | 0, _, _, _, hf, _ => by omega
  | fuel + 1, k, s, hk, hf, hr => by
    have hal := PGROUNDUP_aligned L.kend
    simp only [freerange_loop]
    by_cases hkn : k < n
    · have hc : PGROUNDUP L.kend + k * PGSIZE + PGSIZE ≤ L.PHYSTOP := by
        simp only [PGSIZE] at *
        omega
      rw [if_pos hc]
      have hv : ValidPage L (PGROUNDUP L.kend + k * PGSIZE) := by
        refine ⟨?_, ?_, ?_⟩
        · rw [Nat.add_mul_mod_self_right]
          exact hal
        · simp only [PGSIZE] at *
          omega
        · simp only [PGSIZE] at *
          omega
      obtain ⟨hk2, hsh⟩ := kfree_ok_of_valid L hL _ hv s
      rw [hk2]
      simp only []
      have hp0 : PGROUNDUP L.kend + k * PGSIZE ≠ 0 := by
        obtain ⟨h0, h1', _⟩ := hL
        simp only [PGSIZE] at *
        omega
      have hp64 : PGROUNDUP L.kend + k * PGSIZE < 2 ^ 64 := by
        obtain ⟨_, _, _, h3, _⟩ := hL
        obtain ⟨_, _, v3⟩ := hv
        omega
      have hfresh : ∀ j, j < NCPU → PGROUNDUP L.kend + k * PGSIZE ∉ bootLists L k j := by
        intro j _ hm
        obtain ⟨k1, hk1, he, _⟩ := (mem_bootLists L k j _).mp hm
        unfold PGSIZE at he
        omega
      have hr2 := pushed_rep hr _ _ hsh hv.1 hp0 hp64 hfresh
      rw [← bootLists_succ L k] at hr2
      have hnext : PGROUNDUP L.kend + k * PGSIZE + PGSIZE =
          PGROUNDUP L.kend + (k + 1) * PGSIZE := by ring
      rw [hnext]
      exact freerange_loop_lists L hL n hs h1 h2 fuel (k + 1) _ hkn (by omega) hr2
    · have hkn' : k = n := by omega
      subst hkn'
      have hc : ¬ (PGROUNDUP L.kend + k * PGSIZE + PGSIZE ≤ L.PHYSTOP) := by
        simp only [PGSIZE] at *
        omega
      rw [if_neg hc]
      exact ⟨s, rfl, hr⟩

/-- `kinit` over a free range of `n` whole pages returns and builds the lists
`bootLists L n`. -/
theorem kinit_lists (L : Layout) (hL : L.WF) (n : Nat)
    (hs : L.kend ≤ PGROUNDUP L.kend) (h1 : PGROUNDUP L.kend + n * PGSIZE ≤ L.PHYSTOP)
    (h2 : L.PHYSTOP < PGROUNDUP L.kend + (n + 1) * PGSIZE) (m : Nat → Nat) :
    ∃ s, kinit L m = Outcome.ok () s ∧ FreeRep s (bootLists L n) := by
  unfold kinit freerange
  have hfuel : n - 0 < L.PHYSTOP / PGSIZE + 1 := by
    have : n ≤ L.PHYSTOP / PGSIZE := by
      rw [Nat.le_div_iff_mul_le (by decide)]
      simp only [PGSIZE] at *
      omega
    omega
  have := freerange_loop_lists L hL n hs h1 h2 (L.PHYSTOP / PGSIZE + 1) 0 _ (Nat.zero_le n)
    hfuel (bootLists_zero_rep L m)
  simpa using this

theorem shard_mono (L : Layout) {a b : Nat} (h : a ≤ b) : shard L a ≤ shard L b := by
  unfold shard
  apply Nat.div_le_div_right
  apply Nat.mul_le_mul_right
  omega

theorem count_div (m i : Nat) (hm : 0 < m) : ∀ n : Nat,
    ((List.range n).filter (fun k => decide (k / m = i))).length =
      min n ((i + 1) * m) - min n (i * m)
  | 0 => by simp
  | n + 1 => by
    rw [List.range_succ, List.filter_append, List.length_append, count_div m i hm n]
    have hiff : n / m = i ↔ i * m ≤ n ∧ n < (i + 1) * m := by
      constructor
      · intro h
        subst h
        refine ⟨Nat.div_mul_le_self n m, ?_⟩
        rw [Nat.mul_comm]
        exact Nat.lt_mul_div_succ n hm
      · rintro ⟨h1, h2⟩
        apply Nat.le_antisymm
        · rw [← Nat.lt_succ_iff, Nat.div_lt_iff_lt_mul hm]
          exact h2
        · rw [Nat.le_div_iff_mul_le hm]
          exact h1
    have hle : i * m ≤ (i + 1) * m := Nat.mul_le_mul_right _ (Nat.le_succ i)
    by_cases hn : n / m = i
    · obtain ⟨h1, h2⟩ := hiff.mp hn
      simp only [hn, decide_True, List.filter_cons_of_pos, List.filter_nil, List.length_singleton]
      omega
    · have hn' : ¬ (i * m ≤ n ∧ n < (i + 1) * m) := fun h => hn (hiff.mpr h)
      simp only [hn, decide_False, Bool.false_eq_true, not_false_eq_true,
        List.filter_cons_of_neg, List.filter_nil, List.length_nil]
      omega

theorem bootLists_length_even (L : Layout) (m : Nat) (hk : PGROUNDUP L.kend = L.KERNBASE)
    (hp : L.PHYSTOP = L.KERNBASE + NCPU * m * PGSIZE) (i : Nat) (hi : i < NCPU) :
    (bootLists L (NCPU * m) i).length = m := by
  have hi' : i < 8 := hi
  rcases Nat.eq_zero_or_pos m with h0 | hm
  · subst h0
    simp [bootLists, pagesFrom]
  · unfold bootLists pagesFrom
    rw [List.length_reverse, List.filter_map, List.length_map]
    have hfun : ((fun p => decide (shard L p = i)) ∘ fun k => PGROUNDUP L.kend + k * PGSIZE) =
        fun k => decide (k / m = i) := by
      funext k
      have hsh : shard L (PGROUNDUP L.kend + k * PGSIZE) = k / m := by
        unfold shard
        rw [hk, hp]
        have e1 : L.KERNBASE + k * PGSIZE - L.KERNBASE = k * PGSIZE := by omega
        have e2 : L.KERNBASE + NCPU * m * PGSIZE - L.KERNBASE = NCPU * m * PGSIZE := by omega
        rw [e1, e2]
        have e3 : k * PGSIZE * NCPU = k * (PGSIZE * NCPU) := by ring
        have e4 : NCPU * m * PGSIZE = m * (PGSIZE * NCPU) := by ring
        rw [e3, e4]
        exact Nat.mul_div_mul_right k m (by decide)
      simp only [Function.comp, hsh]
    rw [hfun, count_div m i hm]
    have h1 : (i + 1) * m = i * m + m := Nat.succ_mul i m
    have h2 : (i + 1) * m ≤ 8 * m := Nat.mul_le_mul_right m (by omega)
    show min (8 * m) ((i + 1) * m) - min (8 * m) (i * m) = m
    omega

theorem kfree_events_check (L : Layout) (pa : Nat) (s : State) :
    Locks.check [] (kfree_events L pa s) = true := by
  unfold kfree_events
  split
  · rfl
  · simp only []
    split
    · rfl
    · simp [Locks.check, Locks.step]

theorem kalloc_steal_events_check (s : State) :
    ∀ is : List Nat, Locks.check [] (kalloc_steal_events s is) = true
  | [] => rfl
  | i :: is => by
    simp only [kalloc_steal_events]
    split
    · simp [Locks.check, Locks.step]
    · rw [Locks.check_pair]
      exact kalloc_steal_events_check s is

theorem kalloc_events_check (cpu : Nat) (s : State) :
    Locks.check [] (kalloc_events cpu s) = true := by
  unfold kalloc_events
  rw [Locks.check_pair]
  split
  · rfl
  · exact kalloc_steal_events_check s _

theorem pushed_outside (s : State) (i pa a : Nat) (h : a < pa ∨ pa + PGSIZE ≤ a) :
    (pushed s i pa).mem a = s.mem a := by
  show write64 (memset s.mem pa 1 PGSIZE) pa (s.freelist i) a = s.mem a
  have h8 : a < pa ∨ pa + 8 ≤ a := by
    simp only [PGSIZE] at h
    omega
  rw [write64_outside _ _ _ _ h8, memset_outside _ _ _ _ _ h]

/-- The index computed by `kfree` is the shard of the page as soon as the product of the
shard computation fits in 64 bits. -/
theorem kfree_index_shard (L : Layout) (h1 : L.KERNBASE ≤ L.kend) (h3 : L.PHYSTOP < 2 ^ 64)
    (h4 : (L.PHYSTOP - L.KERNBASE) * NCPU < 2 ^ 64) (pa : Nat) (hv : ValidPage L pa) :
    sub64 pa L.KERNBASE * NCPU < 2 ^ 64 ∧ kfree_index L pa = (shard L pa : Int) := by
  obtain ⟨_, v2, v3⟩ := hv
  have hD : 0 < L.PHYSTOP - L.KERNBASE := by omega
  have e1 : sub64 pa L.KERNBASE = pa - L.KERNBASE := by
    unfold sub64 u64
    omega
  have e2 : sub64 L.PHYSTOP L.KERNBASE = L.PHYSTOP - L.KERNBASE := by
    unfold sub64 u64
    omega
  have hx : (pa - L.KERNBASE) * NCPU < (L.PHYSTOP - L.KERNBASE) * NCPU := by
    apply Nat.mul_lt_mul_of_pos_right
    · omega
    · decide
  have e3 : u64 ((pa - L.KERNBASE) * NCPU) = (pa - L.KERNBASE) * NCPU := by
    unfold u64
    exact Nat.mod_eq_of_lt (by omega)
  have hq : shard L pa < NCPU := by
    unfold shard
    rw [Nat.div_lt_iff_lt_mul hD, Nat.mul_comm NCPU]
    exact hx
  refine ⟨by rw [e1]; omega, ?_⟩
  unfold kfree_index
  rw [e1, e2, e3]
  have hq' : shard L pa < 8 := hq
  show toInt32 (shard L pa) = _
  unfold toInt32
  have : shard L pa % 2 ^ 32 = shard L pa := Nat.mod_eq_of_lt (by omega)
  rw [this, if_pos (by omega)]

end Kalloc

namespace Bio

/-! ## Claims on the buffer cache -/

/-- C1: in a reachable state, when `bget dev blockno` hands out buffer `b`, a second
`bget dev blockno` made before any release hands out the same `b`; if `b` was
unreferenced before the first call its `refcnt` is then 2, and two `brelse`
bring it back to 0 with `b` still linked in its bucket, where the scans of a
later `bget` accept it as free. -/
theorem bget_twice_same_buffer (s : State) (hs : Reachable s) (dev blockno b : Nat)
    (s1 : State) (h1 : bget dev blockno s = Outcome.ok b s1) :
    ∃ s2, bget dev blockno s1 = Outcome.ok b s2 ∧
      ((s.buf b).refcnt = 0 →
        (s2.buf b).refcnt = 2 ∧
        ∃ s3 s4, brelse true b s2 = Outcome.ok () s3 ∧ brelse true b s3 = Outcome.ok () s4 ∧
          (s4.buf b).refcnt = 0 ∧ is_free (s4.buf b) = true ∧
          b ∈ bucketList s4 (buf_hash dev blockno)) := by
  obtain ⟨Ls, hr⟩ := reachable_rep hs
  obtain ⟨Ls1, hr1, hfind, _, _, hcnt, _⟩ := bget_post hr h1
  obtain ⟨s2, h2⟩ : ∃ s2, bget dev blockno s1 = Outcome.ok b s2 :=
    ⟨_, bget_hit hr1 dev blockno b hfind⟩
  refine ⟨s2, h2, ?_⟩
  intro h0
  obtain ⟨Ls2, hr2, hfind2, _, _, hcnt2, _⟩ := bget_post hr1 h2
  have hc1 : (s1.buf b).refcnt = 1 := by
    rw [hcnt b, h0, if_pos rfl, inc32_zero]
  have hc2 := hcnt2 b
  rw [if_pos rfl, hc1, inc32_one] at hc2
  obtain ⟨s3, hb3, hr3, hc3⟩ := brelse_step hr2 b 1 hc2 (by norm_num)
  obtain ⟨s4, hb4, hr4, hc4⟩ := brelse_step hr3 b 0 hc3 (by norm_num)
  refine ⟨hc2, s3, s4, hb3, hb4, hc4, by simp [is_free, hc4], ?_⟩
  rw [rep_bucketList hr4 _ (buf_hash_lt dev blockno)]
  exact (find?_mem_pred hfind2).1


/-- C1 at `binit`, `dev = 1`, `blockno = 5`: the buffer handed out twice is
`bcache.buf[13]`, unreferenced before the first call. -/
theorem bget_twice_same_buffer_witness :
    ∃ s2, bget 1 5 afterGet15 = Outcome.ok 13 s2 ∧ (s2.buf 13).refcnt = 2 ∧
      ∃ s3 s4, brelse true 13 s2 = Outcome.ok () s3 ∧ brelse true 13 s3 = Outcome.ok () s4 ∧
        (s4.buf 13).refcnt = 0 ∧ is_free (s4.buf 13) = true ∧
        13 ∈ bucketList s4 (buf_hash 1 5) :=
  match bget_twice_same_buffer (binit zeroDisk) (Reachable.init zeroDisk) 1 5 13 afterGet15
      rfl with
  | ⟨s2, h2, h3⟩ => ⟨s2, h2, (h3 rfl).1, (h3 rfl).2⟩

/-- C2, counterexample: after `bget(0, 0)` and `2 ^ 32 - 2` calls of `bpin` on the buffer
it returned, `bread(0, 0)` returns that buffer with `refcnt == 0`. -/
theorem bread_refcnt_wraps :
    Reachable manyPins ∧ (bget 0 0 manyPins).returns = true ∧
      (bread 0 0 manyPins).ret? = some 1 ∧
      (((bread 0 0 manyPins).stateD manyPins).buf 1).refcnt = 0 := by
  refine ⟨reachable_iterate_bpin 1 _ _ reachable_afterGet00 (by decide) (by decide), ?_⟩
  rw [manyPins_eq]
  exact ⟨rfl, rfl, rfl⟩

/-- C2 (amended): in a reachable state, when `bget dev blockno` does not stop in `panic`,
`bread dev blockno` returns the buffer `b` chosen by `bget`, with `b.dev == dev`,
`b.blockno == blockno` and `b.valid == 1`; its `refcnt` is the old count plus one modulo
`2 ^ 32`, hence `>= 1` unless the old count was `2 ^ 32 - 1`; the driver read is done
exactly when `bget` handed the buffer back with `valid == 0`, and then the data of `b` is
the disk content of `(dev, blockno)`. -/
theorem bread_returns_valid_block (s : State) (hs : Reachable s) (dev blockno : Nat)
    (hnp : ∀ m s1, bget dev blockno s ≠ Outcome.panicked m s1) :
    ∃ b s1 s2, bget dev blockno s = Outcome.ok b s1 ∧ bread dev blockno s = Outcome.ok b s2 ∧
      (s2.buf b).dev = dev ∧ (s2.buf b).blockno = blockno ∧ (s2.buf b).valid = 1 ∧
      (s2.buf b).refcnt = inc32 (s.buf b).refcnt ∧
      ((s.buf b).refcnt < 2 ^ 32 - 1 → 1 ≤ (s2.buf b).refcnt) ∧
      ((s1.buf b).valid = 0 →
        s2.io = { write := false, dev := dev, blockno := blockno } :: s.io ∧
        (s2.buf b).data = s.disk dev blockno) ∧
      ((s1.buf b).valid ≠ 0 → s2 = s1 ∧ s2.io = s.io) := by
  obtain ⟨Ls, hr⟩ := reachable_rep hs
  cases hb : bget dev blockno s with
  | diverged => exact absurd hb (bget_not_diverged hr dev blockno)
  | panicked m s1 => exact absurd hb (hnp m s1)
  | ok b s1 =>
    obtain ⟨Ls1, hr1, _, hdev, hblk, hcnt, hdata, hoth, hval, hdisk, hio⟩ := bget_post hr hb
    have hbr := bread_of_bget hb
    have hc := hcnt b
    rw [if_pos rfl] at hc
    have hge : (s.buf b).refcnt < 2 ^ 32 - 1 → 1 ≤ inc32 (s.buf b).refcnt := by
      intro hlt
      rw [inc32_of_lt _ (by omega)]
      omega
    by_cases hv : (s1.buf b).valid = 0
    · rw [if_pos hv] at hbr
      refine ⟨b, s1, _, rfl, hbr, ?_, ?_, ?_, ?_, ?_, ?_, ?_⟩
      · simp [virtio_read_buf, hdev]
      · simp [virtio_read_buf, hblk]
      · simp
      · simp [virtio_read_buf, hc]
      · intro hlt
        simpa [virtio_read_buf, hc] using hge hlt
      · intro _
        refine ⟨?_, ?_⟩
        · rw [setBuf_io, (virtio_read_io b s1).1, hdev, hblk, hio]
        · simp [virtio_read_buf, hdev, hblk, hdisk]
      · intro hne
        exact absurd hv hne
    · rw [if_neg hv] at hbr
      have hv1 : (s1.buf b).valid = 1 := by
        rcases hval with h | h
        · rcases reachable_valid hs b with h0 | h1
          · exact absurd (h.trans h0) hv
          · exact h.trans h1
        · exact absurd h hv
      refine ⟨b, s1, s1, rfl, hbr, hdev, hblk, hv1, hc, ?_, ?_, ?_⟩
      · intro hlt
        rw [hc]
        exact hge hlt
      · intro h0
        exact absurd h0 hv
      · intro _
        exact ⟨rfl, hio⟩

/-- C2 (amended) on the freshly initialised cache with `dev = 1`, `blockno = 5`: the
buffer returned is `bcache.buf[13]`, read from the disk by one driver transfer. -/
theorem bread_returns_valid_block_witness :
    ∃ s2, bread 1 5 (binit zeroDisk) = Outcome.ok 13 s2 ∧
      (s2.buf 13).dev = 1 ∧ (s2.buf 13).blockno = 5 ∧ (s2.buf 13).valid = 1 ∧
      (s2.buf 13).refcnt = 1 ∧
      s2.io = [{ write := false, dev := 1, blockno := 5 }] ∧
      (s2.buf 13).data = zeroDisk 1 5 := by
  obtain ⟨b, s1, s2, hb, hbr, hdev, hblk, hval, hcnt, _, hread, _⟩ :=
    bread_returns_valid_block (binit zeroDisk) (Reachable.init zeroDisk) 1 5
      (fun m s1 h => Outcome.noConfusion (h : bget 1 5 (binit zeroDisk) = Outcome.panicked m s1))
  have e : Outcome.ok b s1 = Outcome.ok 13 afterGet15 := hb.symm.trans rfl
  injection e with e1 e2
  subst e1 e2
  have hv0 : (afterGet15.buf 13).valid = 0 := rfl
  exact ⟨s2, hbr, hdev, hblk, hval, hcnt.trans (by decide), (hread hv0).1, (hread hv0).2⟩

/-- C3: a held buffer `b` is written with `bwrite`; later, after any calls other than a
`bwrite` for the same block, the block is not cached any more (no buffer of its home
bucket carries its `(dev, blockno)`); then `bread` of that block does not loop, and the
buffer it returns holds exactly the data `b` had when it was written. -/
theorem write_then_cold_read (s : State) (hs : Reachable s) (b : Nat)
    (hheld : 1 ≤ (s.buf b).refcnt) (s1 : State) (hw : bwrite true b s = Outcome.ok () s1)
    (s2 : State) (hq : Quiet (s.buf b).dev (s.buf b).blockno s1 s2)
    (hcold : ∀ x, x ∈ bucketList s2 (buf_hash (s.buf b).dev (s.buf b).blockno) →
      ¬((s2.buf x).dev = (s.buf b).dev ∧ (s2.buf x).blockno = (s.buf b).blockno)) :
    bread (s.buf b).dev (s.buf b).blockno s2 ≠ Outcome.diverged ∧
    ∀ b2 s3, bread (s.buf b).dev (s.buf b).blockno s2 = Outcome.ok b2 s3 →
      (s3.buf b2).data = (s.buf b).data := by
  have hs1 : Reachable s1 :=
    Reachable.step (o := Op.bwrite b) (r := none) hs hheld (by simp only [Op.run, hw])
  have hs2 : Reachable s2 := quiet_reachable hq hs1
  obtain ⟨Ls2, hr2⟩ := reachable_rep hs2
  refine ⟨bread_not_diverged hr2 _ _, ?_⟩
  intro b2 s3 hbr
  obtain ⟨s2a, hb⟩ := bread_ok_inv hbr
  have hcold2 : ∀ x, x ∈ Ls2 (buf_hash (s.buf b).dev (s.buf b).blockno) →
      ¬((s2.buf x).dev = (s.buf b).dev ∧ (s2.buf x).blockno = (s.buf b).blockno) := by
    intro x hx
    apply hcold x
    rw [rep_bucketList hr2 _ (buf_hash_lt _ _)]
    exact hx
  have hv := bget_miss_valid hr2 hb hcold2
  obtain ⟨_, _, _, hdev, hblk, _, _, _, _, hdisk, _⟩ := bget_post hr2 hb
  rw [bread_of_bget hb, if_pos hv] at hbr
  injection hbr with _ h3
  subst h3
  have hd1 : s1.disk (s.buf b).dev (s.buf b).blockno = (s.buf b).data := by
    simp only [bwrite] at hw
    injection hw with _ h1
    subst h1
    simp [virtio_disk_rw]
  simp only [setBuf_buf, if_true, virtio_read_buf]
  rw [hdev, hblk, hdisk, quiet_disk hq hs1, hd1]

/-- C3 on a concrete run: buffer 13 holds block `(1, 5)` filled with the byte 7; it is
written, released and claimed for block `(1, 18)`; reading block `(1, 5)` again gives
the byte 7 everywhere. -/
theorem write_then_cold_read_witness :
    bread 1 5 coldState ≠ Outcome.diverged ∧
    ∀ b2 s3, bread 1 5 coldState = Outcome.ok b2 s3 → (s3.buf b2).data = fun _ => 7 :=
  write_then_cold_read heldState
    (reachable_runOps _ _ (Reachable.init zeroDisk) rfl) 13 (by decide)
    (runOps [Op.bwrite 13] heldState) rfl coldState
    (Quiet.step (o := Op.bget 1 18) (r := some 13)
      (Quiet.step (o := Op.brelse 13) (r := none)
        (Quiet.refl _) (by decide) (fun b h => Op.noConfusion h) rfl)
      (by decide) (fun b h => Op.noConfusion h) rfl)
    (by decide)

/-- C4, counterexample: after one `bget(0, 0)`, which returns `bcache.buf[1]`, and
`2 ^ 32 - 1` calls of `bpin` on that buffer, with no `brelse` and no `bunpin`, the
`refcnt` of the buffer is 0 although `2 ^ 32` references are outstanding. -/
theorem refcnt_accounting_wraps :
    ((runOps wrapOps (binit zeroDisk)).buf 1).refcnt = 0 ∧
    countCalls (isGetOf 1) wrapOps (binit zeroDisk) = 1 ∧
    countCalls (isPinOf 1) wrapOps (binit zeroDisk) = 2 ^ 32 - 1 ∧
    countCalls (isRelseOf 1) wrapOps (binit zeroDisk) = 0 ∧
    countCalls (isUnpinOf 1) wrapOps (binit zeroDisk) = 0 := by
  rw [runOps_wrapOps, countCalls_wrapOps, countCalls_wrapOps, countCalls_wrapOps,
    countCalls_wrapOps]
  exact ⟨rfl, rfl, rfl, rfl, rfl⟩

/-- C4 (amended): after any sequence of calls run from `binit`, the `refcnt` of every
buffer `b` equals (number of `bget` calls that returned `b`) + (number of `bpin(b)`) -
(number of `brelse(b)`) - (number of `bunpin(b)`) modulo `2 ^ 32`, and it equals that
number itself whenever the number lies in `[0, 2 ^ 32)`. -/
theorem refcnt_accounting (d : Nat → Nat → Block) (ops : List Op) (b : Nat) :
    ((((runOps ops (binit d)).buf b).refcnt : Nat) : Int) =
      ((countCalls (isGetOf b) ops (binit d) : Int) + countCalls (isPinOf b) ops (binit d)
        - countCalls (isRelseOf b) ops (binit d) - countCalls (isUnpinOf b) ops (binit d))
        % 2 ^ 32 ∧
    (0 ≤ (countCalls (isGetOf b) ops (binit d) : Int) + countCalls (isPinOf b) ops (binit d)
        - countCalls (isRelseOf b) ops (binit d) - countCalls (isUnpinOf b) ops (binit d) →
      (countCalls (isGetOf b) ops (binit d) : Int) + countCalls (isPinOf b) ops (binit d)
        - countCalls (isRelseOf b) ops (binit d) - countCalls (isUnpinOf b) ops (binit d)
        < 2 ^ 32 →
      ((((runOps ops (binit d)).buf b).refcnt : Nat) : Int) =
        (countCalls (isGetOf b) ops (binit d) : Int) + countCalls (isPinOf b) ops (binit d)
        - countCalls (isRelseOf b) ops (binit d) - countCalls (isUnpinOf b) ops (binit d)) := by
  have h0 : ((binit d).buf b).refcnt = 0 := (binit_buf_meta d b).2.1
  have h := runOps_refcnt b ops (binit d) binitLists (binit_rep d) (by rw [h0]; norm_num)
  rw [h0] at h
  refine ⟨by rw [h]; simp, ?_⟩
  intro h1 h2
  rw [h]
  omega

/-- C4 (amended) on the run `bget(1, 5)`, `bpin`, `brelse`, `bget(1, 5)` and buffer 13:
two references are outstanding. -/
theorem refcnt_accounting_witness :
    ((runOps [Op.bget 1 5, Op.bpin 13, Op.brelse 13, Op.bget 1 5] (binit zeroDisk)).buf
      13).refcnt = 2 :=
  Int.ofNat.inj ((refcnt_accounting zeroDisk
    [Op.bget 1 5, Op.bpin 13, Op.brelse 13, Op.bget 1 5] 13).2 (by decide) (by decide))

/-- C5, the code at the failing input: after `binit` and `bget(0, k)` for `k = 0 .. 25`,
each of which returns, the 26 buffers `bcache.buf[0 .. 25]` are held once each and the
buffers `bcache.buf[26 .. 29]` have `refcnt == 0`; they are linked in no bucket and
`bget(0, 26)` stops in `panic("bget: no buffers")`. -/
theorem bget_panics_with_free_buffers :
    Reachable fullState ∧
    countCalls (fun _ _ => true) fillOps (binit zeroDisk) = 26 ∧
    (∀ k, k < 26 → (fullState.buf k).refcnt = 1) ∧
    (∀ k, 26 ≤ k → k < NBUF → (fullState.buf k).refcnt = 0) ∧
    (∀ k, 26 ≤ k → k < NBUF → ∀ i, i < NBUCKETS → k ∉ bucketList fullState i) ∧
    (bget 0 26 fullState).panics PanicMsg.bget_no_buffers = true := by
  refine ⟨reachable_runOps _ _ (Reachable.init zeroDisk) (by decide), by decide, by decide, ?_,
    ?_, by decide⟩
  · intro k h1 h2
    have h2' : k < 30 := h2
    interval_cases k <;> rfl
  · intro k h1 h2 i hi
    have h2' : k < 30 := h2
    have hi' : i < 13 := hi
    interval_cases k <;> interval_cases i <;> decide

/-- C6: in a well-formed cache (every reachable state is one), `bget dev blockno` stops in
`panic("bget: no buffers")` if and only if no buffer of the home bucket carries
`(dev, blockno)` and no buffer of any bucket list has `refcnt == 0`; otherwise it returns
a buffer; and when it stops in `panic` the state is the one it was called in. -/
theorem bget_panics_iff (s : State) (hw : WellFormed s) (dev blockno : Nat) :
    ((bget dev blockno s).panics PanicMsg.bget_no_buffers = true ↔
      (∀ x, x ∈ bucketList s (buf_hash dev blockno) →
        ¬((s.buf x).dev = dev ∧ (s.buf x).blockno = blockno)) ∧
      (∀ i, i < NBUCKETS → ∀ x, x ∈ bucketList s i → (s.buf x).refcnt ≠ 0)) ∧
    ((bget dev blockno s).panics PanicMsg.bget_no_buffers = false →
      (bget dev blockno s).returns = true) ∧
    (∀ m s1, bget dev blockno s = Outcome.panicked m s1 →
      m = PanicMsg.bget_no_buffers ∧ s1 = s) := by
  have hs := bget_spec hw dev blockno
  refine ⟨?_, ?_, ?_⟩
  · generalize bget dev blockno s = res at hs
    cases hs with
    | hit b hf =>
      obtain ⟨hm, hd, hb⟩ := mem_of_find?_cached hf
      simp only [Outcome.panics, Bool.false_eq_true, false_iff]
      intro hc
      exact hc.1 b hm ⟨hd, hb⟩
    | claimed b _ hf =>
      obtain ⟨hm, hp⟩ := find?_mem_pred hf
      have hp' : (s.buf b).refcnt = 0 := by simpa [is_free] using hp
      simp only [Outcome.panics, Bool.false_eq_true, false_iff]
      intro hc
      exact hc.2 _ (buf_hash_lt dev blockno) b hm hp'
    | stole i A cur B _ _ hi _ hL _ hcur =>
      simp only [Outcome.panics, Bool.false_eq_true, false_iff]
      intro hc
      refine hc.2 i hi cur ?_ hcur
      rw [hL]
      simp
    | exhausted hc hall =>
      simp only [Outcome.panics, decide_True, true_iff]
      exact ⟨not_cached_of_find? hc, hall⟩
  · generalize bget dev blockno s = res at hs
    cases hs with
    | hit b hf => intro _; rfl
    | claimed b _ hf => intro _; rfl
    | stole i A cur B _ _ hi _ hL _ hcur => intro _; rfl
    | exhausted hc hall =>
      intro h
      simp [Outcome.panics] at h
  · intro m s1 h
    have := bget_panic_state hw h
    exact ⟨this.2, this.1⟩

/-- C6 on the cache in which all 26 linked buffers are held, with `dev = 0`,
`blockno = 26`. -/
theorem bget_panics_iff_witness :
    ((bget 0 26 fullState).panics PanicMsg.bget_no_buffers = true ↔
      (∀ x, x ∈ bucketList fullState (buf_hash 0 26) →
        ¬((fullState.buf x).dev = 0 ∧ (fullState.buf x).blockno = 26)) ∧
      (∀ i, i < NBUCKETS → ∀ x, x ∈ bucketList fullState i →
        (fullState.buf x).refcnt ≠ 0)) ∧
    ((bget 0 26 fullState).panics PanicMsg.bget_no_buffers = false →
      (bget 0 26 fullState).returns = true) ∧
    (∀ m s1, bget 0 26 fullState = Outcome.panicked m s1 →
      m = PanicMsg.bget_no_buffers ∧ s1 = fullState) :=
  bget_panics_iff fullState
    (reachable_wellFormed (reachable_runOps _ _ (Reachable.init zeroDisk) (by decide))) 0 26

/-- C13, counterexample: on the freshly initialised cache `bcache.buf[0]` has
`refcnt == 0`; `bunpin` on it returns, and so does `brelse` with the content lock held,
and each leaves `refcnt == 2 ^ 32 - 1`. -/
theorem release_wraps_at_zero :
    ((binit zeroDisk).buf 0).refcnt = 0 ∧
    ((bunpin 0 (binit zeroDisk)).buf 0).refcnt = 2 ^ 32 - 1 ∧
    (brelse true 0 (binit zeroDisk)).returns = true ∧
    (((brelse true 0 (binit zeroDisk)).stateD (binit zeroDisk)).buf 0).refcnt = 2 ^ 32 - 1 := by
  decide

/-- C13 (amended): for every buffer `b` whose `refcnt` is a `uint` value, `brelse(b)` with
the content lock held and `bunpin(b)` always return and lower `refcnt` by one modulo
`2 ^ 32`: from a count `>= 1` the new count is one less, hence `>= 0`; from 0 the count
wraps to `2 ^ 32 - 1`. The only fatal case is `brelse` without the content lock, which
leaves the state as it was. -/
theorem release_decrements_mod (s : State) (b : Nat) (hu : (s.buf b).refcnt < 2 ^ 32) :
    ∃ s1, brelse true b s = Outcome.ok () s1 ∧
      (1 ≤ (s.buf b).refcnt →
        (s1.buf b).refcnt + 1 = (s.buf b).refcnt ∧
        ((bunpin b s).buf b).refcnt + 1 = (s.buf b).refcnt) ∧
      ((s.buf b).refcnt = 0 →
        (s1.buf b).refcnt = 2 ^ 32 - 1 ∧ ((bunpin b s).buf b).refcnt = 2 ^ 32 - 1) ∧
      brelse false b s = Outcome.panicked PanicMsg.brelse s := by
  refine ⟨_, brelse_true b s, ?_, ?_, rfl⟩
  · intro h1
    have hd := dec32_of_pos _ h1 hu
    constructor
    · rw [setBuf_buf, if_pos rfl]
      exact hd
    · unfold bunpin
      rw [setBuf_buf, if_pos rfl]
      exact hd
  · intro h0
    constructor
    · rw [setBuf_buf, if_pos rfl]
      show dec32 (s.buf b).refcnt = 2 ^ 32 - 1
      rw [h0, dec32_zero]
    · unfold bunpin
      rw [setBuf_buf, if_pos rfl]
      show dec32 (s.buf b).refcnt = 2 ^ 32 - 1
      rw [h0, dec32_zero]

/-- C13 (amended) on buffer 13 held twice (`refcnt == 2`): each release leaves 1. -/
theorem release_decrements_mod_witness :
    ∃ s1, brelse true 13 (runOps [Op.bget 1 5, Op.bget 1 5] (binit zeroDisk)) =
        Outcome.ok () s1 ∧
      (s1.buf 13).refcnt = 1 ∧
      ((bunpin 13 (runOps [Op.bget 1 5, Op.bget 1 5] (binit zeroDisk))).buf 13).refcnt = 1 :=
  match release_decrements_mod (runOps [Op.bget 1 5, Op.bget 1 5] (binit zeroDisk)) 13
      (by decide) with
  | ⟨s1, h1, h2, _⟩ =>
    ⟨s1, h1, Nat.succ.inj ((h2 (by decide)).1.trans (by decide)),
      Nat.succ.inj ((h2 (by decide)).2.trans (by decide))⟩

/-- C19, counterexample: for `dev = 2 ^ 32 - 1` and `blockno = 1` the `uint` sum wraps
to 0 and `buf_hash` is 0, while the unbounded sum `2 ^ 32` is 9 modulo 13. -/
theorem buf_hash_wraps :
    buf_hash (2 ^ 32 - 1) 1 = 0 ∧ (2 ^ 32 - 1 + 1) % 13 = 9 ∧
      buf_hash (2 ^ 32 - 1) 1 ≠ (2 ^ 32 - 1 + 1) % 13 := by
  decide

/-- C19 (amended): for all `uint` values `dev` and `blockno`, `buf_hash(dev, blockno)` is
`((dev + blockno) mod 2 ^ 32) mod 13`; it lies in `[0, NBUCKETS)`; and it equals
`(dev + blockno) mod 13` for the unbounded sum whenever `dev + blockno < 2 ^ 32`. -/
theorem buf_hash_value (dev blockno : Nat) (hd : dev < 2 ^ 32) (hb : blockno < 2 ^ 32) :
    buf_hash dev blockno = (dev + blockno) % 2 ^ 32 % 13 ∧
    buf_hash dev blockno < NBUCKETS ∧
    (dev + blockno < 2 ^ 32 → buf_hash dev blockno = (dev + blockno) % 13) ∧
    (2 ^ 32 ≤ dev + blockno → buf_hash dev blockno = (dev + blockno - 2 ^ 32) % 13) := by
  refine ⟨rfl, buf_hash_lt dev blockno, ?_, ?_⟩
  · intro h
    unfold buf_hash u32 NBUCKETS
    rw [Nat.mod_eq_of_lt h]
  · intro h
    unfold buf_hash u32 NBUCKETS
    have : (dev + blockno) % 2 ^ 32 = dev + blockno - 2 ^ 32 := by omega
    rw [this]

/-- C19 (amended) at `dev = 1`, `blockno = 5`. -/
theorem buf_hash_value_witness :
    buf_hash 1 5 = (1 + 5) % 2 ^ 32 % 13 ∧ buf_hash 1 5 < NBUCKETS ∧
    buf_hash 1 5 = (1 + 5) % 13 :=
  ⟨(buf_hash_value 1 5 (by norm_num) (by norm_num)).1,
    (buf_hash_value 1 5 (by norm_num) (by norm_num)).2.1,
    (buf_hash_value 1 5 (by norm_num) (by norm_num)).2.2.1 (by norm_num)⟩

/-- C15, the code: `binit` links the buffers `2 * i + 1` and `2 * i` in bucket `i`, so
the four buffers `bcache.buf[26 .. 29]` of the `NBUF = 30` are in no bucket list. After
every sequence of calls from `binit` (whether or not the calls follow the calling
discipline) each bucket list is a chain without repetition that ends in the null pointer,
each of the buffers `0 .. 25` is in exactly one bucket list, and the buffers from 26 on
are still in none. -/
theorem bucket_membership (d : Nat → Nat → Block) (ops : List Op) :
    NBUF = 30 ∧ NBUCKETS = 13 ∧
    (∀ i, i < NBUCKETS → bucketList (binit d) i = [2 * i + 1, 2 * i]) ∧
    (∀ b, 26 ≤ b → ∀ i, i < NBUCKETS → b ∉ bucketList (binit d) i) ∧
    (∀ i, i < NBUCKETS →
      IsChain (runOps ops (binit d)).buf ((runOps ops (binit d)).heads i)
        (bucketList (runOps ops (binit d)) i) ∧
      (bucketList (runOps ops (binit d)) i).Nodup) ∧
    (∀ b, b < 26 → ∃ i, i < NBUCKETS ∧ b ∈ bucketList (runOps ops (binit d)) i ∧
      ∀ j, j < NBUCKETS → b ∈ bucketList (runOps ops (binit d)) j → j = i) ∧
    (∀ b, 26 ≤ b → ∀ i, i < NBUCKETS → b ∉ bucketList (runOps ops (binit d)) i) := by
  have h0 := link_bucketList (binit_link_inv d)
  have h := runOps_binit_link d ops
  have key : ∀ s : State, LinkInv s (bucketList s) →
      ∀ b, 26 ≤ b → ∀ i, i < NBUCKETS → b ∉ bucketList s i := by
    intro s hs b hb i hi hm
    have : b < 26 := (hs.linked b).mp ⟨i, hi, hm⟩
    omega
  refine ⟨rfl, rfl, ?_, key _ h0, ?_, ?_, key _ h⟩
  · intro i hi
    exact rep_bucketList (binit_rep d) i hi
  · intro i hi
    exact ⟨h.rep.chain i hi, h.rep.nodup i hi⟩
  · intro b hb
    obtain ⟨i, hi, hm⟩ := (h.linked b).mpr hb
    refine ⟨i, hi, hm, ?_⟩
    intro j hj hmj
    by_contra hne
    exact h.rep.disj j i hj hi hne b hmj hm

/-- C16: after every sequence of calls from `binit`, whether or not the calls follow the
calling discipline, every buffer linked in bucket `i` has `buf_hash(dev, blockno) == i`,
so every linked buffer is in the list of the bucket that `brelse`, `bpin` and `bunpin`
compute from its `dev` and `blockno`; and when the calls follow the discipline, every
referenced buffer is in the list of that bucket. -/
theorem home_bucket (d : Nat → Nat → Block) (ops : List Op) :
    (∀ i, i < NBUCKETS → ∀ b, b ∈ bucketList (runOps ops (binit d)) i →
      buf_hash ((runOps ops (binit d)).buf b).dev ((runOps ops (binit d)).buf b).blockno = i) ∧
    (∀ i b, i < NBUCKETS → b ∈ bucketList (runOps ops (binit d)) i →
      b ∈ bucketList (runOps ops (binit d))
        (buf_hash ((runOps ops (binit d)).buf b).dev ((runOps ops (binit d)).buf b).blockno)) ∧
    (disciplined ops (binit d) = true →
      ∀ b, 1 ≤ ((runOps ops (binit d)).buf b).refcnt →
        b ∈ bucketList (runOps ops (binit d))
          (buf_hash ((runOps ops (binit d)).buf b).dev
            ((runOps ops (binit d)).buf b).blockno)) := by
  have h := runOps_binit_link d ops
  refine ⟨h.home, ?_, ?_⟩
  · intro i b hi hm
    rw [h.home i hi b hm]
    exact hm
  · intro hd b hb
    obtain ⟨Ls, hinv⟩ := reachable_inv (reachable_runOps ops _ (Reachable.init d) hd)
    have hinv' := inv_bucketList hinv
    obtain ⟨⟨i, hi, hm⟩, _⟩ := live_unshadowed hinv' hb
    rw [h.home i hi b hm]
    exact hm

/-- C16 on the run `bget(1, 5)` from `binit`: buffer 13, claimed for block `(1, 5)`, is
referenced and is in the list of bucket `buf_hash(1, 5) = 6`. -/
theorem home_bucket_witness :
    ((runOps [Op.bget 1 5] (binit zeroDisk)).buf 13).refcnt = 1 ∧
    13 ∈ bucketList (runOps [Op.bget 1 5] (binit zeroDisk))
      (buf_hash ((runOps [Op.bget 1 5] (binit zeroDisk)).buf 13).dev
        ((runOps [Op.bget 1 5] (binit zeroDisk)).buf 13).blockno) ∧
    buf_hash ((runOps [Op.bget 1 5] (binit zeroDisk)).buf 13).dev
      ((runOps [Op.bget 1 5] (binit zeroDisk)).buf 13).blockno = 6 :=
  ⟨by decide, (home_bucket zeroDisk [Op.bget 1 5]).2.2 (by decide) 13 (by decide), by decide⟩

/-- C17: in every state reachable from `binit` by calls that follow the calling
discipline, two distinct buffers with the same `(dev, blockno)` are not both referenced
and are not both valid. -/
theorem no_duplicate_live (s : State) (hs : Reachable s) (a b : Nat) (hab : a ≠ b)
    (hd : (s.buf a).dev = (s.buf b).dev) (hb : (s.buf a).blockno = (s.buf b).blockno) :
    ¬(0 < (s.buf a).refcnt ∧ 0 < (s.buf b).refcnt) ∧
    ¬((s.buf a).valid = 1 ∧ (s.buf b).valid = 1) := by
  obtain ⟨Ls, h⟩ := reachable_inv hs
  have key : ((s.buf a).refcnt = 0 ∧ (s.buf a).valid = 0) ∨
      ((s.buf b).refcnt = 0 ∧ (s.buf b).valid = 0) := by
    by_cases la : ∃ i, i < NBUCKETS ∧ a ∈ Ls i
    · by_cases lb : ∃ i, i < NBUCKETS ∧ b ∈ Ls i
      · obtain ⟨i, hi, ha⟩ := la
        obtain ⟨j, hj, hbj⟩ := lb
        have e1 := h.home i hi a ha
        have e2 := h.home j hj b hbj
        rw [hd, hb, e2] at e1
        subst e1
        rcases pairwise_mem_or _ (h.shadow j hj) a b ha hbj hab with hR | hR
        · exact Or.inr (hR ⟨hd, hb⟩)
        · exact Or.inl (hR ⟨hd.symm, hb.symm⟩)
      · exact Or.inr (h.idle b (fun i hi hm => lb ⟨i, hi, hm⟩))
    · exact Or.inl (h.idle a (fun i hi hm => la ⟨i, hi, hm⟩))
  constructor
  · rintro ⟨h1, h2⟩
    rcases key with k | k <;> omega
  · rintro ⟨h1, h2⟩
    rcases key with k | k <;> omega

/-- C17 after `bread(0, 0)` on the fresh cache: the buffers 1 and 0 of bucket 0 both
carry `(0, 0)` since `binit`; buffer 1 is referenced and valid, buffer 0 is neither. -/
theorem no_duplicate_live_witness :
    ((runOps [Op.bread 0 0] (binit zeroDisk)).buf 1).dev = 0 ∧
    ((runOps [Op.bread 0 0] (binit zeroDisk)).buf 0).dev = 0 ∧
    ((runOps [Op.bread 0 0] (binit zeroDisk)).buf 1).blockno = 0 ∧
    ((runOps [Op.bread 0 0] (binit zeroDisk)).buf 0).blockno = 0 ∧
    ((runOps [Op.bread 0 0] (binit zeroDisk)).buf 1).refcnt = 1 ∧
    ((runOps [Op.bread 0 0] (binit zeroDisk)).buf 1).valid = 1 ∧
    (¬(0 < ((runOps [Op.bread 0 0] (binit zeroDisk)).buf 1).refcnt ∧
        0 < ((runOps [Op.bread 0 0] (binit zeroDisk)).buf 0).refcnt) ∧
      ¬(((runOps [Op.bread 0 0] (binit zeroDisk)).buf 1).valid = 1 ∧
        ((runOps [Op.bread 0 0] (binit zeroDisk)).buf 0).valid = 1)) :=
  ⟨by decide, by decide, by decide, by decide, by decide, by decide,
    no_duplicate_live (runOps [Op.bread 0 0] (binit zeroDisk))
      (reachable_runOps _ _ (Reachable.init zeroDisk) (by decide)) 1 0 (by decide)
      (by decide) (by decide)⟩

end Bio

namespace Kalloc

/-! ## Claims on the page allocator -/

/-- C7: `kalloc` returns 0 exactly when every `kmem[i].freelist` is empty, and then the
allocator state is unchanged; otherwise the pointer returned is the head of one free
list, exactly that page is removed from the lists, and the number of free pages goes
down by one. -/
theorem kalloc_zero_iff_empty (s : State) (cpu : Nat) (hc : cpu < NCPU) :
    ((kalloc cpu s).1 = 0 ↔ ∀ i, i < NCPU → s.freelist i = 0) ∧
    ((kalloc cpu s).1 = 0 → (kalloc cpu s).2 = s) ∧
    ((kalloc cpu s).1 ≠ 0 → ∀ Ls, FreeRep s Ls →
      ∃ i rest, i < NCPU ∧ Ls i = (kalloc cpu s).1 :: rest ∧
        FreeRep (kalloc cpu s).2 (fun j => if j = i then rest else Ls j) ∧
        freeCount (fun j => if j = i then rest else Ls j) + 1 = freeCount Ls) := by
  rcases kalloc_cases cpu hc s with ⟨h0, hk⟩ | ⟨i, hi, hne, hk⟩
  · rw [hk]
    exact ⟨⟨fun _ => h0, fun _ => rfl⟩, fun _ => rfl, fun h => absurd rfl h⟩
  · rw [hk]
    refine ⟨⟨?_, ?_⟩, ?_, ?_⟩
    · intro h
      exact absurd h hne
    · intro h
      exact absurd (h i hi) hne
    · intro h
      exact absurd h hne
    · intro _ Ls hr
      obtain ⟨rest, hL, hrep⟩ := pop_rep hr i hi hne
      exact ⟨i, rest, hi, hL, hrep, freeCount_pop Ls i hi _ rest hL⟩

/-- C7 on the small machine right after `kinit`, on CPU 0. -/
theorem kalloc_zero_iff_empty_witness :
    ((kalloc 0 boot16).1 = 0 ↔ ∀ i, i < NCPU → boot16.freelist i = 0) ∧
    ((kalloc 0 boot16).1 = 0 → (kalloc 0 boot16).2 = boot16) ∧
    ∃ i rest, i < NCPU ∧ boot16Lists i = (kalloc 0 boot16).1 :: rest ∧
      FreeRep (kalloc 0 boot16).2 (fun j => if j = i then rest else boot16Lists j) ∧
      freeCount (fun j => if j = i then rest else boot16Lists j) + 1 = freeCount boot16Lists :=
  ⟨(kalloc_zero_iff_empty boot16 0 (by decide)).1,
    (kalloc_zero_iff_empty boot16 0 (by decide)).2.1,
    (kalloc_zero_iff_empty boot16 0 (by decide)).2.2 (by decide) boot16Lists boot16_rep⟩

/-- C8, counterexample: on the machine with one free page, once that page is allocated,
two calls of `kalloc` with no `kfree` in between both return 0. -/
theorem kalloc_twice_zero :
    Reach L1 drained1 [0x80007000] ∧ (kalloc 0 drained1).1 = 0 ∧
      (kalloc 0 (kalloc 0 drained1).2).1 = 0 :=
  ⟨Reach.alloc (c := 0) (Reach.init (m := fun _ => 0) (s := boot1) rfl) (by decide)
      (by decide), by decide, by decide⟩

/-- C8 (amended): in a sane layout, in every state reachable from `kinit` by `kalloc` and
by `kfree` of allocated pages, the free lists are duplicate-free and pairwise disjoint
and hold no allocated page; `kalloc` never returns an allocated address; and when a
`kalloc` returns a non-null page, the next `kalloc` (with no `kfree` in between) returns
a different address. -/
theorem no_double_allocation (L : Layout) (hL : L.WF) (s : State) (A : List Nat)
    (h : Reach L s A) :
    (∃ Ls, FreeRep s Ls ∧ ∀ i, i < NCPU → ∀ p, p ∈ Ls i → p ∉ A) ∧
    (∀ cpu, cpu < NCPU → (kalloc cpu s).1 ∉ A) ∧
    (∀ c1 c2, c1 < NCPU → c2 < NCPU → (kalloc c1 s).1 ≠ 0 →
      (kalloc c2 (kalloc c1 s).2).1 ≠ (kalloc c1 s).1) := by
  obtain ⟨Ls, hinv⟩ := reach_inv L hL h
  have hret : ∀ (s1 : State) (A1 : List Nat) (Ls1 : Nat → List Nat), AllocInv s1 A1 Ls1 →
      ∀ cpu, cpu < NCPU → (kalloc cpu s1).1 ∉ A1 := by
    intro s1 A1 Ls1 hi1 cpu hc
    rcases allocInv_kalloc hi1 cpu hc with ⟨h0, _⟩ | ⟨_, h1, _⟩
    · rw [h0]
      intro hm
      exact (hi1.pages 0 hm).2.1 rfl
    · exact h1
  refine ⟨⟨Ls, hinv.rep, hinv.sep⟩, hret s A Ls hinv, ?_⟩
  intro c1 c2 hc1 hc2 hne
  rcases allocInv_kalloc hinv c1 hc1 with ⟨h0, _⟩ | ⟨_, _, Ls1, hinv1⟩
  · exact absurd h0 hne
  · intro e
    have := hret _ _ Ls1 hinv1 c2 hc2
    rw [e] at this
    exact this (List.mem_cons_self _ _)

/-- C8 (amended) on the small machine right after `kinit`. -/
theorem no_double_allocation_witness :
    (∃ Ls, FreeRep boot16 Ls ∧ ∀ i, i < NCPU → ∀ p, p ∈ Ls i → p ∉ ([] : List Nat)) ∧
    (∀ cpu, cpu < NCPU → (kalloc cpu boot16).1 ∉ ([] : List Nat)) ∧
    (∀ c1 c2, c1 < NCPU → c2 < NCPU → (kalloc c1 boot16).1 ≠ 0 →
      (kalloc c2 (kalloc c1 boot16).2).1 ≠ (kalloc c1 boot16).1) :=
  no_double_allocation L16 (by decide) boot16 []
    (Reach.init (m := fun _ => 0) (s := boot16) rfl)

/-- C9: `kfree(pa)` stops in `panic("kfree")` exactly when `pa` is not a multiple of
`PGSIZE`, or `pa < end`, or `pa >= PHYSTOP`, and then the allocator state (free lists and
memory) is the one it was called in; in a sane layout every address that passes the check
is pushed on a free list, the one of its shard: `kfree` returns, `pa` is the new head of
that list, the first 8 bytes of the page hold the previous head as `r->next`, the heads
of the other lists and the memory outside the page are as before, and, the previous head
being a 64-bit pointer, the list is the previous list with `pa` in front. -/
theorem kfree_panic_iff (L : Layout) (pa : Nat) (s : State) :
    ((kfree L pa s).panics PanicMsg.kfree = true ↔
      (pa % PGSIZE ≠ 0 ∨ pa < L.kend ∨ pa ≥ L.PHYSTOP)) ∧
    ((kfree L pa s).panics PanicMsg.kfree = true →
      kfree L pa s = Outcome.panicked PanicMsg.kfree s) ∧
    (L.WF → ¬(pa % PGSIZE ≠ 0 ∨ pa < L.kend ∨ pa ≥ L.PHYSTOP) →
      ∃ s1, kfree L pa s = Outcome.ok () s1 ∧ shard L pa < NCPU ∧
        s1.freelist (shard L pa) = pa ∧
        (∀ k, k < 8 → s1.mem (pa + k) = s.freelist (shard L pa) / 2 ^ (8 * k) % 2 ^ 8) ∧
        (∀ j, j ≠ shard L pa → s1.freelist j = s.freelist j) ∧
        (∀ a, a < pa ∨ pa + PGSIZE ≤ a → s1.mem a = s.mem a) ∧
        (s.freelist (shard L pa) < 2 ^ 64 →
          read64 s1.mem pa = s.freelist (shard L pa) ∧
          ∀ Lp, IsFreeList s.mem (s.freelist (shard L pa)) Lp →
            (∀ p, p ∈ Lp → p % PGSIZE = 0 ∧ p ≠ pa) →
            IsFreeList s1.mem (s1.freelist (shard L pa)) (pa :: Lp))) := by
  by_cases hv : ValidPage L pa
  · have hc : ¬(pa % PGSIZE ≠ 0 ∨ pa < L.kend ∨ pa ≥ L.PHYSTOP) := by
      unfold ValidPage at hv
      omega
    have hnp : (kfree L pa s).panics PanicMsg.kfree = false := by
      rw [kfree_of_valid L pa s hv]
      split <;> rfl
    refine ⟨?_, ?_, ?_⟩
    · rw [hnp]
      simp only [Bool.false_eq_true, false_iff]
      exact hc
    · rw [hnp]
      intro h
      cases h
    · intro hL _
      obtain ⟨hk, hlt⟩ := kfree_ok_of_valid L hL pa hv s
      have hpa0 : pa ≠ 0 := by
        obtain ⟨h0, h1, _⟩ := hL
        obtain ⟨_, v2, _⟩ := hv
        omega
      have hhead : (pushed s (shard L pa) pa).freelist (shard L pa) = pa := by simp [pushed]
      refine ⟨_, hk, hlt, hhead, fun k hk8 => pushed_low s _ pa k hk8, ?_,
        fun a ha => pushed_outside s _ pa a ha, ?_⟩
      · intro j hj
        simp [pushed, hj]
      · intro hptr
        have hnext := pushed_next s (shard L pa) pa hptr
        refine ⟨hnext, ?_⟩
        intro Lp hch hLp
        rw [hhead]
        refine ⟨rfl, hpa0, ?_⟩
        rw [hnext]
        exact pushed_frame s _ pa hv.1 Lp _ hLp hch
  · have hc : pa % PGSIZE ≠ 0 ∨ pa < L.kend ∨ pa ≥ L.PHYSTOP := by
      unfold ValidPage at hv
      omega
    have hk := kfree_of_invalid L pa s hv
    refine ⟨?_, fun _ => hk, fun _ h => absurd hc h⟩
    rw [hk]
    simp only [Outcome.panics, decide_True, true_iff]
    exact hc

/-- C9 on the small machine: page `0x80001000` is freed into the allocator from which it
was taken by CPU 0; it goes back in front of page `0x80000000` on the list of shard 0. -/
theorem kfree_panic_iff_witness :
    ((kfree L16 0x80001000 (kalloc 0 boot16).2).panics PanicMsg.kfree = true ↔
      (0x80001000 % PGSIZE ≠ 0 ∨ 0x80001000 < L16.kend ∨ 0x80001000 ≥ L16.PHYSTOP)) ∧
    ((kfree L16 0x80001000 (kalloc 0 boot16).2).panics PanicMsg.kfree = true →
      kfree L16 0x80001000 (kalloc 0 boot16).2 =
        Outcome.panicked PanicMsg.kfree (kalloc 0 boot16).2) ∧
    ∃ s1, kfree L16 0x80001000 (kalloc 0 boot16).2 = Outcome.ok () s1 ∧
      shard L16 0x80001000 = 0 ∧ s1.freelist 0 = 0x80001000 ∧
      read64 s1.mem 0x80001000 = 0x80000000 ∧
      (∀ j, j ≠ 0 → s1.freelist j = (kalloc 0 boot16).2.freelist j) ∧
      (∀ a, a < 0x80001000 ∨ 0x80001000 + PGSIZE ≤ a →
        s1.mem a = (kalloc 0 boot16).2.mem a) ∧
      IsFreeList s1.mem (s1.freelist 0) [0x80001000, 0x80000000] := by
  obtain ⟨h1, h2, h3⟩ := kfree_panic_iff L16 0x80001000 (kalloc 0 boot16).2
  obtain ⟨s1, hk, _, hhead, _, hothers, hmem, hlist⟩ := h3 (by decide) (by decide)
  have hs : shard L16 0x80001000 = 0 := by decide
  rw [hs] at hhead hothers hlist
  obtain ⟨hnext, hown⟩ := hlist (by decide)
  refine ⟨h1, h2, s1, hk, hs, hhead, hnext.trans (by decide), hothers, hmem, ?_⟩
  refine hown [0x80000000] ⟨rfl, by decide, rfl⟩ ?_
  intro p hp
  simp only [List.mem_singleton] at hp
  subst hp
  decide

/-- C10: in a sane layout, `kfree` of a valid page `pa` returns and makes `pa` the head of
the free list of shard `floor((pa - KERNBASE) * NCPU / (PHYSTOP - KERNBASE))`, a number
computed from `pa` and the layout alone; the `next` word of `pa` is the previous head of
that list, so the old list hangs behind `pa`; the head of every other list is unchanged,
and so is every list made of other pages. -/
theorem kfree_pushes_on_shard (L : Layout) (hL : L.WF) (pa : Nat) (hv : ValidPage L pa)
    (s : State) (hptr : s.freelist (shard L pa) < 2 ^ 64) :
    ∃ s1, kfree L pa s = Outcome.ok () s1 ∧ shard L pa < NCPU ∧
      s1.freelist (shard L pa) = pa ∧
      read64 s1.mem pa = s.freelist (shard L pa) ∧
      (∀ j, j ≠ shard L pa → s1.freelist j = s.freelist j) ∧
      (∀ j Lp, j ≠ shard L pa → IsFreeList s.mem (s.freelist j) Lp →
        (∀ p, p ∈ Lp → p % PGSIZE = 0 ∧ p ≠ pa) → IsFreeList s1.mem (s1.freelist j) Lp) ∧
      (∀ Lp, IsFreeList s.mem (s.freelist (shard L pa)) Lp →
        (∀ p, p ∈ Lp → p % PGSIZE = 0 ∧ p ≠ pa) →
        IsFreeList s1.mem (s1.freelist (shard L pa)) (pa :: Lp)) := by
  obtain ⟨hk, hlt⟩ := kfree_ok_of_valid L hL pa hv s
  have hpa0 : pa ≠ 0 := by
    obtain ⟨h0, h1, _⟩ := hL
    obtain ⟨_, v2, _⟩ := hv
    omega
  have hhead : (pushed s (shard L pa) pa).freelist (shard L pa) = pa := by simp [pushed]
  have hnext := pushed_next s (shard L pa) pa hptr
  refine ⟨_, hk, hlt, hhead, hnext, ?_, ?_, ?_⟩
  · intro j hj
    simp [pushed, hj]
  · intro j Lp hj hch hLp
    have : (pushed s (shard L pa) pa).freelist j = s.freelist j := by simp [pushed, hj]
    rw [this]
    exact pushed_frame s _ pa hv.1 Lp _ hLp hch
  · intro Lp hch hLp
    rw [hhead]
    refine ⟨rfl, hpa0, ?_⟩
    rw [hnext]
    exact pushed_frame s _ pa hv.1 Lp _ hLp hch

/-- C10 on the small machine: page `0x80003000` is freed into the allocator from which
CPU 1 took it; it goes back to the head of shard 1, in front of page `0x80002000`, and
the list of shard 0 is as before. -/
theorem kfree_pushes_on_shard_witness :
    ∃ s1, kfree L16 0x80003000 (kalloc 1 boot16).2 = Outcome.ok () s1 ∧
      shard L16 0x80003000 = 1 ∧
      s1.freelist 1 = 0x80003000 ∧
      read64 s1.mem 0x80003000 = 0x80002000 ∧
      (∀ j, j ≠ 1 → s1.freelist j = (kalloc 1 boot16).2.freelist j) ∧
      IsFreeList s1.mem (s1.freelist 0) [0x80001000, 0x80000000] ∧
      IsFreeList s1.mem (s1.freelist 1) [0x80003000, 0x80002000] := by
  obtain ⟨s1, hk, _, hhead, hnext, hothers, hframe, hown⟩ :=
    kfree_pushes_on_shard L16 (by decide) 0x80003000 (by decide) (kalloc 1 boot16).2 (by decide)
  have hs : shard L16 0x80003000 = 1 := by decide
  rw [hs] at hhead hnext hothers hframe hown
  refine ⟨s1, hk, hs, hhead, hnext.trans (by decide), hothers, ?_, ?_⟩
  · refine hframe 0 _ (by decide) ⟨rfl, by decide, rfl, by decide, rfl⟩ ?_
    intro p hp
    simp only [List.mem_cons, List.mem_singleton, List.not_mem_nil, or_false] at hp
    rcases hp with rfl | rfl <;> decide
  · refine hown [0x80002000] ⟨rfl, by decide, rfl⟩ ?_
    intro p hp
    simp only [List.mem_singleton] at hp
    subst hp
    decide

/-- C14, counterexample: on the small machine, when page `0x80003000` is freed into the
allocator from which CPU 1 took it, `kfree` returns and the first byte of the page is 0,
the low byte of the previous list head `0x80002000`, not the fill byte 1. -/
theorem kfree_next_overwrites_fill :
    (kfree L16 0x80003000 (kalloc 1 boot16).2).returns = true ∧
    ((kfree L16 0x80003000 (kalloc 1 boot16).2).stateD boot16).mem 0x80003000 = 0 ∧
    ((kfree L16 0x80003000 (kalloc 1 boot16).2).stateD boot16).mem 0x80003001 = 0x20 := by
  decide

/-- C14 (amended): when `kfree(pa)` returns, the bytes at offsets 8 to `PGSIZE - 1` of
the page at `pa` hold the fill byte 1, and the bytes at offsets 0 to 7 hold the `next`
pointer, that is the previous head of the free list the page was pushed on, in
little-endian order. -/
theorem kfree_fill (L : Layout) (pa : Nat) (s s1 : State)
    (h : kfree L pa s = Outcome.ok () s1) :
    (∀ k, 8 ≤ k → k < PGSIZE → s1.mem (pa + k) = 1) ∧
    ∃ i, i < NCPU ∧ s1.freelist i = pa ∧
      ∀ k, k < 8 → s1.mem (pa + k) = s.freelist i / 2 ^ (8 * k) % 2 ^ 8 := by
  obtain ⟨_, i, hi, _, hs1⟩ := kfree_ok_inv h
  subst hs1
  refine ⟨fun k h8 hk => pushed_fill s i pa k h8 hk, i, hi, by simp [pushed], ?_⟩
  intro k hk
  exact pushed_low s i pa k hk

/-- C14 (amended) on the small machine, for page `0x80003000` freed into the allocator
from which CPU 1 took it. -/
theorem kfree_fill_witness :
    (∀ k, 8 ≤ k → k < PGSIZE →
      ((kfree L16 0x80003000 (kalloc 1 boot16).2).stateD boot16).mem (0x80003000 + k) = 1) ∧
    ∃ i, i < NCPU ∧
      ((kfree L16 0x80003000 (kalloc 1 boot16).2).stateD boot16).freelist i = 0x80003000 ∧
      ∀ k, k < 8 →
        ((kfree L16 0x80003000 (kalloc 1 boot16).2).stateD boot16).mem (0x80003000 + k) =
          (kalloc 1 boot16).2.freelist i / 2 ^ (8 * k) % 2 ^ 8 :=
  kfree_fill L16 0x80003000 (kalloc 1 boot16).2 _ rfl

/-- C20, counterexample: with `KERNBASE = end = 4096` and `PHYSTOP = 2 ^ 63` the address
`2 ^ 62` passes the validation of `kfree`, and the product `(pa - KERNBASE) * NCPU` is at
least `2 ^ 64`: it wraps, and the index computed is 1 while
`floor((pa - KERNBASE) * NCPU / (PHYSTOP - KERNBASE))` is 3. -/
theorem kfree_index_product_wraps :
    Lbig.KERNBASE ≤ Lbig.kend ∧ Lbig.kend < Lbig.PHYSTOP ∧ Lbig.PHYSTOP < 2 ^ 64 ∧
    ValidPage Lbig (2 ^ 62) ∧
    sub64 (2 ^ 62) Lbig.KERNBASE = 2 ^ 62 - 4096 ∧
    2 ^ 64 ≤ sub64 (2 ^ 62) Lbig.KERNBASE * NCPU ∧
    kfree_index Lbig (2 ^ 62) = 1 ∧
    (2 ^ 62 - Lbig.KERNBASE) * NCPU / (Lbig.PHYSTOP - Lbig.KERNBASE) = 3 ∧
    shard Lbig (2 ^ 62) = 3 := by
  decide

/-- C20 (amended): when the kernel image starts at `KERNBASE` (`KERNBASE <= end`, 64-bit
addresses; `end < PHYSTOP` follows from the validation of `pa`), the index that `kfree` computes for an address passing its validation
lies in `[0, 7] = [0, NCPU - 1]`, so `kfree` returns instead of reaching
`panic("func > kfree: index out of bounds")` and the list it pushes on is one of the
`NCPU` lists; the product `(pa - KERNBASE) * NCPU` does not overflow when
`(PHYSTOP - KERNBASE) * NCPU` fits in 64 bits, and the index is then
`floor((pa - KERNBASE) * NCPU / (PHYSTOP - KERNBASE))`. -/
theorem kfree_index_in_bounds (L : Layout) (h1 : L.KERNBASE ≤ L.kend)
    (h3 : L.PHYSTOP < 2 ^ 64) (pa : Nat) (hv : ValidPage L pa) (s : State) :
    0 ≤ kfree_index L pa ∧ kfree_index L pa ≤ 7 ∧ (7 : Int) = (NCPU : Int) - 1 ∧
    (kfree_index L pa).toNat < NCPU ∧
    (∀ m s1, kfree L pa s ≠ Outcome.panicked m s1) ∧
    (kfree L pa s).returns = true ∧
    ((L.PHYSTOP - L.KERNBASE) * NCPU < 2 ^ 64 →
      sub64 pa L.KERNBASE * NCPU < 2 ^ 64 ∧ kfree_index L pa = (shard L pa : Int)) := by
  obtain ⟨hlo, hhi⟩ := kfree_index_bounds L h1 h3 pa hv
  have hk := kfree_of_valid L pa s hv
  rw [if_neg (by omega)] at hk
  refine ⟨hlo, hhi, by decide, ?_, ?_, ?_, ?_⟩
  · show (kfree_index L pa).toNat < 8
    omega
  · intro m s1 h
    rw [hk] at h
    cases h
  · rw [hk]
    rfl
  · intro hprod
    exact kfree_index_shard L h1 h3 hprod pa hv

/-- C20 (amended) on the small machine and page `0x80003000`. -/
theorem kfree_index_in_bounds_witness :
    0 ≤ kfree_index L16 0x80003000 ∧ kfree_index L16 0x80003000 ≤ 7 ∧
    (7 : Int) = (NCPU : Int) - 1 ∧
    (kfree_index L16 0x80003000).toNat < NCPU ∧
    (∀ m s1, kfree L16 0x80003000 (kalloc 1 boot16).2 ≠ Outcome.panicked m s1) ∧
    (kfree L16 0x80003000 (kalloc 1 boot16).2).returns = true ∧
    sub64 0x80003000 L16.KERNBASE * NCPU < 2 ^ 64 ∧
    kfree_index L16 0x80003000 = (shard L16 0x80003000 : Int) :=
  match kfree_index_in_bounds L16 (by decide) (by decide) 0x80003000 (by decide)
      (kalloc 1 boot16).2 with
  | ⟨a, b, c, d, e, f, g⟩ => ⟨a, b, c, d, e, f, (g (by decide)).1, (g (by decide)).2⟩

/-- C12: in a sane layout, in every state reachable from `kinit`, `kalloc` on CPU `c`
returns the head of `kmem[c].freelist` when that list is not empty; when it is empty and
list `i` is the non-empty list of lowest index, `kalloc` returns the head of list `i`,
and the shard of the returned address is `i`, which is not `c`. -/
theorem kalloc_local_first (L : Layout) (hL : L.WF) (s : State) (A : List Nat)
    (h : Reach L s A) (c : Nat) (hc : c < NCPU) :
    (s.freelist c ≠ 0 → (kalloc c s).1 = s.freelist c ∧ shard L (kalloc c s).1 = c) ∧
    (s.freelist c = 0 → ∀ i, i < NCPU → s.freelist i ≠ 0 → (∀ j, j < i → s.freelist j = 0) →
      (kalloc c s).1 = s.freelist i ∧ shard L (kalloc c s).1 = i ∧
        shard L (kalloc c s).1 ≠ c) := by
  obtain ⟨Ls, hinv⟩ := reach_inv L hL h
  have hhome := reach_home L hL h Ls hinv.rep
  have hhead : ∀ i, i < NCPU → s.freelist i ≠ 0 → shard L (s.freelist i) = i := by
    intro i hi hne
    obtain ⟨rest, hLi, _⟩ := isFreeList_head (hinv.rep.chain i hi) hne
    exact hhome i hi _ (by rw [hLi]; simp)
  constructor
  · intro hne
    rw [(kalloc_first c s).1 hne]
    exact ⟨rfl, hhead c hc hne⟩
  · intro h0 i hi hne hlow
    rw [(kalloc_first c s).2 h0 i hi hne hlow]
    refine ⟨rfl, hhead i hi hne, ?_⟩
    show shard L (s.freelist i) ≠ c
    rw [hhead i hi hne]
    intro e
    subst e
    exact hne h0

/-- C12 on the small machine: right after `kinit` CPU 0 gets the head of its own list;
once its two pages are taken, CPU 0 gets the head of list 1, a page of shard 1. -/
theorem kalloc_local_first_witness :
    ((kalloc 0 boot16).1 = boot16.freelist 0 ∧ shard L16 (kalloc 0 boot16).1 = 0) ∧
    ((kalloc 0 localEmpty16).1 = localEmpty16.freelist 1 ∧
      shard L16 (kalloc 0 localEmpty16).1 = 1 ∧ shard L16 (kalloc 0 localEmpty16).1 ≠ 0) :=
  ⟨(kalloc_local_first L16 (by decide) boot16 []
      (Reach.init (m := fun _ => 0) (s := boot16) rfl) 0 (by decide)).1 (by decide),
    (kalloc_local_first L16 (by decide) localEmpty16 _
      (Reach.alloc (c := 0) (Reach.alloc (c := 0)
        (Reach.init (m := fun _ => 0) (s := boot16) rfl) (by decide) (by decide))
        (by decide) (by decide)) 0 (by decide)).2 (by decide) 1 (by decide) (by decide)
      (fun j hj => by interval_cases j; decide)⟩

/-- C11, counterexample: on a machine whose kernel image takes the first 8 pages above
`KERNBASE`, followed by a free range of `16 = NCPU * 2` pages up to `PHYSTOP`, `kinit`
returns, `kmem[0].freelist` is empty and `kmem[3].freelist` holds 3 pages, not 2 each. -/
theorem kinit_uneven :
    kinit L24 (fun _ => 0) = Outcome.ok () boot24 ∧
    PGROUNDUP L24.kend + NCPU * 2 * PGSIZE = L24.PHYSTOP ∧
    boot24.freelist 0 = 0 ∧
    IsFreeList boot24.mem (boot24.freelist 3) [0x8000b000, 0x8000a000, 0x80009000] :=
  ⟨rfl, by decide, by decide, rfl, by decide, rfl, by decide, rfl, by decide, rfl⟩

/-- C11 (amended): in a sane layout, `kinit` over a free range of `n` whole pages starting
at the first page boundary at or above `end` returns; every page of the range is then on
exactly one free list, the list of its shard
`floor((pa - KERNBASE) * NCPU / (PHYSTOP - KERNBASE))`, and on no other; the pages of one
list form one contiguous address range; and when the free range starts at `KERNBASE` and
holds `n = NCPU * m` pages up to `PHYSTOP`, every list holds exactly `m` pages. -/
theorem kinit_partition (L : Layout) (hL : L.WF) (n : Nat)
    (hs : L.kend ≤ PGROUNDUP L.kend) (h1 : PGROUNDUP L.kend + n * PGSIZE ≤ L.PHYSTOP)
    (h2 : L.PHYSTOP < PGROUNDUP L.kend + (n + 1) * PGSIZE) (m0 : Nat → Nat) :
    ∃ s, kinit L m0 = Outcome.ok () s ∧ FreeRep s (bootLists L n) ∧
      (∀ k, k < n → shard L (PGROUNDUP L.kend + k * PGSIZE) < NCPU ∧
        ∀ i, i < NCPU → (PGROUNDUP L.kend + k * PGSIZE ∈ bootLists L n i ↔
          i = shard L (PGROUNDUP L.kend + k * PGSIZE))) ∧
      (∀ i a b c, a ≤ b → b ≤ c → c < n →
        PGROUNDUP L.kend + a * PGSIZE ∈ bootLists L n i →
        PGROUNDUP L.kend + c * PGSIZE ∈ bootLists L n i →
        PGROUNDUP L.kend + b * PGSIZE ∈ bootLists L n i) ∧
      (∀ m, PGROUNDUP L.kend = L.KERNBASE → n = NCPU * m →
        L.PHYSTOP = L.KERNBASE + n * PGSIZE →
        ∀ i, i < NCPU → (bootLists L n i).length = m) := by
  obtain ⟨s, hk, hr⟩ := kinit_lists L hL n hs h1 h2 m0
  have hal := PGROUNDUP_aligned L.kend
  have hvalid : ∀ k, k < n → ValidPage L (PGROUNDUP L.kend + k * PGSIZE) := by
    intro k hkn
    refine ⟨?_, ?_, ?_⟩
    · rw [Nat.add_mul_mod_self_right]
      exact hal
    · simp only [PGSIZE] at *
      omega
    · simp only [PGSIZE] at *
      omega
  have hpage : ∀ k i, k < n → shard L (PGROUNDUP L.kend + k * PGSIZE) = i →
      PGROUNDUP L.kend + k * PGSIZE ∈ bootLists L n i :=
    fun k i hkn hsh => (mem_bootLists L n i _).mpr ⟨k, hkn, rfl, hsh⟩
  refine ⟨s, hk, hr, ?_, ?_, ?_⟩
  · intro k hkn
    refine ⟨(kfree_index_eq L hL _ (hvalid k hkn)).2, ?_⟩
    intro i _
    constructor
    · intro hm
      obtain ⟨_, _, _, hsh⟩ := (mem_bootLists L n i _).mp hm
      exact hsh.symm
    · intro e
      exact hpage k i hkn e.symm
  · intro i a b c hab hbc hcn ha hc
    obtain ⟨_, _, _, hsa⟩ := (mem_bootLists L n i _).mp ha
    obtain ⟨_, _, _, hsc⟩ := (mem_bootLists L n i _).mp hc
    have hle1 : PGROUNDUP L.kend + a * PGSIZE ≤ PGROUNDUP L.kend + b * PGSIZE :=
      Nat.add_le_add_left (Nat.mul_le_mul_right _ hab) _
    have hle2 : PGROUNDUP L.kend + b * PGSIZE ≤ PGROUNDUP L.kend + c * PGSIZE :=
      Nat.add_le_add_left (Nat.mul_le_mul_right _ hbc) _
    have m1 := shard_mono L hle1
    have m2 := shard_mono L hle2
    exact hpage b i (by omega) (by omega)
  · intro m hstart hn hp i hi
    subst hn
    exact bootLists_length_even L m hstart hp i hi

/-- C11 (amended) on the small machine: 16 free pages starting at `KERNBASE`, two pages
on every list. -/
theorem kinit_partition_witness :
    ∃ s, kinit L16 (fun _ => 0) = Outcome.ok () s ∧ FreeRep s (bootLists L16 16) ∧
      (∀ k, k < 16 → shard L16 (PGROUNDUP L16.kend + k * PGSIZE) < NCPU ∧
        ∀ i, i < NCPU → (PGROUNDUP L16.kend + k * PGSIZE ∈ bootLists L16 16 i ↔
          i = shard L16 (PGROUNDUP L16.kend + k * PGSIZE))) ∧
      (∀ i a b c, a ≤ b → b ≤ c → c < 16 →
        PGROUNDUP L16.kend + a * PGSIZE ∈ bootLists L16 16 i →
        PGROUNDUP L16.kend + c * PGSIZE ∈ bootLists L16 16 i →
        PGROUNDUP L16.kend + b * PGSIZE ∈ bootLists L16 16 i) ∧
      ∀ i, i < NCPU → (bootLists L16 16 i).length = 2 :=
  match kinit_partition L16 (by decide) 16 (by decide) (by decide) (by decide) (fun _ => 0) with
  | ⟨s, h1, h2, h3, h4, h5⟩ => ⟨s, h1, h2, h3, h4, h5 2 (by decide) (by decide) (by decide)⟩

end Kalloc

namespace Locks

/-! ## Claims on the lock events -/

/-- C18: lock discipline of each call. In a cache whose bucket lists are well formed
(every reachable state is one) `bget` ends, and the lock events of `bget`, and in every
state those of `brelse`, `bpin`, `bunpin`, `kfree` and `kalloc`, never have two shard
spinlocks held at the same time, leave no shard spinlock held when the call returns or
stops in `panic`, and call `acquiresleep` only while no shard spinlock is held. -/
theorem lock_discipline (s : Bio.State) (hw : Bio.WellFormed s) (dev blockno b : Nat)
    (holding : Bool) (L : Kalloc.Layout) (pa cpu : Nat) (k : Kalloc.State) :
    (∃ tr, Bio.bget_events dev blockno s = some tr ∧ Discipline tr) ∧
    Discipline (Bio.brelse_events holding b s) ∧
    Discipline (Bio.bpin_events b s) ∧
    Discipline (Bio.bunpin_events b s) ∧
    Discipline (Kalloc.kfree_events L pa k) ∧
    Discipline (Kalloc.kalloc_events cpu k) := by
  refine ⟨?_, ?_, ?_, ?_, ?_, ?_⟩
  · obtain ⟨tr, h1, h2⟩ := Bio.bget_events_check hw dev blockno
    exact ⟨tr, h1, discipline_of_check h2⟩
  · exact discipline_of_check (Bio.brelse_events_check holding b s)
  · exact discipline_of_check (by simp [Bio.bpin_events, check, step])
  · exact discipline_of_check (by simp [Bio.bunpin_events, check, step])
  · exact discipline_of_check (Kalloc.kfree_events_check L pa k)
  · exact discipline_of_check (Kalloc.kalloc_events_check cpu k)

/-- C18 on a full home bucket: after `bget(0, 0)` and `bget(0, 13)` both buffers of
bucket 0 are referenced, and `bget(0, 26)` unlocks bucket 0, visits bucket 1, takes its
free buffer 3 with the lock of bucket 1 released, and locks bucket 0 again to link it. -/
theorem lock_discipline_witness :
    Bio.WellFormed (Bio.runOps [Bio.Op.bget 0 0, Bio.Op.bget 0 13] (Bio.binit Bio.zeroDisk)) ∧
    Bio.bget_events 0 26 (Bio.runOps [Bio.Op.bget 0 0, Bio.Op.bget 0 13] (Bio.binit Bio.zeroDisk)) =
      some [Event.acquire 0, Event.release 0, Event.acquire 1, Event.release 1,
        Event.acquiresleep 3, Event.acquire 0, Event.release 0] ∧
    ((∃ tr, Bio.bget_events 0 26
        (Bio.runOps [Bio.Op.bget 0 0, Bio.Op.bget 0 13] (Bio.binit Bio.zeroDisk)) = some tr ∧
        Discipline tr) ∧
      Discipline (Bio.brelse_events true 3
        (Bio.runOps [Bio.Op.bget 0 0, Bio.Op.bget 0 13] (Bio.binit Bio.zeroDisk))) ∧
      Discipline (Bio.bpin_events 3
        (Bio.runOps [Bio.Op.bget 0 0, Bio.Op.bget 0 13] (Bio.binit Bio.zeroDisk))) ∧
      Discipline (Bio.bunpin_events 3
        (Bio.runOps [Bio.Op.bget 0 0, Bio.Op.bget 0 13] (Bio.binit Bio.zeroDisk))) ∧
      Discipline (Kalloc.kfree_events Kalloc.L16 0x80001000 Kalloc.localEmpty16) ∧
      Discipline (Kalloc.kalloc_events 0 Kalloc.localEmpty16)) :=
  ⟨Bio.reachable_wellFormed
      (Bio.reachable_runOps _ _ (Bio.Reachable.init Bio.zeroDisk) (by decide)),
    by decide,
    lock_discipline _
      (Bio.reachable_wellFormed
        (Bio.reachable_runOps _ _ (Bio.Reachable.init Bio.zeroDisk) (by decide)))
      0 26 3 true Kalloc.L16 0x80001000 0 Kalloc.localEmpty16⟩

end Locks
